import Mathlib

/-! DirectDictionary: order-preserving sparse merge and hierarchy traversal

A shallow embedding of `src/Dictionaries/DirectDictionary.cpp`.

* Keys are a type `κ` with decidable equality (`UInt64` for simple keys, a byte
  span compared by content for complex keys); `UInt64` values are natural numbers
  (the code compares and copies them, it never does arithmetic on them).
* `Field` values are a type `ν`.
* A block read from the source stream is a list of rows; a row carries its key and
  the values of the attribute columns, addressed by attribute index.
* The mutable state touched by the queries (the `query_count` member and the
  requests sent to the source) is passed explicitly.
-/

namespace DirectDictionary

/-! ## Data model -/

/-- Template parameter `dictionary_key_type` of `DirectDictionary`
(`DictionaryKeyType::range` is excluded by the `static_assert` of line 38). -/
inductive DictionaryKeyType where
  | simple
  | complex
  deriving DecidableEq, Repr

/-- Error codes of `namespace ErrorCodes`, lines 13-18. -/
inductive ErrorCode where
  | TYPE_MISMATCH
  | UNSUPPORTED_METHOD
  | BAD_ARGUMENTS
  deriving DecidableEq, Repr

/-- Modelled from the spec: `AttributeUnderlyingType` is declared in
`DictionaryStructure.h`, which is not part of the sources; the code only compares
it with `utUInt64` (line 470). -/
inductive AttributeUnderlyingType where
  | utUInt8 | utUInt16 | utUInt32 | utUInt64 | utUInt128
  | utInt8 | utInt16 | utInt32 | utInt64
  | utFloat32 | utFloat64
  | utDecimal32 | utDecimal64 | utDecimal128
  | utString
  deriving DecidableEq, Repr

/-- The fields of `DictionaryAttribute` read by this file: `name`, `underlying_type`,
`null_value` and `hierarchical`. -/
structure DictionaryAttribute (ν : Type) where
  name : String
  underlying_type : AttributeUnderlyingType
  null_value : ν
  hierarchical : Bool

/-- One row of a `Block` returned by the source stream: the key extracted from the
leading key columns (`block_keys[block_key_index]`) and the values of the attribute
columns at that row, `attrs a` being the value of the column found at position
`dictionary_keys_size + a` of the block. -/
structure Row (κ ν : Type) where
  key : κ
  attrs : Nat → ν

/-- A `Block`: its rows in row order (all columns of a block have the same number of
rows). A block with columns and zero rows is a valid, non-terminating block. -/
abbrev Block (κ ν : Type) := List (Row κ ν)

/-- What `stream->read()` yields until it returns the empty block: the sequence of
blocks of one answer of the source. -/
abbrev BlockStream (κ ν : Type) := List (Block κ ν)

/-- The source `source_ptr`, as far as the keyed queries use it: the answer to
`loadIds(ids)` (simple keys) or `loadKeys(key_columns, requested_rows)` with all
rows requested (complex keys), lines 419-448. -/
abbrev DictionarySource (κ ν : Type) := List κ → BlockStream κ ν

/-- Mutable state observed across calls: the member `query_count`, an unsigned
machine word whose value lies below `2 ^ 64`, and the log of requests sent to the
source (one entry per `loadIds`/`loadKeys` call, holding the keys asked for). -/
structure DictState (κ : Type) where
  query_count : Nat
  source_requests : List (List κ)

/-- Modelled from the spec: `query_count` is declared in `DirectDictionary.h`, which
is not part of the sources, as an atomic unsigned counter of machine-word size.
The value of the counter after `query_count.fetch_add(value)`: the addition wraps
around at `2 ^ 64`. -/
def fetch_add (counter value : Nat) : Nat :=
  (counter + value) % 2 ^ 64

/-- All rows of a stream in the order in which they are read: batch order, then row
order. -/
def streamRows {κ ν : Type} (stream : BlockStream κ ν) : List (Row κ ν) :=
  stream.flatten

/-- Keys of the rows of a stream, in reading order. -/
def streamKeys {κ ν : Type} (stream : BlockStream κ ν) : List κ :=
  (streamRows stream).map Row.key

/-! ## DefaultValueProvider (lines 103-124) -/

/-- Class `DefaultValueProvider`: the constant `default_value` and the optional
`default_values_column` (`none` is the null pointer); a column is given by its
indexing operator. -/
structure DefaultValueProvider (ν : Type) where
  default_value : ν
  default_values_column : Option (Nat → ν)

/-- Method `DefaultValueProvider::getDefaultValue`, lines 113-119. -/
def DefaultValueProvider.getDefaultValue {ν : Type} (p : DefaultValueProvider ν) (row : Nat) : ν :=
  match p.default_values_column with
  | some column => column row
  | none => p.default_value

/-! ## getColumn (lines 248-345) -/

/-- Local state of the merge loop of `getColumn`: the cursor `requested_key_index`
and the `result` column built so far (`result->insert` appends). -/
structure MergeState (ν : Type) where
  requested_key_index : Nat
  result : List ν

/-- The inner `while` loop of lines 309-315: while the cursor is inside
`requested_keys` and `block_key != requested_keys[requested_key_index]`, insert the
default for `requested_key_index` and advance. Each iteration advances the cursor,
so `requested_keys.size() - requested_key_index` iterations suffice; the first
argument counts the remaining ones. -/
def insertDefaultsUntilMatch {κ ν : Type} [DecidableEq κ] (requested_keys : List κ)
    (default_value_provider : DefaultValueProvider ν) (block_key : κ) :
    Nat → MergeState ν → MergeState ν
  | 0, st => st
  | fuel + 1, st =>
    if st.requested_key_index < requested_keys.length ∧
        requested_keys[st.requested_key_index]? ≠ some block_key then
      insertDefaultsUntilMatch requested_keys default_value_provider block_key fuel
        { requested_key_index := st.requested_key_index + 1
          result := st.result ++ [default_value_provider.getDefaultValue st.requested_key_index] }
    else st

/-- Body of the `for` loop over the rows of a block, lines 307-319: skip with
defaults, then insert the value of the block row and advance the cursor
(unconditionally). -/
def processBlockRow {κ ν : Type} [DecidableEq κ] (requested_keys : List κ)
    (default_value_provider : DefaultValueProvider ν) (requested_attribute_index : Nat)
    (st : MergeState ν) (row : Row κ ν) : MergeState ν :=
  let st1 := insertDefaultsUntilMatch requested_keys default_value_provider row.key
    (requested_keys.length - st.requested_key_index) st
  { requested_key_index := st1.requested_key_index + 1
    result := st1.result ++ [row.attrs requested_attribute_index] }

/-- The `for` loop over the rows of one block, lines 305-320. -/
def processBlock {κ ν : Type} [DecidableEq κ] (requested_keys : List κ)
    (default_value_provider : DefaultValueProvider ν) (requested_attribute_index : Nat)
    (st : MergeState ν) (block : Block κ ν) : MergeState ν :=
  block.foldl (processBlockRow requested_keys default_value_provider requested_attribute_index) st

/-- The `while (const auto block = stream->read())` loop, lines 285-321. -/
def processStream {κ ν : Type} [DecidableEq κ] (requested_keys : List κ)
    (default_value_provider : DefaultValueProvider ν) (requested_attribute_index : Nat)
    (st : MergeState ν) (stream : BlockStream κ ν) : MergeState ν :=
  stream.foldl (processBlock requested_keys default_value_provider requested_attribute_index) st

/-- The tail loop of lines 329-333: insert the default for every remaining
requested index. The first argument counts the remaining iterations
(`requested_keys_size - requested_key_index` suffice). -/
def processTail {ν : Type} (requested_keys_size : Nat)
    (default_value_provider : DefaultValueProvider ν) : Nat → MergeState ν → MergeState ν
  | 0, st => st
  | fuel + 1, st =>
    if st.requested_key_index < requested_keys_size then
      processTail requested_keys_size default_value_provider fuel
        { requested_key_index := st.requested_key_index + 1
          result := st.result ++ [default_value_provider.getDefaultValue st.requested_key_index] }
    else st

/-- The result column of `getColumn` for an already opened stream: lines 264-333
with the keys extracted (`requested_keys`), the attribute resolved (`attr`,
`requested_attribute_index`) and the stream answered. -/
def getColumnResult {κ ν : Type} [DecidableEq κ] (attr : DictionaryAttribute ν)
    (requested_attribute_index : Nat) (requested_keys : List κ)
    (default_values_column : Option (Nat → ν)) (stream : BlockStream κ ν) : List ν :=
  let default_value_provider : DefaultValueProvider ν :=
    { default_value := attr.null_value, default_values_column := default_values_column }
  let st := processStream requested_keys default_value_provider requested_attribute_index
    { requested_key_index := 0, result := [] } stream
  let st2 := processTail requested_keys.length default_value_provider
    (requested_keys.length - st.requested_key_index) st
  st2.result

/-- Method `DirectDictionary::getColumn`, lines 264-344, after the attribute has been
resolved and the requested keys extracted: asks the source for exactly the
requested keys, merges the answer and adds `requested_keys.size()` to
`query_count` with `fetch_add`. Returns the result column and the new state. -/
def getColumn {κ ν : Type} [DecidableEq κ] (source_ptr : DictionarySource κ ν)
    (attr : DictionaryAttribute ν) (requested_attribute_index : Nat)
    (requested_keys : List κ) (default_values_column : Option (Nat → ν))
    (st : DictState κ) : List ν × DictState κ :=
  let stream := source_ptr requested_keys
  (getColumnResult attr requested_attribute_index requested_keys default_values_column stream,
    { query_count := fetch_add st.query_count requested_keys.length
      source_requests := st.source_requests ++ [requested_keys] })

/-! ## hasKeys (lines 347-416) -/

/-- An unchecked array write `arr[i] = x`: defined only inside the array. `none`
stands for a write outside the array (undefined behaviour). -/
def writeAt {α : Type} (arr : List α) (i : Nat) (x : α) : Option (List α) :=
  if i < arr.length then some (arr.set i x) else none

/-- Local state of the loop of `hasKeys`: the cursor and the array `result_data`. -/
structure HasKeysState where
  requested_key_index : Nat
  result_data : List Bool

/-- The inner `while` loop of lines 397-402: writes `false` at the cursor and
advances while the requested key differs from the block key. The first argument
counts the remaining iterations (`requested_keys.size() - requested_key_index`
suffice). -/
def markAbsentUntilMatch {κ : Type} [DecidableEq κ] (requested_keys : List κ) (block_key : κ) :
    Nat → HasKeysState → Option HasKeysState
  | 0, st => some st
  | fuel + 1, st =>
    if st.requested_key_index < requested_keys.length ∧
        requested_keys[st.requested_key_index]? ≠ some block_key then
      match writeAt st.result_data st.requested_key_index false with
      | none => none
      | some result_data =>
        markAbsentUntilMatch requested_keys block_key fuel
          { requested_key_index := st.requested_key_index + 1, result_data := result_data }
    else some st

/-- Body of the `for` loop over the rows of a block, lines 395-405: skip, then
`result_data[requested_key_index] = true` (unchecked) and advance. -/
def hasKeysBlockRow {κ ν : Type} [DecidableEq κ] (requested_keys : List κ)
    (st : HasKeysState) (row : Row κ ν) : Option HasKeysState :=
  match markAbsentUntilMatch requested_keys row.key
      (requested_keys.length - st.requested_key_index) st with
  | none => none
  | some st1 =>
    match writeAt st1.result_data st1.requested_key_index true with
    | none => none
    | some result_data =>
      some { requested_key_index := st1.requested_key_index + 1, result_data := result_data }

/-- The `for` loop over the rows of one block, lines 393-406. -/
def hasKeysBlock {κ ν : Type} [DecidableEq κ] (requested_keys : List κ) :
    HasKeysState → Block κ ν → Option HasKeysState
  | st, [] => some st
  | st, row :: rows =>
    match hasKeysBlockRow requested_keys st row with
    | none => none
    | some st1 => hasKeysBlock requested_keys st1 rows

/-- The `while (const auto block = stream->read())` loop, lines 375-407. -/
def hasKeysStream {κ ν : Type} [DecidableEq κ] (requested_keys : List κ) :
    HasKeysState → BlockStream κ ν → Option HasKeysState
  | st, [] => some st
  | st, block :: blocks =>
    match hasKeysBlock requested_keys st block with
    | none => none
    | some st1 => hasKeysStream requested_keys st1 blocks

/-- The result column of `hasKeys` for an answered stream, lines 357-407: created
with `requested_keys_size` entries `false`, then filled by the loop. -/
def hasKeysResult {κ ν : Type} [DecidableEq κ] (requested_keys : List κ)
    (stream : BlockStream κ ν) : Option (List Bool) :=
  match hasKeysStream requested_keys
      { requested_key_index := 0, result_data := List.replicate requested_keys.length false }
      stream with
  | none => none
  | some st => some st.result_data

/-- Method `DirectDictionary::hasKeys`, lines 355-415, after key extraction. `none` when a
write fell outside `result_data`. -/
def hasKeys {κ ν : Type} [DecidableEq κ] (source_ptr : DictionarySource κ ν)
    (requested_keys : List κ) (st : DictState κ) : Option (List Bool × DictState κ) :=
  match hasKeysResult requested_keys (source_ptr requested_keys) with
  | none => none
  | some result =>
    some (result,
      { query_count := fetch_add st.query_count requested_keys.length
        source_requests := st.source_requests ++ [requested_keys] })

/-! ## getValueOrNullByKey (lines 167-206) -/

/-- Local variables `is_found` and `result` of `getValueOrNullByKey`. -/
structure LookupState where
  is_found : Bool
  result : Nat

/-- The loop over the rows of a block for one attribute index, lines 189-199.
`attribute_name` is `attribute_name_by_index.at(attribute_idx)`. Leaves at the first
row whose id is `to_find` when the attribute name is the hierarchical one. -/
def scanRows (hierarchical_name : String) (to_find : Nat) (attribute_idx : Nat)
    (attribute_name : String) : List (Row Nat Nat) → LookupState → LookupState
  | [], st => st
  | row :: rows, st =>
    if row.key = to_find ∧ hierarchical_name = attribute_name then
      { is_found := true, result := row.attrs attribute_idx }
    else scanRows hierarchical_name to_find attribute_idx attribute_name rows st

/-- The loop over the attribute indexes for one block, lines 182-200; the list is
the not yet visited part of `dict_struct.attributes`, whose names `setup` stored in
`attribute_name_by_index`, and the number is the index of its head. -/
def scanAttributes (hierarchical_name : String) (to_find : Nat) (block : Block Nat Nat) :
    List (DictionaryAttribute Nat) → Nat → LookupState → LookupState
  | [], _, st => st
  | attr :: rest, attribute_idx, st =>
    if st.is_found then st
    else
      scanAttributes hierarchical_name to_find block rest (attribute_idx + 1)
        (scanRows hierarchical_name to_find attribute_idx attr.name block st)

/-- The `while (const auto block = stream->read())` loop, lines 178-201. -/
def scanBlocks (attributes : List (DictionaryAttribute Nat)) (hierarchical_name : String)
    (to_find : Nat) : BlockStream Nat Nat → LookupState → LookupState
  | [], st => st
  | block :: blocks, st =>
    scanBlocks attributes hierarchical_name to_find blocks
      (scanAttributes hierarchical_name to_find block attributes 0 st)

/-- The scan of `getValueOrNullByKey` over an answered stream, lines 175-205.
`hierarchical_attribute` is the attribute `hierarchical_attribute` points to. -/
def getValueOrNullByKeyResult (attributes : List (DictionaryAttribute Nat))
    (hierarchical_attribute : DictionaryAttribute Nat) (to_find : Nat)
    (stream : BlockStream Nat Nat) : Nat :=
  (scanBlocks attributes hierarchical_attribute.name to_find stream
    { is_found := false, result := hierarchical_attribute.null_value }).result

/-- Method `DirectDictionary::getValueOrNullByKey`, lines 168-206: a dedicated request
`loadIds({to_find})` and the scan of its answer. -/
def getValueOrNullByKey (source_ptr : DictionarySource Nat Nat)
    (attributes : List (DictionaryAttribute Nat))
    (hierarchical_attribute : DictionaryAttribute Nat) (to_find : Nat) : Nat :=
  getValueOrNullByKeyResult attributes hierarchical_attribute to_find (source_ptr [to_find])

/-! ## isInImpl (lines 208-246) -/

/-- The `for` loop of lines 220-221 for one row. `parentOf` is the single-key lookup,
`id` the current key, the first numeric argument the number of iterations still
allowed (`DBMS_HIERARCHICAL_DICTIONARY_MAX_DEPTH - i`), and the list the keys for
which the lookup has been called so far, in call order. -/
def isInLoop (null_value ancestor_id : Nat) (parentOf : Nat → Nat) :
    Nat → Nat → List Nat → Nat × List Nat
  | 0, id, lookups => (id, lookups)
  | remaining + 1, id, lookups =>
    if id ≠ null_value ∧ id ≠ ancestor_id then
      isInLoop null_value ancestor_id parentOf remaining (parentOf id) (lookups ++ [id])
    else (id, lookups)

/-- One row of `isInImpl`, lines 217-223: the value stored in `out[row]` and the keys
passed to the single-key lookup for that row. `max_depth` is the constant
`DBMS_HIERARCHICAL_DICTIONARY_MAX_DEPTH` of `Core/Defines.h`. -/
def isInRow (max_depth null_value : Nat) (parentOf : Nat → Nat) (child_id ancestor_id : Nat) :
    Bool × List Nat :=
  let r := isInLoop null_value ancestor_id parentOf max_depth child_id []
  (decide (r.1 ≠ null_value ∧ r.1 = ancestor_id), r.2)

/-- The two argument shapes of `isInImpl`: an array or a constant. -/
inductive IdsArg where
  | vector (arr : List Nat)
  | constant (value : Nat)

/-- The two overloads of `getAt`, lines 22-30; reading an array outside its bounds
is undefined (`none`). -/
def getAt : IdsArg → Nat → Option Nat
  | .vector arr, idx => arr[idx]?
  | .constant value, _ => some value

/-- The loop over the rows of `isInImpl`, lines 215-224, for the rows still to do:
returns the array `out` and the requests sent to the source (`loadIds({id})` for each
lookup). -/
def isInImplRows (max_depth null_value : Nat) (parentOf : Nat → Nat)
    (child_ids ancestor_ids : IdsArg) :
    List Nat → List Bool → List (List Nat) → Option (List Bool × List (List Nat))
  | [], out, requests => some (out, requests)
  | row :: rows, out, requests =>
    match getAt child_ids row, getAt ancestor_ids row with
    | some id, some ancestor_id =>
      match writeAt out row (isInRow max_depth null_value parentOf id ancestor_id).1 with
      | none => none
      | some out1 =>
        isInImplRows max_depth null_value parentOf child_ids ancestor_ids rows out1
          (requests ++ (isInRow max_depth null_value parentOf id ancestor_id).2.map (fun k => [k]))
    | _, _ => none

/-- Method `DirectDictionary::isInImpl`, lines 210-227. -/
def isInImpl (max_depth : Nat) (source_ptr : DictionarySource Nat Nat)
    (attributes : List (DictionaryAttribute Nat))
    (hierarchical_attribute : DictionaryAttribute Nat)
    (child_ids ancestor_ids : IdsArg) (out : List Bool) (st : DictState Nat) :
    Option (List Bool × DictState Nat) :=
  let null_value := hierarchical_attribute.null_value
  let rows := out.length
  match isInImplRows max_depth null_value
      (getValueOrNullByKey source_ptr attributes hierarchical_attribute)
      child_ids ancestor_ids (List.range rows) out st.source_requests with
  | none => none
  | some (out1, requests) =>
    some (out1, { query_count := fetch_add st.query_count rows, source_requests := requests })

/-- Method `isInVectorVector`, lines 229-234. -/
def isInVectorVector (max_depth : Nat) (source_ptr : DictionarySource Nat Nat)
    (attributes : List (DictionaryAttribute Nat))
    (hierarchical_attribute : DictionaryAttribute Nat)
    (child_ids ancestor_ids : List Nat) (out : List Bool) (st : DictState Nat) :
    Option (List Bool × DictState Nat) :=
  isInImpl max_depth source_ptr attributes hierarchical_attribute
    (.vector child_ids) (.vector ancestor_ids) out st

/-- Method `isInVectorConstant`, lines 236-240. -/
def isInVectorConstant (max_depth : Nat) (source_ptr : DictionarySource Nat Nat)
    (attributes : List (DictionaryAttribute Nat))
    (hierarchical_attribute : DictionaryAttribute Nat)
    (child_ids : List Nat) (ancestor_id : Nat) (out : List Bool) (st : DictState Nat) :
    Option (List Bool × DictState Nat) :=
  isInImpl max_depth source_ptr attributes hierarchical_attribute
    (.vector child_ids) (.constant ancestor_id) out st

/-- Method `isInConstantVector`, lines 242-246. -/
def isInConstantVector (max_depth : Nat) (source_ptr : DictionarySource Nat Nat)
    (attributes : List (DictionaryAttribute Nat))
    (hierarchical_attribute : DictionaryAttribute Nat)
    (child_id : Nat) (ancestor_ids : List Nat) (out : List Bool) (st : DictState Nat) :
    Option (List Bool × DictState Nat) :=
  isInImpl max_depth source_ptr attributes hierarchical_attribute
    (.constant child_id) (.vector ancestor_ids) out st

/-- The parent chain `c, p(c), p(p(c)), ...` runs into a cycle of length `L` after
`μ` steps: its first `μ + L` elements are pairwise distinct and none of them is the
null value `n`, and the element after them is the `μ`-th one again. -/
def ChainEntersCycle (n : Nat) (p : Nat → Nat) (c μ L : Nat) : Prop :=
  0 < L ∧ p^[μ + L] c = p^[μ] c ∧
    (∀ i j, i < j → j < μ + L → p^[i] c ≠ p^[j] c) ∧
    ∀ j, j < μ + L → p^[j] c ≠ n

/-! ## Attribute resolution and toParent (lines 144-165, 256-267) -/

/-- Type `KeyType` of `DictionaryKeysExtractor`, line 37: `UInt64` for simple keys, a
`StringRef` (a span of bytes, compared by content) for complex keys. -/
abbrev KeyType : DictionaryKeyType → Type
  | .simple => Nat
  | .complex => List Nat

instance instDecidableEqKeyType (kt : DictionaryKeyType) : DecidableEq (KeyType kt) := by
  cases kt <;> (unfold KeyType; infer_instance)

/-- Modelled from the spec: `DictionaryStructure::getAttribute(name, type)` lives in
`DictionaryStructure.cpp`, which is not part of the sources. Attribute lookup by
name with an expected type: the first declared attribute of that name; a name that
is not declared is reported (bad arguments), and so is a type other than the
expected one (type mismatch). -/
def getAttribute {ν : Type} (attributes : List (DictionaryAttribute ν)) (attribute_name : String)
    (expected_type : AttributeUnderlyingType) : Except ErrorCode (DictionaryAttribute ν) :=
  match attributes.find? (fun a => decide (a.name = attribute_name)) with
  | none => .error .BAD_ARGUMENTS
  | some a =>
    if a.underlying_type = expected_type then .ok a else .error .TYPE_MISMATCH

/-- The map `attribute_index_by_name` as `setup` fills it (line 458), read at
`attribute_name`: a later attribute of the same name overwrites an earlier one. The
number is the index of the head of the list. -/
def attributeIndexByName {ν : Type} (attribute_name : String) :
    List (DictionaryAttribute ν) → Nat → Option Nat → Option Nat
  | [], _, found => found
  | attr :: rest, i, found =>
    attributeIndexByName attribute_name rest (i + 1)
      (if attr.name = attribute_name then some i else found)

/-- Method `DirectDictionary::getColumn` from its entry: the attribute is resolved by name
(lines 261-267), then the merge runs. A failure of the resolution raises its error
before the source is asked anything. -/
def getColumnByName {κ ν : Type} [DecidableEq κ] (attributes : List (DictionaryAttribute ν))
    (source_ptr : DictionarySource κ ν) (attribute_name : String)
    (result_type : AttributeUnderlyingType) (requested_keys : List κ)
    (default_values_column : Option (Nat → ν)) (st : DictState κ) :
    Except ErrorCode (List ν) × DictState κ :=
  match getAttribute attributes attribute_name result_type with
  | .error e => (.error e, st)
  | .ok attr =>
    match attributeIndexByName attribute_name attributes 0 none with
    | none => (.error .BAD_ARGUMENTS, st)
    | some requested_attribute_index =>
      let r := getColumn source_ptr attr requested_attribute_index requested_keys
        default_values_column st
      (.ok r.1, r.2)

/-- Method `DirectDictionary::toParent`, lines 145-165. `hierarchical_attribute` is
the member pointer (`none` is the null pointer, which `setup` leaves when no
attribute is hierarchical and always in complex-key mode). The result is `none` when
the null pointer is dereferenced (undefined behaviour); otherwise the outcome (an
error code when an exception is thrown), the array `out` and the state after the
call. -/
def toParent (dictionary_key_type : DictionaryKeyType)
    (attributes : List (DictionaryAttribute Nat))
    (hierarchical_attribute : Option (DictionaryAttribute Nat))
    (source_ptr : DictionarySource (KeyType dictionary_key_type) Nat)
    (ids : List Nat) (out : List Nat) (st : DictState (KeyType dictionary_key_type)) :
    Option (Except ErrorCode Unit × List Nat × DictState (KeyType dictionary_key_type)) :=
  match dictionary_key_type, source_ptr, st with
  | .simple, source_ptr, st =>
    match hierarchical_attribute with
    | none => none
    | some hattr =>
      match getColumnByName attributes source_ptr hattr.name
          AttributeUnderlyingType.utUInt64 ids none st with
      | (.ok column, st1) => some (.ok (), column, st1)
      | (.error e, st1) => some (.error e, out, st1)
  | .complex, _, st => some (.error .UNSUPPORTED_METHOD, out, st)

/-! ## DictionaryKeysExtractor (lines 33-100) -/

/-- Modelled from the spec: the column classes (`IColumn`, `ColumnVector`,
`ColumnConst`) are declared under `Columns/`, which is not part of the sources. A
key column is a full column of 64-bit unsigned integers, a full column of any other
type (of which only the number of rows matters here), or a constant column: one
value, a 64-bit unsigned integer or not, standing for `s` equal rows. -/
inductive IColumn where
  | vectorUInt64 (data : List Nat)
  | other (rows : Nat)
  | constUInt64 (value : Nat) (s : Nat)
  | constOther (s : Nat)

/-- Modelled from the spec: `IColumn::size`, the number of rows. -/
def IColumn.size : IColumn → Nat
  | .vectorUInt64 data => data.length
  | .other rows => rows
  | .constUInt64 _ s => s
  | .constOther s => s

/-- Modelled from the spec: `IColumn::convertToFullColumnIfConst`. A constant column
is expanded to a full column of the same type with its value in every row; any
other column is returned as it is. -/
def IColumn.convertToFullColumnIfConst : IColumn → IColumn
  | .constUInt64 value s => .vectorUInt64 (List.replicate s value)
  | .constOther s => .other s
  | column => column

/-- Whether a column is a `ColumnVector<UInt64>`. -/
def IColumn.isVectorUInt64 : IColumn → Bool
  | .vectorUInt64 _ => true
  | _ => false

/-- Modelled from the spec: `checkAndGetColumn<ColumnVector<UInt64>>`, the column's
data when it is a `ColumnVector<UInt64>` and the null pointer (`none`) otherwise. -/
def checkAndGetColumnVectorUInt64 : IColumn → Option (List Nat)
  | .vectorUInt64 data => some data
  | _ => none

/-- The value of row `row` of a column of 64-bit unsigned integers, full or constant
(`column[row].get<UInt64>()`); `none` outside the column or for another type. -/
def IColumn.getUInt64 : IColumn → Nat → Option Nat
  | .vectorUInt64 data, row => data[row]?
  | .constUInt64 value s, row => if row < s then some value else none
  | _, _ => none

/-- Function `DictionaryKeysExtractor::getColumnVectorData`, lines 57-70. -/
def getColumnVectorData (column : IColumn) : Except ErrorCode (List Nat) :=
  let full_column := column.convertToFullColumnIfConst
  match checkAndGetColumnVectorUInt64 full_column with
  | none => .error .TYPE_MISMATCH
  | some data => .ok data

/-- The bytes written so far for one composite key: the contiguous chunk that starts
at `block_start` and the running sum `allocated_size_for_columns`. -/
structure KeyBlock where
  block : List Nat
  allocated_size_for_columns : Nat

/-- The loop over the key columns for one row, lines 86-91.
`serializeValueIntoArena column key_index` stands for the bytes that
`column->serializeValueIntoArena(key_index, temporary_arena, block_start)` appends to
the chunk beginning at `block_start` (the returned `StringRef` covers exactly them);
the method is declared under `Columns/`, outside the sources, and is a parameter. -/
def serializeKeyColumns (serializeValueIntoArena : IColumn → Nat → List Nat) (key_index : Nat) :
    List IColumn → KeyBlock → KeyBlock
  | [], st => st
  | column :: rest, st =>
    serializeKeyColumns serializeValueIntoArena key_index rest
      { block := st.block ++ serializeValueIntoArena column key_index
        allocated_size_for_columns :=
          st.allocated_size_for_columns + (serializeValueIntoArena column key_index).length }

/-- Function `DictionaryKeysExtractor::deserializeKeyColumnsInArena`, lines 72-97. A
key is a `StringRef`, given by the bytes it spans: `allocated_size_for_columns` bytes
from `block_start`. `none` stands for an empty `key_columns` (excluded by the
`assert` of line 42). -/
def deserializeKeyColumnsInArena (serializeValueIntoArena : IColumn → Nat → List Nat)
    (key_columns : List IColumn) : Option (List (List Nat)) :=
  match key_columns with
  | [] => none
  | front :: _ =>
    let keys_size := front.size
    some ((List.range keys_size).map (fun key_index =>
      let st := serializeKeyColumns serializeValueIntoArena key_index key_columns
        { block := [], allocated_size_for_columns := 0 }
      st.block.take st.allocated_size_for_columns))

/-- Constructor of `DictionaryKeysExtractor`, lines 40-48, with `getKeys`: the keys
extracted from `key_columns`. `none` stands for an empty `key_columns` (excluded by
the `assert` of line 42); an exception is an error code. -/
def DictionaryKeysExtractor (key_type : DictionaryKeyType)
    (serializeValueIntoArena : IColumn → Nat → List Nat) (key_columns : List IColumn) :
    Option (Except ErrorCode (List (KeyType key_type))) :=
  match key_type with
  | .simple =>
    match key_columns with
    | [] => none
    | front :: _ => some (getColumnVectorData front)
  | .complex =>
    match deserializeKeyColumnsInArena serializeValueIntoArena key_columns with
    | none => none
    | some keys => some (.ok keys)

/-! ## Constructor and setup (lines 127-142, 450-474) -/

/-- The members filled by `setup`: the two maps, given by what they hold at each key,
and the pointer `hierarchical_attribute` (`none` is the null pointer). -/
structure SetupState (ν : Type) where
  attribute_index_by_name : String → Option Nat
  attribute_name_by_index : Nat → Option String
  hierarchical_attribute : Option (DictionaryAttribute ν)

/-- The loop of `DirectDictionary::setup`, lines 455-473, over the attributes not yet
visited; the number is the index `i` of the first of them. -/
def setupLoop {ν : Type} (dictionary_key_type : DictionaryKeyType) :
    List (DictionaryAttribute ν) → Nat → SetupState ν → Except ErrorCode (SetupState ν)
  | [], _, s => .ok s
  | attr :: rest, i, s =>
    let s1 : SetupState ν :=
      { attribute_index_by_name := fun name =>
          if name = attr.name then some i else s.attribute_index_by_name name
        attribute_name_by_index := fun j =>
          if j = i then some attr.name else s.attribute_name_by_index j
        hierarchical_attribute := s.hierarchical_attribute }
    if attr.hierarchical then
      match dictionary_key_type with
      | .complex => .error .BAD_ARGUMENTS
      | .simple =>
        if attr.underlying_type ≠ AttributeUnderlyingType.utUInt64 then .error .TYPE_MISMATCH
        else
          setupLoop dictionary_key_type rest (i + 1)
            { attribute_index_by_name := s1.attribute_index_by_name
              attribute_name_by_index := s1.attribute_name_by_index
              hierarchical_attribute := some attr }
    else setupLoop dictionary_key_type rest (i + 1) s1

/-- Method `DirectDictionary::setup`, lines 451-474, on a freshly constructed object. -/
def setup {ν : Type} (dictionary_key_type : DictionaryKeyType)
    (attributes : List (DictionaryAttribute ν)) : Except ErrorCode (SetupState ν) :=
  setupLoop dictionary_key_type attributes 0
    { attribute_index_by_name := fun _ => none
      attribute_name_by_index := fun _ => none
      hierarchical_attribute := none }

/-- Constructor of `DirectDictionary`, lines 128-142. `supportsSelectiveLoad` is the
answer of `source_ptr->supportsSelectiveLoad()` and `attributes` is
`dict_struct.attributes`; an exception is an error code. -/
def constructDirectDictionary (dictionary_key_type : DictionaryKeyType) {ν : Type}
    (supportsSelectiveLoad : Bool) (attributes : List (DictionaryAttribute ν)) :
    Except ErrorCode (SetupState ν) :=
  if !supportsSelectiveLoad then .error .UNSUPPORTED_METHOD
  else setup dictionary_key_type attributes

/-! ## Provenance of result entries -/

/-- Where an entry of the result column comes from: the default provider, called
with `requested_index`, or a source row, whose value it carries. -/
inductive Origin (ν : Type) where
  | fromDefault (requested_index : Nat)
  | fromSource (value : ν)

/-- The same stream with every attribute value labelled as coming from the source. -/
def tagStream {κ ν : Type} (stream : BlockStream κ ν) : BlockStream κ (Origin ν) :=
  stream.map (fun block => block.map (fun r =>
    { key := r.key, attrs := fun a => Origin.fromSource (r.attrs a) }))

/-- The run of the merge of `getColumn` that records provenance: the code of
`getColumnResult` itself, run with a default provider that returns the index it is
called with and on the labelled stream. -/
def getColumnOrigins {κ ν : Type} [DecidableEq κ] (requested_attribute_index : Nat)
    (requested_keys : List κ) (stream : BlockStream κ ν) : List (Origin ν) :=
  getColumnResult
    { name := "", underlying_type := AttributeUnderlyingType.utUInt64,
      null_value := Origin.fromDefault 0, hierarchical := false }
    requested_attribute_index requested_keys (some Origin.fromDefault) (tagStream stream)

/-- The value an origin stands for under a default provider. -/
def Origin.resolve {ν : Type} (p : DefaultValueProvider ν) : Origin ν → ν
  | .fromDefault requested_index => p.getDefaultValue requested_index
  | .fromSource value => value

/-- Functional description of the merge, used to reason about `getColumn`: the
remaining requested keys, the index of the first of them, and the remaining source
rows. Once the requested keys are exhausted every further source row is still
appended. -/
def mergeRef {κ ν : Type} [DecidableEq κ] (default_value_provider : DefaultValueProvider ν)
    (requested_attribute_index : Nat) : List κ → Nat → List (Row κ ν) → List ν
  | [], _, rows => rows.map (fun r => r.attrs requested_attribute_index)
  | _ :: ks, i, [] =>
    default_value_provider.getDefaultValue i ::
      mergeRef default_value_provider requested_attribute_index ks (i + 1) []
  | k :: ks, i, r :: rs =>
    if r.key = k then
      r.attrs requested_attribute_index ::
        mergeRef default_value_provider requested_attribute_index ks (i + 1) rs
    else
      default_value_provider.getDefaultValue i ::
        mergeRef default_value_provider requested_attribute_index ks (i + 1) (r :: rs)

/-- Functional description of the loop of `hasKeys`, used to reason about it: the
remaining requested keys and the keys of the remaining source rows. A source row
left over when the requested keys are exhausted makes the loop write outside the
array. -/
def hasKeysRef {κ : Type} [DecidableEq κ] : List κ → List κ → Option (List Bool)
  | [], [] => some []
  | [], _ :: _ => none
  | _ :: ks, [] => (hasKeysRef ks []).map (fun flags => false :: flags)
  | k :: ks, b :: bs =>
    if b = k then (hasKeysRef ks bs).map (fun flags => true :: flags)
    else (hasKeysRef ks (b :: bs)).map (fun flags => false :: flags)

/-! ## Greedy leftmost matching, following the words of the specification -/

/-- The smallest index `i` of `requested_keys` with `start ≤ i` whose key equals
`key`, if there is one. -/
def firstMatchFrom {κ : Type} [DecidableEq κ] (requested_keys : List κ) (key : κ)
    (start : Nat) : Option Nat :=
  (List.range' start (requested_keys.length - start)).find?
    (fun i => decide (requested_keys[i]? = some key))

/-- The requested index matched with each source row, in row order: for the first
row the smallest index from `start` on whose requested key equals the row's key, for
each later row the smallest such index greater than the index used by the row
before it. The list ends before the first row for which no such index exists. -/
def greedyPositions {κ : Type} [DecidableEq κ] (requested_keys : List κ) :
    List κ → Nat → List Nat
  | [], _ => []
  | key :: keys, start =>
    match firstMatchFrom requested_keys key start with
    | none => []
    | some i => i :: greedyPositions requested_keys keys (i + 1)

/-- The index from which the match of row `j` is searched, given the positions of the
rows before it: `start` for the first row, one more than the position of row
`j - 1` otherwise. -/
def searchStart (start : Nat) (positions : List Nat) : Nat → Nat
  | 0 => start
  | j + 1 => positions.getD j 0 + 1

/-- The positions of `greedyPositions`, computed along the remaining requested keys
(the first of them has index `i`) like `mergeRef`; used to reason about it. -/
def matchPositions {κ : Type} [DecidableEq κ] : List κ → Nat → List κ → List Nat
  | [], _, _ => []
  | _ :: _, _, [] => []
  | k :: ks, i, b :: bs =>
    if b = k then i :: matchPositions ks (i + 1) bs
    else matchPositions ks (i + 1) (b :: bs)

/-- Whether an entry of the result column was filled from a source row. -/
def Origin.isFromSource {ν : Type} : Origin ν → Bool
  | .fromSource _ => true
  | .fromDefault _ => false

/-! ## Lemmas on the merge loop -/

section MergeLemmas

variable {κ ν : Type} [DecidableEq κ]

theorem mergeRef_nil_rows (p : DefaultValueProvider ν) (a : Nat) (ks : List κ) (i : Nat) :
    mergeRef p a ks i ([] : List (Row κ ν)) = (List.range' i ks.length).map p.getDefaultValue := by
  induction ks generalizing i with
  | nil => simp [mergeRef]
  | cons k ks ih => simp [mergeRef, ih, List.range'_succ]

/-- The skip loop, run with enough iterations, consumes exactly the defaults that
`mergeRef` emits before the next source row, and stops either past the end of the
requested keys or on a requested key equal to the block key. -/
theorem insertDefaultsUntilMatch_spec (K : List κ) (p : DefaultValueProvider ν) (a : Nat)
    (r : Row κ ν) (rs : List (Row κ ν)) (fuel : Nat) (st : MergeState ν)
    (hfuel : K.length - st.requested_key_index ≤ fuel) :
    (insertDefaultsUntilMatch K p r.key fuel st).result ++
        [r.attrs a] ++
        mergeRef p a (K.drop ((insertDefaultsUntilMatch K p r.key fuel st).requested_key_index + 1))
          ((insertDefaultsUntilMatch K p r.key fuel st).requested_key_index + 1) rs
      = st.result ++ mergeRef p a (K.drop st.requested_key_index) st.requested_key_index (r :: rs) := by
  induction fuel generalizing st with
  | zero =>
    have hge : K.length ≤ st.requested_key_index := by omega
    simp [insertDefaultsUntilMatch, List.drop_eq_nil_of_le hge,
      List.drop_eq_nil_of_le (Nat.le_succ_of_le hge), mergeRef]
  | succ fuel ih =>
    unfold insertDefaultsUntilMatch
    split
    · rename_i hc
      obtain ⟨hlt, hne⟩ := hc
      rw [ih _ (by simp; omega)]
      rw [List.drop_eq_getElem_cons hlt]
      have hk : ¬ r.key = K[st.requested_key_index] := by
        intro h
        apply hne
        rw [List.getElem?_eq_getElem hlt, h]
      simp [mergeRef, hk]
    · rename_i hc
      by_cases hlt : st.requested_key_index < K.length
      · have hk : K[st.requested_key_index]? = some r.key := by
          by_contra h
          exact hc ⟨hlt, h⟩
        rw [List.getElem?_eq_getElem hlt] at hk
        rw [List.drop_eq_getElem_cons hlt]
        have hk2 : r.key = K[st.requested_key_index] := by
          simpa using hk.symm
        simp [mergeRef, hk2]
      · have hge : K.length ≤ st.requested_key_index := by omega
        simp [List.drop_eq_nil_of_le hge, List.drop_eq_nil_of_le (Nat.le_succ_of_le hge), mergeRef]

theorem processTail_spec (K : List κ) (p : DefaultValueProvider ν) (a : Nat)
    (fuel : Nat) (st : MergeState ν) (hfuel : K.length - st.requested_key_index ≤ fuel) :
    (processTail K.length p fuel st).result
      = st.result ++ mergeRef p a (K.drop st.requested_key_index) st.requested_key_index
          ([] : List (Row κ ν)) := by
  induction fuel generalizing st with
  | zero =>
    have hge : K.length ≤ st.requested_key_index := by omega
    simp [processTail, List.drop_eq_nil_of_le hge, mergeRef]
  | succ fuel ih =>
    unfold processTail
    split
    · rename_i hlt
      rw [ih _ (by simp; omega)]
      rw [List.drop_eq_getElem_cons hlt]
      simp [mergeRef]
    · rename_i hlt
      have hge : K.length ≤ st.requested_key_index := by omega
      simp [List.drop_eq_nil_of_le hge, mergeRef]

theorem processRows_spec (K : List κ) (p : DefaultValueProvider ν) (a : Nat)
    (rows : List (Row κ ν)) (st : MergeState ν) :
    (processTail K.length p
        (K.length - (rows.foldl (processBlockRow K p a) st).requested_key_index)
        (rows.foldl (processBlockRow K p a) st)).result
      = st.result ++ mergeRef p a (K.drop st.requested_key_index) st.requested_key_index rows := by
  induction rows generalizing st with
  | nil => simpa using processTail_spec K p a _ st (le_refl _)
  | cons r rs ih =>
    rw [List.foldl_cons, ih]
    rw [← insertDefaultsUntilMatch_spec K p a r rs _ st (le_refl _)]
    simp [processBlockRow]

theorem processStream_eq_foldl (K : List κ) (p : DefaultValueProvider ν) (a : Nat)
    (stream : BlockStream κ ν) (st : MergeState ν) :
    processStream K p a st stream = (streamRows stream).foldl (processBlockRow K p a) st := by
  unfold processStream streamRows processBlock
  rw [List.foldl_flatten]

/-- The result column of `getColumn` is the functional merge of the requested keys
with the rows of the stream read in order. -/
theorem getColumnResult_eq_mergeRef (attr : DictionaryAttribute ν) (a : Nat) (K : List κ)
    (D : Option (Nat → ν)) (stream : BlockStream κ ν) :
    getColumnResult attr a K D stream
      = mergeRef { default_value := attr.null_value, default_values_column := D } a K 0
          (streamRows stream) := by
  unfold getColumnResult
  simp only [processStream_eq_foldl]
  rw [processRows_spec]
  simp

end MergeLemmas

/-! ## Properties of the functional merge -/

section MergeProperties

variable {κ ν : Type} [DecidableEq κ]

theorem mergeRef_length_of_sublist (p : DefaultValueProvider ν) (a : Nat) (ks : List κ)
    (i : Nat) (rows : List (Row κ ν)) (h : (rows.map Row.key).Sublist ks) :
    (mergeRef p a ks i rows).length = ks.length := by
  induction ks generalizing i rows with
  | nil =>
    have hnil : rows = [] := by simpa using h
    simp [hnil, mergeRef]
  | cons k ks ih =>
    cases rows with
    | nil => simp [mergeRef, ih (i + 1) [] (List.nil_sublist _)]
    | cons r rs =>
      by_cases hk : r.key = k
      · have h2 : (rs.map Row.key).Sublist ks := by
          simp only [List.map_cons, hk] at h
          exact List.cons_sublist_cons.mp h
        simp [mergeRef, hk, ih (i + 1) rs h2]
      · have h2 : ((r :: rs).map Row.key).Sublist ks := by
          simp only [List.map_cons] at h ⊢
          rcases List.cons_sublist_cons'.mp h with h3 | ⟨h3, _⟩
          · exact h3
          · exact absurd h3 hk
        simp [mergeRef, hk, ih (i + 1) (r :: rs) h2]

/-- When the source returns a row for every requested occurrence of the keys
selected by `S` and for nothing else, the merge puts the value of each selected key
at its positions and the default of the position elsewhere. -/
theorem mergeRef_of_filter (p : DefaultValueProvider ν) (a : Nat) (S : κ → Bool) (v : κ → ν)
    (ks : List κ) (i : Nat) (rows : List (Row κ ν))
    (hkeys : rows.map Row.key = ks.filter S) (hval : ∀ r ∈ rows, r.attrs a = v r.key) :
    mergeRef p a ks i rows
      = (ks.enumFrom i).map (fun jk => if S jk.2 then v jk.2 else p.getDefaultValue jk.1) := by
  induction ks generalizing i rows with
  | nil =>
    have hnil : rows = [] := by simpa using hkeys
    simp [hnil, mergeRef]
  | cons k ks ih =>
    by_cases hS : S k = true
    · rw [List.filter_cons_of_pos hS] at hkeys
      cases rows with
      | nil => simp at hkeys
      | cons r rs =>
        simp only [List.map_cons, List.cons.injEq] at hkeys
        have hr : r.attrs a = v k := by
          rw [hval r (List.mem_cons_self _ _), hkeys.1]
        have hrest := ih (i + 1) rs hkeys.2 (fun x hx => hval x (List.mem_cons_of_mem _ hx))
        simp [mergeRef, hkeys.1, hS, hr, hrest, List.enumFrom_cons]
    · rw [List.filter_cons_of_neg hS] at hkeys
      cases rows with
      | nil =>
        have hrest := ih (i + 1) [] hkeys (fun x hx => by simp at hx)
        simp [mergeRef, hS, hrest, List.enumFrom_cons]
      | cons r rs =>
        have hmem : r.key ∈ ks.filter S := by
          rw [← hkeys]; simp
        have hSr : S r.key = true := (List.mem_filter.mp hmem).2
        have hk : ¬ r.key = k := by
          intro h
          rw [h] at hSr
          exact hS hSr
        have hrest := ih (i + 1) (r :: rs) hkeys hval
        simp [mergeRef, hS, hk, hrest, List.enumFrom_cons]

end MergeProperties

/-! ## Lemmas on the loop of hasKeys -/

section HasKeysLemmas

variable {κ ν : Type} [DecidableEq κ]

theorem set_append_replicate_false (pre : List Bool) (m : Nat) (b : Bool) :
    (pre ++ List.replicate (m + 1) false).set pre.length b = pre ++ b :: List.replicate m false := by
  induction pre with
  | nil => simp [List.replicate_succ]
  | cons x xs ih => simp [ih]

theorem writeAt_cursor (n : Nat) (pre : List Bool) (b : Bool) (hlt : pre.length < n) :
    writeAt (pre ++ List.replicate (n - pre.length) false) pre.length b
      = some ((pre ++ [b]) ++ List.replicate (n - (pre ++ [b]).length) false) := by
  have hn : n - pre.length = (n - (pre.length + 1)) + 1 := by omega
  unfold writeAt
  rw [if_pos (by simp; omega)]
  rw [hn, set_append_replicate_false]
  simp

theorem writeAt_cursor_end (n : Nat) (pre : List Bool) (b : Bool) (hge : n ≤ pre.length) :
    writeAt (pre ++ List.replicate (n - pre.length) false) pre.length b = none := by
  unfold writeAt
  rw [if_neg (by simp; omega)]

theorem hasKeysRef_nil_rows (ks : List κ) :
    hasKeysRef ks [] = some (List.replicate ks.length false) := by
  induction ks with
  | nil => simp [hasKeysRef]
  | cons k ks ih => simp [hasKeysRef, ih, List.replicate_succ]

/-- One row of the loop of `hasKeys`, followed by any continuation `G` that agrees
with `hasKeysRef` on the rest of the rows. -/
theorem hasKeysBlockRow_fuel_spec (K : List κ) (bk : κ) (bs : List κ)
    (G : HasKeysState → Option (List Bool))
    (hG : ∀ pre : List Bool, pre.length ≤ K.length →
      G { requested_key_index := pre.length,
          result_data := pre ++ List.replicate (K.length - pre.length) false }
        = (hasKeysRef (K.drop pre.length) bs).map (fun flags => pre ++ flags))
    (fuel : Nat) (pre : List Bool) (hle : pre.length ≤ K.length)
    (hfuel : K.length - pre.length ≤ fuel) :
    (match markAbsentUntilMatch K bk fuel
        { requested_key_index := pre.length,
          result_data := pre ++ List.replicate (K.length - pre.length) false } with
      | none => none
      | some st1 =>
        match writeAt st1.result_data st1.requested_key_index true with
        | none => none
        | some result_data =>
          G { requested_key_index := st1.requested_key_index + 1, result_data := result_data })
      = (hasKeysRef (K.drop pre.length) (bk :: bs)).map (fun flags => pre ++ flags) := by
  induction fuel generalizing pre with
  | zero =>
    have hge : K.length ≤ pre.length := by omega
    simp [markAbsentUntilMatch, writeAt_cursor_end _ _ _ hge, List.drop_eq_nil_of_le hge,
      hasKeysRef]
  | succ fuel ih =>
    unfold markAbsentUntilMatch
    by_cases hc : pre.length < K.length ∧ K[pre.length]? ≠ some bk
    · obtain ⟨hlt, hne⟩ := hc
      have hk : ¬ bk = K[pre.length] := by
        intro h
        apply hne
        rw [List.getElem?_eq_getElem hlt, h]
      simp only [hlt, hne, ne_eq, not_false_eq_true, and_self, if_true]
      rw [writeAt_cursor _ _ _ hlt]
      have hlen : (pre ++ [false]).length = pre.length + 1 := by simp
      have := ih (pre ++ [false]) (by simp; omega) (by simp; omega)
      rw [hlen] at this
      simp only [hlen]
      rw [this, List.drop_eq_getElem_cons hlt]
      simp [hasKeysRef, hk, Option.map_map, Function.comp_def]
    · simp only [hc, if_false]
      by_cases hlt : pre.length < K.length
      · have hk : K[pre.length]? = some bk := by
          by_contra h
          exact hc ⟨hlt, h⟩
        rw [List.getElem?_eq_getElem hlt] at hk
        have hk2 : bk = K[pre.length] := by simpa using hk.symm
        rw [writeAt_cursor _ _ _ hlt]
        have hlen : (pre ++ [true]).length = pre.length + 1 := by simp
        have := hG (pre ++ [true]) (by simp; omega)
        rw [hlen] at this
        simp only [hlen]
        rw [this, List.drop_eq_getElem_cons hlt]
        simp [hasKeysRef, hk2, Option.map_map, Function.comp_def]
      · have hge : K.length ≤ pre.length := by omega
        simp [writeAt_cursor_end _ _ _ hge, List.drop_eq_nil_of_le hge, hasKeysRef]

theorem hasKeysBlock_spec (K : List κ) (rows : List (Row κ ν)) (pre : List Bool)
    (hle : pre.length ≤ K.length) :
    (hasKeysBlock K
        { requested_key_index := pre.length,
          result_data := pre ++ List.replicate (K.length - pre.length) false } rows).map
        (fun st => st.result_data)
      = (hasKeysRef (K.drop pre.length) (rows.map Row.key)).map (fun flags => pre ++ flags) := by
  induction rows generalizing pre with
  | nil => simp [hasKeysBlock, hasKeysRef_nil_rows]
  | cons r rs ih =>
    have h := hasKeysBlockRow_fuel_spec K r.key (rs.map Row.key)
      (fun st => (hasKeysBlock K st rs).map (fun st => st.result_data))
      (fun pre1 h1 => ih pre1 h1) (K.length - pre.length) pre hle (le_refl _)
    rw [List.map_cons, ← h]
    simp only [hasKeysBlock, hasKeysBlockRow]
    cases markAbsentUntilMatch K r.key (K.length - pre.length)
        { requested_key_index := pre.length,
          result_data := pre ++ List.replicate (K.length - pre.length) false } with
    | none => rfl
    | some st1 =>
      simp only
      cases writeAt st1.result_data st1.requested_key_index true with
      | none => rfl
      | some rd => rfl

theorem hasKeysStream_eq_block (K : List κ) (stream : BlockStream κ ν) (st : HasKeysState) :
    hasKeysStream K st stream = hasKeysBlock K st (streamRows stream) := by
  induction stream generalizing st with
  | nil => simp [hasKeysStream, hasKeysBlock, streamRows]
  | cons b bs ih =>
    have happ : ∀ (xs ys : List (Row κ ν)) (s : HasKeysState),
        hasKeysBlock K s (xs ++ ys)
          = (match hasKeysBlock K s xs with
            | none => none
            | some s1 => hasKeysBlock K s1 ys) := by
      intro xs
      induction xs with
      | nil => intro ys s; simp [hasKeysBlock]
      | cons x xs ihx =>
        intro ys s
        simp only [List.cons_append, hasKeysBlock]
        cases hasKeysBlockRow K s x with
        | none => rfl
        | some s1 => exact ihx ys s1
    simp only [hasKeysStream, streamRows, List.flatten_cons, happ]
    cases hasKeysBlock K st b with
    | none => rfl
    | some s1 => simpa [streamRows] using ih s1

/-- The result column of `hasKeys` is the functional description applied to the
requested keys and the keys of the stream read in order. -/
theorem hasKeysResult_eq_hasKeysRef (K : List κ) (stream : BlockStream κ ν) :
    hasKeysResult K stream = hasKeysRef K (streamKeys stream) := by
  have h := hasKeysBlock_spec K (streamRows stream) [] (Nat.zero_le _)
  simp only [List.length_nil, Nat.sub_zero, List.nil_append, List.drop_zero] at h
  unfold hasKeysResult streamKeys
  rw [hasKeysStream_eq_block]
  rw [← show (hasKeysRef K (List.map Row.key (streamRows stream))).map (fun flags => flags)
      = hasKeysRef K (List.map Row.key (streamRows stream)) from by simp]
  rw [← h]
  cases hasKeysBlock K { requested_key_index := 0, result_data := List.replicate K.length false }
      (streamRows stream) with
  | none => rfl
  | some s => rfl

end HasKeysLemmas

theorem hasKeysRef_of_filter {κ : Type} [DecidableEq κ] (S : κ → Bool) (ks : List κ) :
    hasKeysRef ks (ks.filter S) = some (ks.map S) := by
  induction ks with
  | nil => simp [hasKeysRef]
  | cons k ks ih =>
    by_cases hS : S k = true
    · rw [List.filter_cons_of_pos hS]
      simp [hasKeysRef, ih, hS]
    · rw [List.filter_cons_of_neg hS]
      cases hbs : ks.filter S with
      | nil =>
        rw [hbs] at ih
        simp [hasKeysRef, ih, hS]
      | cons b bs =>
        rw [hbs] at ih
        have hmem : b ∈ ks.filter S := by rw [hbs]; simp
        have hSb : S b = true := (List.mem_filter.mp hmem).2
        have hk : ¬ b = k := by
          intro h
          rw [h] at hSb
          exact hS hSb
        simp [hasKeysRef, ih, hS, hk]

theorem hasKeysRef_of_sublist {κ : Type} [DecidableEq κ] (ks bs : List κ) (h : bs.Sublist ks) :
    ∃ flags, hasKeysRef ks bs = some flags ∧ flags.length = ks.length := by
  induction ks generalizing bs with
  | nil =>
    have hnil : bs = [] := by simpa using h
    exact ⟨[], by simp [hnil, hasKeysRef], rfl⟩
  | cons k ks ih =>
    cases bs with
    | nil =>
      obtain ⟨flags, h1, h2⟩ := ih [] (List.nil_sublist _)
      exact ⟨false :: flags, by simp [hasKeysRef, h1], by simp [h2]⟩
    | cons b bs =>
      by_cases hk : b = k
      · have h2 : bs.Sublist ks := by
          rw [hk] at h
          exact List.cons_sublist_cons.mp h
        obtain ⟨flags, h3, h4⟩ := ih bs h2
        exact ⟨true :: flags, by simp [hasKeysRef, hk, h3], by simp [h4]⟩
      · have h2 : (b :: bs).Sublist ks := by
          rcases List.cons_sublist_cons'.mp h with h3 | ⟨h3, _⟩
          · exact h3
          · exact absurd h3 hk
        obtain ⟨flags, h3, h4⟩ := ih (b :: bs) h2
        exact ⟨false :: flags, by simp [hasKeysRef, hk, h3], by simp [h4]⟩

/-! ## Lemmas on the hierarchy traversal -/

/-- The loop of `isInImpl` stops on the first chain element that is the null value
or the ancestor, or after the allowed number of steps: it ends on the ancestor
exactly when the ancestor is reached within the bound with no null value before. -/
theorem isInLoop_reaches_iff (null_value ancestor_id : Nat) (parentOf : Nat → Nat)
    (remaining id : Nat) (lookups : List Nat) :
    ((isInLoop null_value ancestor_id parentOf remaining id lookups).1 ≠ null_value ∧
      (isInLoop null_value ancestor_id parentOf remaining id lookups).1 = ancestor_id)
    ↔ (ancestor_id ≠ null_value ∧ ∃ k, k ≤ remaining ∧ parentOf^[k] id = ancestor_id ∧
        ∀ j, j < k → parentOf^[j] id ≠ null_value) := by
  induction remaining generalizing id lookups with
  | zero =>
    simp only [isInLoop, Nat.le_zero]
    constructor
    · rintro ⟨h1, h2⟩
      exact ⟨h2 ▸ h1, 0, rfl, h2, by intro j hj; omega⟩
    · rintro ⟨h1, k, hk, h2, _⟩
      subst hk
      simp only [Function.iterate_zero, id_eq] at h2
      exact ⟨h2 ▸ h1, h2⟩
  | succ remaining ih =>
    unfold isInLoop
    by_cases hc : id ≠ null_value ∧ id ≠ ancestor_id
    · rw [if_pos hc, ih]
      constructor
      · rintro ⟨h1, k, hk, h2, h3⟩
        refine ⟨h1, k + 1, by omega, by simpa [Function.iterate_succ_apply] using h2, ?_⟩
        intro j hj
        cases j with
        | zero => simpa using hc.1
        | succ j =>
          rw [Function.iterate_succ_apply]
          exact h3 j (by omega)
      · rintro ⟨h1, k, hk, h2, h3⟩
        cases k with
        | zero =>
          simp only [Function.iterate_zero, id_eq] at h2
          exact absurd h2 hc.2
        | succ k =>
          refine ⟨h1, k, by omega, by simpa [Function.iterate_succ_apply] using h2, ?_⟩
          intro j hj
          have := h3 (j + 1) (by omega)
          rwa [Function.iterate_succ_apply] at this
    · rw [if_neg hc]
      constructor
      · rintro ⟨h1, h2⟩
        exact ⟨h2 ▸ h1, 0, by omega, h2, by intro j hj; omega⟩
      · rintro ⟨h1, k, hk, h2, h3⟩
        by_cases ha : id = ancestor_id
        · exact ⟨ha ▸ h1, ha⟩
        · have hn : id = null_value := by
            by_contra hne
            exact hc ⟨hne, ha⟩
          cases k with
          | zero =>
            simp only [Function.iterate_zero, id_eq] at h2
            exact absurd h2 ha
          | succ k =>
            have := h3 0 (by omega)
            simp only [Function.iterate_zero, id_eq] at this
            exact absurd hn this

/-- Every iteration of the loop of `isInImpl` calls the single-key lookup once, so
the number of calls grows by at most the number of allowed iterations. -/
theorem isInLoop_lookups_length_le (null_value ancestor_id : Nat) (parentOf : Nat → Nat)
    (remaining id : Nat) (lookups : List Nat) :
    (isInLoop null_value ancestor_id parentOf remaining id lookups).2.length
      ≤ lookups.length + remaining := by
  induction remaining generalizing id lookups with
  | zero => simp [isInLoop]
  | succ remaining ih =>
    unfold isInLoop
    split
    · have := ih (parentOf id) (lookups ++ [id])
      simp only [List.length_append, List.length_singleton] at this
      omega
    · simp

theorem iterate_succ_mod (m j : Nat) : (fun x => (x + 1) % m)^[j] 0 = j % m := by
  induction j with
  | zero => simp
  | succ j ih =>
    rw [Function.iterate_succ_apply', ih]
    simp [Nat.add_mod]

theorem isIn_true_iff_of_loop (max_depth n : Nat) (p : Nat → Nat) (c a : Nat) :
    (isInRow max_depth n p c a).1 = true ↔
      (a ≠ n ∧ ∃ k, k ≤ max_depth ∧ p^[k] c = a ∧ ∀ j, j < k → p^[j] c ≠ n) := by
  rw [← isInLoop_reaches_iff n a p max_depth c []]
  simp [isInRow]

theorem ring2000_enters_cycle :
    ChainEntersCycle 5000 (fun x => (x + 1) % 2000) 0 0 2000 := by
  refine ⟨by decide, ?_, ?_, ?_⟩
  · simp [iterate_succ_mod]
  · intro i j hij hj
    rw [iterate_succ_mod, iterate_succ_mod, Nat.mod_eq_of_lt (by omega),
      Nat.mod_eq_of_lt (by omega)]
    omega
  · intro j hj
    rw [iterate_succ_mod, Nat.mod_eq_of_lt (by omega)]
    omega

/-! ## Lemmas on the single-key lookup -/

theorem scanRows_other_name (hname : String) (key idx : Nat) (name : String)
    (rows : List (Row Nat Nat)) (st : LookupState) (h : hname ≠ name) :
    scanRows hname key idx name rows st = st := by
  induction rows with
  | nil => rfl
  | cons r rs ih => simp [scanRows, h, ih]

theorem scanRows_same_name (hname : String) (key idx : Nat) (rows : List (Row Nat Nat))
    (st : LookupState) :
    scanRows hname key idx hname rows st
      = match rows.find? (fun r => decide (r.key = key)) with
        | some r => { is_found := true, result := r.attrs idx }
        | none => st := by
  induction rows with
  | nil => rfl
  | cons r rs ih =>
    by_cases hk : r.key = key
    · simp [scanRows, hk]
    · simp [scanRows, hk, ih, List.find?_cons]

theorem scanRows_no_key (hname : String) (key idx : Nat) (name : String)
    (rows : List (Row Nat Nat)) (st : LookupState)
    (hno : rows.find? (fun r => decide (r.key = key)) = none) :
    scanRows hname key idx name rows st = st := by
  by_cases h : hname = name
  · subst h
    rw [scanRows_same_name, hno]
  · exact scanRows_other_name _ _ _ _ _ _ h

theorem scanAttributes_found (hname : String) (key : Nat) (block : Block Nat Nat)
    (attrs : List (DictionaryAttribute Nat)) (i : Nat) (st : LookupState)
    (hst : st.is_found = true) :
    scanAttributes hname key block attrs i st = st := by
  cases attrs with
  | nil => rfl
  | cons a rest => simp [scanAttributes, hst]

theorem scanAttributes_no_key (hname : String) (key : Nat) (block : Block Nat Nat)
    (attrs : List (DictionaryAttribute Nat)) (i : Nat) (st : LookupState)
    (hno : block.find? (fun r => decide (r.key = key)) = none) :
    scanAttributes hname key block attrs i st = st := by
  induction attrs generalizing i with
  | nil => rfl
  | cons a rest ih =>
    unfold scanAttributes
    split
    · rfl
    · rw [scanRows_no_key _ _ _ _ _ _ hno, ih]

/-- The loop over the attribute indexes for one block, entered with nothing found:
the attribute columns before the first one named like the hierarchical attribute
are passed over, and that column is read at the first row holding the key. -/
theorem scanAttributes_spec (hname : String) (key : Nat) (block : Block Nat Nat)
    (before : List (DictionaryAttribute Nat)) (a : DictionaryAttribute Nat)
    (after : List (DictionaryAttribute Nat)) (i : Nat) (st : LookupState)
    (hbefore : ∀ x ∈ before, hname ≠ x.name) (ha : hname = a.name)
    (hst : st.is_found = false) :
    scanAttributes hname key block (before ++ a :: after) i st
      = match block.find? (fun r => decide (r.key = key)) with
        | some r => { is_found := true, result := r.attrs (i + before.length) }
        | none => st := by
  induction before generalizing i with
  | nil =>
    simp only [List.nil_append, scanAttributes, hst, Bool.false_eq_true, if_false]
    rw [← ha, scanRows_same_name]
    cases hf : block.find? (fun r => decide (r.key = key)) with
    | none => simp [scanAttributes_no_key _ _ _ _ _ _ hf]
    | some r => simp [scanAttributes_found]
  | cons x xs ih =>
    simp only [List.cons_append, scanAttributes, hst, Bool.false_eq_true, if_false]
    rw [scanRows_other_name _ _ _ _ _ _ (hbefore x (List.mem_cons_self _ _))]
    have hih := ih (i + 1) (fun y hy => hbefore y (List.mem_cons_of_mem _ hy))
    simp only [List.append_eq]
    rw [hih]
    simp [Nat.add_assoc, Nat.add_comm 1]

theorem scanBlocks_spec (hname : String) (key : Nat)
    (before : List (DictionaryAttribute Nat)) (a : DictionaryAttribute Nat)
    (after : List (DictionaryAttribute Nat))
    (hbefore : ∀ x ∈ before, hname ≠ x.name) (ha : hname = a.name)
    (blocks : BlockStream Nat Nat) (st : LookupState) :
    scanBlocks (before ++ a :: after) hname key blocks st
      = if st.is_found = true then st
        else match (streamRows blocks).find? (fun r => decide (r.key = key)) with
          | some r => { is_found := true, result := r.attrs before.length }
          | none => st := by
  induction blocks generalizing st with
  | nil =>
    simp only [scanBlocks, streamRows, List.flatten_nil, List.find?_nil]
    split <;> rfl
  | cons b bs ih =>
    simp only [scanBlocks, streamRows, List.flatten_cons, List.find?_append]
    rw [ih]
    by_cases hst : st.is_found = true
    · simp [scanAttributes_found _ _ _ _ _ _ hst, hst]
    · have hst2 : st.is_found = false := by simpa using hst
      rw [scanAttributes_spec hname key b before a after 0 st hbefore ha hst2]
      cases hf : b.find? (fun r => decide (r.key = key)) with
      | none => simp [hst, streamRows]
      | some r => simp [hst]

/-! ## Lemmas on provenance -/

theorem streamRows_tagStream {κ ν : Type} (stream : BlockStream κ ν) :
    streamRows (tagStream stream)
      = (streamRows stream).map (fun r =>
          ({ key := r.key, attrs := fun a => Origin.fromSource (r.attrs a) } : Row κ (Origin ν))) := by
  induction stream with
  | nil => rfl
  | cons b bs ih =>
    simp only [streamRows, tagStream, List.map_cons, List.flatten_cons, List.map_append] at ih ⊢
    rw [ih]

section ProvenanceLemmas

variable {κ ν : Type} [DecidableEq κ]

/-- Resolving the recorded origins gives the column computed with the real default
provider. -/
theorem mergeRef_map_resolve (p : DefaultValueProvider ν) (a : Nat) (ks : List κ) (i : Nat)
    (rows : List (Row κ ν)) :
    (mergeRef { default_value := Origin.fromDefault 0,
                default_values_column := some Origin.fromDefault } a ks i
        (rows.map (fun r =>
          ({ key := r.key, attrs := fun a => Origin.fromSource (r.attrs a) } :
            Row κ (Origin ν))))).map (Origin.resolve p)
      = mergeRef p a ks i rows := by
  induction ks generalizing i rows with
  | nil => simp [mergeRef, Origin.resolve, Function.comp_def]
  | cons k ks ih =>
    cases rows with
    | nil =>
      have := ih (i + 1) []
      simp only [List.map_nil] at this
      simp [mergeRef, this, Origin.resolve, DefaultValueProvider.getDefaultValue]
    | cons r rs =>
      by_cases hk : r.key = k
      · simp [mergeRef, hk, ih (i + 1) rs, Origin.resolve]
      · have := ih (i + 1) (r :: rs)
        simp only [List.map_cons] at this
        simp [mergeRef, hk, this, Origin.resolve, DefaultValueProvider.getDefaultValue]

/-- An entry recorded as coming from the default provider sits at the index the
provider was called with. -/
theorem mergeRef_default_origin_index (a : Nat) (ks : List κ) (i : Nat)
    (rows : List (Row κ ν)) (m j : Nat)
    (h : (mergeRef { default_value := Origin.fromDefault 0,
                     default_values_column := some Origin.fromDefault } a ks i
        (rows.map (fun r =>
          ({ key := r.key, attrs := fun a => Origin.fromSource (r.attrs a) } :
            Row κ (Origin ν)))))[m]? = some (Origin.fromDefault j)) :
    j = i + m := by
  induction ks generalizing i rows m with
  | nil =>
    simp only [mergeRef, List.map_map, List.getElem?_map, Function.comp_def] at h
    cases hr : rows[m]? with
    | none => simp [hr] at h
    | some r => simp [hr] at h
  | cons k ks ih =>
    cases rows with
    | nil =>
      cases m with
      | zero =>
        simp [mergeRef, DefaultValueProvider.getDefaultValue] at h
        omega
      | succ m =>
        have := ih (i + 1) [] m (by simpa [mergeRef] using h)
        omega
    | cons r rs =>
      by_cases hk : r.key = k
      · cases m with
        | zero => simp [mergeRef, hk] at h
        | succ m =>
          have := ih (i + 1) rs m (by simpa [mergeRef, hk] using h)
          omega
      · cases m with
        | zero =>
          simp [mergeRef, hk, DefaultValueProvider.getDefaultValue] at h
          omega
        | succ m =>
          have := ih (i + 1) (r :: rs) m (by simpa [mergeRef, hk] using h)
          omega

end ProvenanceLemmas

/-! ## Lemmas on the query counter -/

theorem writeAt_length {α : Type} (arr : List α) (i : Nat) (x : α) (arr1 : List α)
    (h : writeAt arr i x = some arr1) : arr1.length = arr.length := by
  unfold writeAt at h
  split at h
  · cases h
    simp
  · exact Option.noConfusion h

theorem isInImpl_query_count (max_depth : Nat) (source_ptr : DictionarySource Nat Nat)
    (attributes : List (DictionaryAttribute Nat))
    (hierarchical_attribute : DictionaryAttribute Nat)
    (child_ids ancestor_ids : IdsArg) (out : List Bool) (st : DictState Nat)
    (r : List Bool × DictState Nat)
    (h : isInImpl max_depth source_ptr attributes hierarchical_attribute child_ids ancestor_ids
      out st = some r) :
    r.2.query_count = fetch_add st.query_count out.length := by
  unfold isInImpl at h
  simp only at h
  split at h
  · exact Option.noConfusion h
  · cases h
    rfl

/-- The loop over the rows of `isInImpl` completes when every row to do lies inside
`out` and inside the argument arrays. -/
theorem isInImplRows_isSome (max_depth null_value : Nat) (parentOf : Nat → Nat)
    (child_ids ancestor_ids : IdsArg) (rows : List Nat) (out : List Bool)
    (requests : List (List Nat))
    (hrows : ∀ row ∈ rows, row < out.length ∧ (getAt child_ids row).isSome = true ∧
      (getAt ancestor_ids row).isSome = true) :
    (isInImplRows max_depth null_value parentOf child_ids ancestor_ids rows out
      requests).isSome = true := by
  induction rows generalizing out requests with
  | nil => rfl
  | cons row rows ih =>
    obtain ⟨hlt, hc, ha⟩ := hrows row (List.mem_cons_self _ _)
    obtain ⟨id, hid⟩ := Option.isSome_iff_exists.mp hc
    obtain ⟨anc, hanc⟩ := Option.isSome_iff_exists.mp ha
    unfold isInImplRows
    rw [hid, hanc]
    simp only
    have hw : writeAt out row (isInRow max_depth null_value parentOf id anc).1
        = some (out.set row (isInRow max_depth null_value parentOf id anc).1) := by
      unfold writeAt
      rw [if_pos hlt]
    rw [hw]
    simp only
    apply ih
    intro row1 h1
    obtain ⟨h2, h3, h4⟩ := hrows row1 (List.mem_cons_of_mem _ h1)
    exact ⟨by simpa using h2, h3, h4⟩

theorem isInImpl_isSome (max_depth : Nat) (source_ptr : DictionarySource Nat Nat)
    (attributes : List (DictionaryAttribute Nat))
    (hierarchical_attribute : DictionaryAttribute Nat)
    (child_ids ancestor_ids : IdsArg) (out : List Bool) (st : DictState Nat)
    (hargs : ∀ row, row < out.length → (getAt child_ids row).isSome = true ∧
      (getAt ancestor_ids row).isSome = true) :
    (isInImpl max_depth source_ptr attributes hierarchical_attribute child_ids ancestor_ids
      out st).isSome = true := by
  have h := isInImplRows_isSome max_depth hierarchical_attribute.null_value
    (getValueOrNullByKey source_ptr attributes hierarchical_attribute)
    child_ids ancestor_ids (List.range out.length) out st.source_requests
    (fun row hrow => ⟨List.mem_range.mp hrow, hargs row (List.mem_range.mp hrow)⟩)
  obtain ⟨r, hr⟩ := Option.isSome_iff_exists.mp h
  unfold isInImpl
  simp only [hr]
  rfl

theorem getAt_vector_isSome (arr : List Nat) (row : Nat) (h : row < arr.length) :
    (getAt (IdsArg.vector arr) row).isSome = true := by
  simp [getAt, List.getElem?_eq_getElem h]

theorem hasKeys_isSome_of_sublist {κ ν : Type} [DecidableEq κ]
    (source_ptr : DictionarySource κ ν) (requested_keys : List κ) (st : DictState κ)
    (hsub : (streamKeys (source_ptr requested_keys)).Sublist requested_keys) :
    (hasKeys source_ptr requested_keys st).isSome = true := by
  obtain ⟨flags, h1, _⟩ := hasKeysRef_of_sublist _ _ hsub
  unfold hasKeys
  rw [hasKeysResult_eq_hasKeysRef, h1]
  rfl

theorem hasKeys_query_count {κ ν : Type} [DecidableEq κ]
    (source_ptr : DictionarySource κ ν) (requested_keys : List κ) (st : DictState κ)
    (r : List Bool × DictState κ) (h : hasKeys source_ptr requested_keys st = some r) :
    r.2.query_count = fetch_add st.query_count requested_keys.length := by
  unfold hasKeys at h
  split at h
  · exact Option.noConfusion h
  · cases h
    rfl

/-! ## The iteration counts given to the loops suffice -/

/-- With `requested_keys.size() - requested_key_index` iterations allowed the skip
loop of `getColumn` stops because its condition is false, not because the count ran
out. -/
theorem insertDefaultsUntilMatch_exit {κ ν : Type} [DecidableEq κ] (K : List κ)
    (p : DefaultValueProvider ν) (bk : κ) (fuel : Nat) (st : MergeState ν)
    (hfuel : K.length - st.requested_key_index ≤ fuel) :
    ¬ ((insertDefaultsUntilMatch K p bk fuel st).requested_key_index < K.length ∧
      K[(insertDefaultsUntilMatch K p bk fuel st).requested_key_index]? ≠ some bk) := by
  induction fuel generalizing st with
  | zero =>
    simp only [insertDefaultsUntilMatch]
    intro h
    omega
  | succ fuel ih =>
    unfold insertDefaultsUntilMatch
    split
    · rename_i hc
      exact ih _ (by simp only; omega)
    · rename_i hc
      exact hc

/-- With `requested_keys_size - requested_key_index` iterations allowed the tail loop
of `getColumn` runs until the cursor reaches the end of the requested keys. -/
theorem processTail_exit {ν : Type} (n : Nat) (p : DefaultValueProvider ν) (fuel : Nat)
    (st : MergeState ν) (hfuel : n - st.requested_key_index ≤ fuel) :
    n ≤ (processTail n p fuel st).requested_key_index := by
  induction fuel generalizing st with
  | zero =>
    simp only [processTail]
    omega
  | succ fuel ih =>
    unfold processTail
    split
    · exact ih _ (by simp only; omega)
    · omega

/-- With `requested_keys.size() - requested_key_index` iterations allowed the skip
loop of `hasKeys`, when it completes, stops because its condition is false. -/
theorem markAbsentUntilMatch_exit {κ : Type} [DecidableEq κ] (K : List κ) (bk : κ)
    (fuel : Nat) (st st1 : HasKeysState)
    (hfuel : K.length - st.requested_key_index ≤ fuel)
    (h : markAbsentUntilMatch K bk fuel st = some st1) :
    ¬ (st1.requested_key_index < K.length ∧ K[st1.requested_key_index]? ≠ some bk) := by
  induction fuel generalizing st with
  | zero =>
    simp only [markAbsentUntilMatch, Option.some.injEq] at h
    subst h
    intro hc
    omega
  | succ fuel ih =>
    unfold markAbsentUntilMatch at h
    split at h
    · split at h
      · exact Option.noConfusion h
      · exact ih _ (by simp only; omega) h
    · rename_i hc
      simp only [Option.some.injEq] at h
      subst h
      exact hc

/-- For pairwise distinct requested keys every subsequence is the requested sequence
restricted to its own keys. -/
theorem sublist_eq_filter_mem_of_nodup {κ : Type} [DecidableEq κ] (K ret : List κ)
    (hnodup : K.Nodup) (hsub : ret.Sublist K) :
    ret = K.filter (fun k => decide (k ∈ ret)) := by
  induction K generalizing ret with
  | nil =>
    have hnil : ret = [] := by simpa using hsub
    simp [hnil]
  | cons k ks ih =>
    obtain ⟨hk, hks⟩ := List.nodup_cons.mp hnodup
    cases ret with
    | nil => simp
    | cons b bs =>
      rcases List.cons_sublist_cons'.mp hsub with h1 | ⟨h1, h2⟩
      · have hkret : k ∉ b :: bs := fun hmem => hk (h1.subset hmem)
        rw [List.filter_cons_of_neg (by simpa using hkret)]
        exact ih (b :: bs) hks h1
      · subst h1
        rw [List.filter_cons_of_pos (by simp)]
        congr 1
        have hcongr : ks.filter (fun x => decide (x ∈ b :: bs))
            = ks.filter (fun x => decide (x ∈ bs)) := by
          apply List.filter_congr
          intro x hx
          have hxb : x ≠ b := fun h => hk (h ▸ hx)
          simp [hxb]
        rw [hcongr]
        exact ih bs hks h2

/-! ## Row by row description of isInImpl -/

theorem take_succ_set {α : Type} (l : List α) (s : Nat) (v : α) (h : s < l.length) :
    (l.set s v).take (s + 1) = l.take s ++ [v] := by
  rw [List.take_succ, List.getElem?_set_self h, List.set_take]
  have hle : (List.take s l).length ≤ s := List.length_take_le s l
  rw [List.set_eq_of_length_le hle]
  rfl

/-- The loop over the rows of `isInImpl`, run on the rows `s, s + 1, ..., s + m - 1`
that end at `out.size()`, stores in each of them the result of `isInRow` for the
arguments of that row and sends the lookups of that row to the source. -/
theorem isInImplRows_range (max_depth null_value : Nat) (parentOf : Nat → Nat)
    (child_ids ancestor_ids : IdsArg) (m s : Nat) (out : List Bool)
    (requests : List (List Nat)) (hlen : s + m = out.length)
    (hargs : ∀ row, row < out.length → (getAt child_ids row).isSome = true ∧
      (getAt ancestor_ids row).isSome = true) :
    isInImplRows max_depth null_value parentOf child_ids ancestor_ids (List.range' s m) out
        requests
      = some (out.take s ++ (List.range' s m).map (fun row =>
            (isInRow max_depth null_value parentOf ((getAt child_ids row).getD 0)
              ((getAt ancestor_ids row).getD 0)).1),
          requests ++ ((List.range' s m).map (fun row =>
            (isInRow max_depth null_value parentOf ((getAt child_ids row).getD 0)
              ((getAt ancestor_ids row).getD 0)).2.map (fun k => [k]))).flatten) := by
  induction m generalizing s out requests with
  | zero =>
    have hs : out.length ≤ s := by omega
    simp [isInImplRows, List.take_of_length_le hs]
  | succ m ih =>
    have hlt : s < out.length := by omega
    obtain ⟨hc, ha⟩ := hargs s hlt
    obtain ⟨id, hid⟩ := Option.isSome_iff_exists.mp hc
    obtain ⟨anc, hanc⟩ := Option.isSome_iff_exists.mp ha
    rw [List.range'_succ]
    unfold isInImplRows
    rw [hid, hanc]
    simp only
    have hw : writeAt out s (isInRow max_depth null_value parentOf id anc).1
        = some (out.set s (isInRow max_depth null_value parentOf id anc).1) := by
      unfold writeAt
      rw [if_pos hlt]
    rw [hw]
    simp only
    rw [ih (s + 1) _ _ (by simp; omega) (by simpa using hargs)]
    rw [take_succ_set _ _ _ hlt]
    simp [hid, hanc]

/-- Method `isInImpl` row by row: when the argument arrays cover the rows of `out`,
entry `row` of the result is the outcome of the traversal loop for the child and the
ancestor of that row, with the single-key lookup `getValueOrNullByKey` as parent
function; the requests sent are the lookups of all rows in order, and the counter
grows by the number of rows. -/
theorem isInImpl_eq_map_isInRow (max_depth : Nat) (source_ptr : DictionarySource Nat Nat)
    (attributes : List (DictionaryAttribute Nat))
    (hierarchical_attribute : DictionaryAttribute Nat)
    (child_ids ancestor_ids : IdsArg) (out : List Bool) (st : DictState Nat)
    (hargs : ∀ row, row < out.length → (getAt child_ids row).isSome = true ∧
      (getAt ancestor_ids row).isSome = true) :
    isInImpl max_depth source_ptr attributes hierarchical_attribute child_ids ancestor_ids
        out st
      = some ((List.range out.length).map (fun row =>
            (isInRow max_depth hierarchical_attribute.null_value
              (getValueOrNullByKey source_ptr attributes hierarchical_attribute)
              ((getAt child_ids row).getD 0) ((getAt ancestor_ids row).getD 0)).1),
          { query_count := fetch_add st.query_count out.length
            source_requests := st.source_requests ++ ((List.range out.length).map (fun row =>
              (isInRow max_depth hierarchical_attribute.null_value
                (getValueOrNullByKey source_ptr attributes hierarchical_attribute)
                ((getAt child_ids row).getD 0)
                ((getAt ancestor_ids row).getD 0)).2.map (fun k => [k]))).flatten }) := by
  unfold isInImpl
  simp only [List.range_eq_range']
  rw [isInImplRows_range max_depth hierarchical_attribute.null_value
    (getValueOrNullByKey source_ptr attributes hierarchical_attribute) child_ids ancestor_ids
    out.length 0 out st.source_requests (by simp) hargs]
  simp

/-! ## Lemmas on setup -/

theorem setupLoop_complex_of_hierarchical {ν : Type} (attributes : List (DictionaryAttribute ν))
    (i : Nat) (s : SetupState ν) (h : ∃ a ∈ attributes, a.hierarchical = true) :
    setupLoop DictionaryKeyType.complex attributes i s = Except.error ErrorCode.BAD_ARGUMENTS := by
  induction attributes generalizing i s with
  | nil => simp at h
  | cons a rest ih =>
    unfold setupLoop
    by_cases ha : a.hierarchical = true
    · simp [ha]
    · obtain ⟨b, hb, hbh⟩ := h
      have hrest : ∃ x ∈ rest, x.hierarchical = true := by
        rcases List.mem_cons.mp hb with h1 | h1
        · exact absurd (h1 ▸ hbh) ha
        · exact ⟨b, h1, hbh⟩
      simp only [ha, Bool.false_eq_true, if_false]
      exact ih _ _ hrest

theorem setupLoop_simple_of_bad_type {ν : Type} (attributes : List (DictionaryAttribute ν))
    (i : Nat) (s : SetupState ν)
    (h : ∃ a ∈ attributes, a.hierarchical = true ∧
      a.underlying_type ≠ AttributeUnderlyingType.utUInt64) :
    setupLoop DictionaryKeyType.simple attributes i s = Except.error ErrorCode.TYPE_MISMATCH := by
  induction attributes generalizing i s with
  | nil => simp at h
  | cons a rest ih =>
    unfold setupLoop
    by_cases hbad : a.hierarchical = true ∧ a.underlying_type ≠ AttributeUnderlyingType.utUInt64
    · simp [hbad.1, hbad.2]
    · obtain ⟨b, hb, hbh⟩ := h
      have hrest : ∃ x ∈ rest, x.hierarchical = true ∧
          x.underlying_type ≠ AttributeUnderlyingType.utUInt64 := by
        rcases List.mem_cons.mp hb with h1 | h1
        · exact absurd (h1 ▸ hbh) hbad
        · exact ⟨b, h1, hbh⟩
      by_cases ha : a.hierarchical = true
      · have ht : a.underlying_type = AttributeUnderlyingType.utUInt64 := by
          by_contra hne
          exact hbad ⟨ha, hne⟩
        simp only [ha, if_true, ht, ne_eq, not_true_eq_false, if_false]
        exact ih _ _ hrest
      · simp only [ha, Bool.false_eq_true, if_false]
        exact ih _ _ hrest

/-- When no attribute makes `setup` throw, the loop ends normally, and the pointer
`hierarchical_attribute` is either left as it was or set to a hierarchical attribute
of the list. -/
theorem setupLoop_ok {ν : Type} (dictionary_key_type : DictionaryKeyType)
    (attributes : List (DictionaryAttribute ν)) (i : Nat) (s : SetupState ν)
    (hcomplex : dictionary_key_type = DictionaryKeyType.complex →
      ∀ a ∈ attributes, a.hierarchical = false)
    (hsimple : ∀ a ∈ attributes, a.hierarchical = true →
      a.underlying_type = AttributeUnderlyingType.utUInt64) :
    ∃ s1, setupLoop dictionary_key_type attributes i s = Except.ok s1 ∧
      (s1.hierarchical_attribute = s.hierarchical_attribute ∨
        ∃ a ∈ attributes, s1.hierarchical_attribute = some a ∧ a.hierarchical = true) := by
  induction attributes generalizing i s with
  | nil => exact ⟨s, rfl, Or.inl rfl⟩
  | cons a rest ih =>
    have hc2 : dictionary_key_type = DictionaryKeyType.complex →
        ∀ x ∈ rest, x.hierarchical = false :=
      fun hk x hx => hcomplex hk x (List.mem_cons_of_mem _ hx)
    have hs2 : ∀ x ∈ rest, x.hierarchical = true →
        x.underlying_type = AttributeUnderlyingType.utUInt64 :=
      fun x hx => hsimple x (List.mem_cons_of_mem _ hx)
    unfold setupLoop
    by_cases ha : a.hierarchical = true
    · cases dictionary_key_type with
      | complex =>
        have := hcomplex rfl a (List.mem_cons_self _ _)
        rw [ha] at this
        exact absurd this (by decide)
      | simple =>
        have ht := hsimple a (List.mem_cons_self _ _) ha
        simp only [ha, if_true, ht, ne_eq, not_true_eq_false, if_false]
        obtain ⟨s1, h1, h2⟩ := ih (i + 1) _ hc2 hs2
        refine ⟨s1, h1, Or.inr ?_⟩
        rcases h2 with h2 | ⟨b, hb, hb1, hb2⟩
        · exact ⟨a, List.mem_cons_self _ _, h2, ha⟩
        · exact ⟨b, List.mem_cons_of_mem _ hb, hb1, hb2⟩
    · simp only [ha, Bool.false_eq_true, if_false]
      obtain ⟨s1, h1, h2⟩ := ih (i + 1) _ hc2 hs2
      refine ⟨s1, h1, ?_⟩
      rcases h2 with h2 | ⟨b, hb, hb1, hb2⟩
      · exact Or.inl h2
      · exact Or.inr ⟨b, List.mem_cons_of_mem _ hb, hb1, hb2⟩

theorem isInLoop_stop (null_value ancestor_id : Nat) (parentOf : Nat → Nat)
    (remaining id : Nat) (lookups : List Nat)
    (h : id = null_value ∨ id = ancestor_id) :
    isInLoop null_value ancestor_id parentOf remaining id lookups = (id, lookups) := by
  cases remaining with
  | zero => rfl
  | succ m =>
    unfold isInLoop
    rw [if_neg]
    rintro ⟨h1, h2⟩
    rcases h with h | h
    · exact h1 h
    · exact h2 h

/-! ## The merge reads the keys and one attribute column only -/

/-- The merge depends on the rows only through their keys and their values of the
requested attribute. -/
theorem mergeRef_eq_of_pairs {κ ν : Type} [DecidableEq κ] (p : DefaultValueProvider ν)
    (a : Nat) (ks : List κ) (i : Nat) (rows : List (Row κ ν)) :
    mergeRef p a ks i rows
      = mergeRef p 0 ks i
          ((rows.map (fun r => (r.key, r.attrs a))).map
            (fun q => ({ key := q.1, attrs := fun _ => q.2 } : Row κ ν))) := by
  induction ks generalizing i rows with
  | nil => simp [mergeRef, Function.comp_def]
  | cons k ks ih =>
    cases rows with
    | nil =>
      have := ih (i + 1) []
      simp only [List.map_nil] at this
      simp [mergeRef, this]
    | cons r rs =>
      by_cases hk : r.key = k
      · have := ih (i + 1) rs
        simp [mergeRef, hk, this]
      · have := ih (i + 1) (r :: rs)
        simp only [List.map_cons] at this
        simp [mergeRef, hk, this]

/-- On a subsequence answer the loop of `hasKeys` marks exactly the positions that
the merge of `getColumn` fills from a source row. -/
theorem hasKeysRef_eq_origins {κ ν : Type} [DecidableEq κ] (a : Nat) (ks : List κ) (i : Nat)
    (rows : List (Row κ ν)) (h : (rows.map Row.key).Sublist ks) :
    hasKeysRef ks (rows.map Row.key)
      = some ((mergeRef { default_value := Origin.fromDefault 0,
                          default_values_column := some Origin.fromDefault } a ks i
          (rows.map (fun r =>
            ({ key := r.key, attrs := fun a => Origin.fromSource (r.attrs a) } :
              Row κ (Origin ν))))).map Origin.isFromSource) := by
  induction ks generalizing i rows with
  | nil =>
    have hnil : rows = [] := by simpa using h
    simp [hnil, hasKeysRef, mergeRef]
  | cons k ks ih =>
    cases rows with
    | nil =>
      have := ih (i + 1) [] (List.nil_sublist _)
      simp only [List.map_nil] at this
      simp [hasKeysRef, mergeRef, this, Origin.isFromSource,
        DefaultValueProvider.getDefaultValue]
    | cons r rs =>
      by_cases hk : r.key = k
      · have h2 : (rs.map Row.key).Sublist ks := by
          simp only [List.map_cons, hk] at h
          exact List.cons_sublist_cons.mp h
        simp [hasKeysRef, mergeRef, hk, ih (i + 1) rs h2, Origin.isFromSource]
      · have h2 : ((r :: rs).map Row.key).Sublist ks := by
          simp only [List.map_cons] at h ⊢
          rcases List.cons_sublist_cons'.mp h with h3 | ⟨h3, _⟩
          · exact h3
          · exact absurd h3 hk
        have := ih (i + 1) (r :: rs) h2
        simp only [List.map_cons] at this
        simp [hasKeysRef, mergeRef, hk, this, Origin.isFromSource,
          DefaultValueProvider.getDefaultValue]

/-! ## Lemmas on greedy matching -/

section GreedyLemmas

variable {κ ν : Type} [DecidableEq κ]

theorem firstMatchFrom_of_length_le (K : List κ) (key : κ) (s : Nat) (h : K.length ≤ s) :
    firstMatchFrom K key s = none := by
  unfold firstMatchFrom
  rw [Nat.sub_eq_zero_of_le h]
  rfl

theorem firstMatchFrom_step (K : List κ) (key : κ) (s : Nat) (h : s < K.length) :
    firstMatchFrom K key s
      = if K[s]? = some key then some s else firstMatchFrom K key (s + 1) := by
  unfold firstMatchFrom
  have hlen : K.length - s = (K.length - (s + 1)) + 1 := by omega
  rw [hlen, List.range'_succ, List.find?_cons]
  by_cases hk : K[s]? = some key
  · simp [hk]
  · simp [hk]

/-- What `firstMatchFrom` returns is the smallest index from `s` on that holds the
key. -/
theorem firstMatchFrom_spec (K : List κ) (key : κ) (n s i : Nat) (hn : K.length - s = n)
    (h : firstMatchFrom K key s = some i) :
    s ≤ i ∧ i < K.length ∧ K[i]? = some key ∧
      ∀ x, s ≤ x → x < i → K[x]? ≠ some key := by
  induction n generalizing s with
  | zero =>
    rw [firstMatchFrom_of_length_le K key s (by omega)] at h
    exact Option.noConfusion h
  | succ n ih =>
    have hs : s < K.length := by omega
    rw [firstMatchFrom_step K key s hs] at h
    by_cases hk : K[s]? = some key
    · rw [if_pos hk] at h
      have hi : s = i := Option.some.inj h
      subst hi
      exact ⟨le_refl _, hs, hk, fun x h1 h2 => by omega⟩
    · rw [if_neg hk] at h
      obtain ⟨h1, h2, h3, h4⟩ := ih (s + 1) (by omega) h
      refine ⟨by omega, h2, h3, ?_⟩
      intro x hx1 hx2
      by_cases hxs : x = s
      · rw [hxs]; exact hk
      · exact h4 x (by omega) hx2

theorem matchPositions_nil_keys (ks : List κ) (i : Nat) :
    matchPositions ks i [] = [] := by
  cases ks <;> rfl

theorem greedyPositions_eq_matchPositions (K : List κ) (n s : Nat) (keys : List κ)
    (hn : K.length - s = n) :
    greedyPositions K keys s = matchPositions (K.drop s) s keys := by
  induction n generalizing s keys with
  | zero =>
    have hs : K.length ≤ s := by omega
    rw [List.drop_eq_nil_of_le hs]
    cases keys with
    | nil => rfl
    | cons b bs => simp [greedyPositions, firstMatchFrom_of_length_le K b s hs, matchPositions]
  | succ n ih =>
    have hs : s < K.length := by omega
    cases keys with
    | nil => simp [greedyPositions, matchPositions_nil_keys]
    | cons b bs =>
      rw [List.drop_eq_getElem_cons hs]
      by_cases hk : b = K[s]
      · have hk2 : K[s]? = some b := by rw [List.getElem?_eq_getElem hs, hk]
        have hf : firstMatchFrom K b s = some s := by
          rw [firstMatchFrom_step K b s hs, if_pos hk2]
        have hm : matchPositions (K[s] :: List.drop (s + 1) K) s (b :: bs)
            = s :: matchPositions (List.drop (s + 1) K) (s + 1) bs := by
          simp [matchPositions, hk]
        rw [hm, ← ih (s + 1) bs (by omega)]
        simp only [greedyPositions, hf]
      · have hk2 : ¬ K[s]? = some b := by
          rw [List.getElem?_eq_getElem hs]
          intro h
          exact hk (Option.some.inj h).symm
        have hf : firstMatchFrom K b s = firstMatchFrom K b (s + 1) := by
          rw [firstMatchFrom_step K b s hs, if_neg hk2]
        have hstep : greedyPositions K (b :: bs) s = greedyPositions K (b :: bs) (s + 1) := by
          simp only [greedyPositions, hf]
        rw [hstep, ih (s + 1) (b :: bs) (by omega)]
        simp [matchPositions, hk]

theorem matchPositions_length_le (ks : List κ) (i : Nat) (keys : List κ) :
    (matchPositions ks i keys).length ≤ keys.length := by
  induction ks generalizing i keys with
  | nil => simp [matchPositions]
  | cons k ks ih =>
    cases keys with
    | nil => simp [matchPositions]
    | cons b bs =>
      by_cases hk : b = k
      · have := ih (i + 1) bs
        simp [matchPositions, hk]
        omega
      · have := ih (i + 1) (b :: bs)
        simpa [matchPositions, hk] using this

/-- Every source row gets a position exactly when the returned keys are a
subsequence of the requested ones. -/
theorem matchPositions_length_eq_iff (ks : List κ) (i : Nat) (keys : List κ) :
    (matchPositions ks i keys).length = keys.length ↔ keys.Sublist ks := by
  induction ks generalizing i keys with
  | nil =>
    cases keys with
    | nil => simp [matchPositions]
    | cons b bs => simp [matchPositions]
  | cons k ks ih =>
    cases keys with
    | nil => simp [matchPositions]
    | cons b bs =>
      by_cases hk : b = k
      · subst hk
        simp only [matchPositions, if_true, List.length_cons, Nat.add_right_cancel_iff,
          List.cons_sublist_cons]
        exact ih (i + 1) bs
      · simp only [matchPositions, hk, if_false]
        rw [ih (i + 1) (b :: bs), List.cons_sublist_cons']
        constructor
        · intro h; exact Or.inl h
        · rintro (h | ⟨h, _⟩)
          · exact h
          · exact absurd h hk

theorem matchPositions_bounds (ks : List κ) (i : Nat) (keys : List κ) (x : Nat)
    (hx : x ∈ matchPositions ks i keys) : i ≤ x ∧ x < i + ks.length := by
  induction ks generalizing i keys with
  | nil => simp [matchPositions] at hx
  | cons k ks ih =>
    cases keys with
    | nil => simp [matchPositions] at hx
    | cons b bs =>
      by_cases hk : b = k
      · simp only [matchPositions, hk, if_true, List.mem_cons] at hx
        rcases hx with hx | hx
        · subst hx
          simp
        · have := ih (i + 1) bs hx
          simp only [List.length_cons]
          omega
      · simp only [matchPositions, hk, if_false] at hx
        have := ih (i + 1) (b :: bs) hx
        simp only [List.length_cons]
        omega

/-- The length of the merged column: one entry per requested key, and one more for
every source row from the first one without a position onward. -/
theorem mergeRef_length (p : DefaultValueProvider ν) (a : Nat) (ks : List κ) (i : Nat)
    (rows : List (Row κ ν)) :
    (mergeRef p a ks i rows).length
      = ks.length + (rows.length - (matchPositions ks i (rows.map Row.key)).length) := by
  induction ks generalizing i rows with
  | nil => simp [mergeRef, matchPositions]
  | cons k ks ih =>
    cases rows with
    | nil => simp [mergeRef, matchPositions, ih (i + 1) [], matchPositions_nil_keys]
    | cons r rs =>
      by_cases hk : r.key = k
      · have := ih (i + 1) rs
        simp only [mergeRef, hk, if_true, List.length_cons, List.map_cons, matchPositions, this]
        omega
      · have := ih (i + 1) (r :: rs)
        simp only [List.map_cons] at this
        simp only [mergeRef, hk, if_false, List.length_cons, List.map_cons, matchPositions, this]
        omega

end GreedyLemmas

/-! ## Lemmas on the writes of hasKeys -/

section HasKeysWrites

variable {κ ν : Type} [DecidableEq κ]

theorem writeAt_eq_some_iff {α : Type} (arr : List α) (i : Nat) (x : α) (arr1 : List α) :
    writeAt arr i x = some arr1 ↔ i < arr.length ∧ arr1 = arr.set i x := by
  unfold writeAt
  by_cases h : i < arr.length
  · rw [if_pos h]
    constructor
    · intro h1
      exact ⟨h, (Option.some.inj h1).symm⟩
    · rintro ⟨_, h2⟩
      rw [h2]
  · rw [if_neg h]
    constructor
    · intro h1
      exact Option.noConfusion h1
    · rintro ⟨h1, _⟩
      exact absurd h1 h

/-- The skip loop of `hasKeys` writes inside the array only: on an array with one
entry per requested key it always completes, and it leaves the length as it was. -/
theorem markAbsentUntilMatch_completes (K : List κ) (bk : κ) (fuel : Nat) (st : HasKeysState)
    (hlen : st.result_data.length = K.length) :
    ∃ st1, markAbsentUntilMatch K bk fuel st = some st1 ∧
      st1.result_data.length = K.length := by
  induction fuel generalizing st with
  | zero => exact ⟨st, rfl, hlen⟩
  | succ fuel ih =>
    unfold markAbsentUntilMatch
    split
    · rename_i hc
      have hw : writeAt st.result_data st.requested_key_index false
          = some (st.result_data.set st.requested_key_index false) := by
        unfold writeAt
        rw [if_pos (by rw [hlen]; exact hc.1)]
      rw [hw]
      exact ih _ (by simpa using hlen)
    · exact ⟨st, rfl, hlen⟩

theorem hasKeysBlockRow_length (K : List κ) (st st1 : HasKeysState) (row : Row κ ν)
    (hlen : st.result_data.length = K.length)
    (h : hasKeysBlockRow K st row = some st1) :
    st1.result_data.length = K.length := by
  obtain ⟨s, hs, hslen⟩ := markAbsentUntilMatch_completes K row.key
    (K.length - st.requested_key_index) st hlen
  unfold hasKeysBlockRow at h
  rw [hs] at h
  simp only at h
  cases hw : writeAt s.result_data s.requested_key_index true with
  | none =>
    rw [hw] at h
    exact Option.noConfusion h
  | some rd =>
    rw [hw] at h
    simp only [Option.some.injEq] at h
    subst h
    simpa [hslen] using writeAt_length _ _ _ _ hw

/-- When the loop of `hasKeys` leaves the array, it does so at the write of `true` for
some source row: the rows before it were processed inside the array, the skip loop
for that row completed with the cursor at or past the end of the requested keys, and
the write of `true` at the cursor fell outside the array. -/
theorem hasKeysBlock_none_split (K : List κ) (rows : List (Row κ ν)) (st : HasKeysState)
    (hlen : st.result_data.length = K.length)
    (h : hasKeysBlock K st rows = none) :
    ∃ (before : List (Row κ ν)) (row : Row κ ν) (after : List (Row κ ν))
      (s s1 : HasKeysState),
      rows = before ++ row :: after ∧
      hasKeysBlock K st before = some s ∧
      markAbsentUntilMatch K row.key (K.length - s.requested_key_index) s = some s1 ∧
      s1.result_data.length = K.length ∧
      K.length ≤ s1.requested_key_index ∧
      writeAt s1.result_data s1.requested_key_index true = none := by
  induction rows generalizing st with
  | nil => simp [hasKeysBlock] at h
  | cons r rs ih =>
    cases hrow : hasKeysBlockRow K st r with
    | none =>
      obtain ⟨s1, hs1, hs1len⟩ := markAbsentUntilMatch_completes K r.key
        (K.length - st.requested_key_index) st hlen
      have hw : writeAt s1.result_data s1.requested_key_index true = none := by
        unfold hasKeysBlockRow at hrow
        rw [hs1] at hrow
        simp only at hrow
        cases hw : writeAt s1.result_data s1.requested_key_index true with
        | none => rfl
        | some rd =>
          rw [hw] at hrow
          exact Option.noConfusion hrow
      have hidx : K.length ≤ s1.requested_key_index := by
        unfold writeAt at hw
        by_contra hlt
        rw [if_pos (by rw [hs1len]; omega)] at hw
        exact Option.noConfusion hw
      exact ⟨[], r, rs, st, s1, rfl, rfl, hs1, hs1len, hidx, hw⟩
    | some st1 =>
      have hst1len := hasKeysBlockRow_length K st st1 r hlen hrow
      have hrest : hasKeysBlock K st1 rs = none := by
        simpa [hasKeysBlock, hrow] using h
      obtain ⟨before, row, after, s, s1, h1, h2, h3, h4, h5, h6⟩ := ih st1 hst1len hrest
      refine ⟨r :: before, row, after, s, s1, by rw [h1]; rfl, ?_, h3, h4, h5, h6⟩
      simp [hasKeysBlock, hrow, h2]

theorem hasKeysRef_some_sublist (ks bs : List κ) (flags : List Bool)
    (h : hasKeysRef ks bs = some flags) : bs.Sublist ks := by
  induction ks generalizing bs flags with
  | nil =>
    cases bs with
    | nil => exact List.Sublist.slnil
    | cons b bs => simp [hasKeysRef] at h
  | cons k ks ih =>
    cases bs with
    | nil => exact List.nil_sublist _
    | cons b bs =>
      by_cases hk : b = k
      · subst hk
        simp only [hasKeysRef, if_true, Option.map_eq_some'] at h
        obtain ⟨fl, hfl, _⟩ := h
        exact List.cons_sublist_cons.mpr (ih bs fl hfl)
      · simp only [hasKeysRef, hk, if_false, Option.map_eq_some'] at h
        obtain ⟨fl, hfl, _⟩ := h
        exact List.Sublist.cons _ (ih (b :: bs) fl hfl)

end HasKeysWrites

theorem hasKeysBlock_append {κ ν : Type} [DecidableEq κ] (K : List κ)
    (xs ys : List (Row κ ν)) (st : HasKeysState) :
    hasKeysBlock K st (xs ++ ys)
      = (match hasKeysBlock K st xs with
        | none => none
        | some s1 => hasKeysBlock K s1 ys) := by
  induction xs generalizing st with
  | nil => simp [hasKeysBlock]
  | cons x xs ih =>
    simp only [List.cons_append, hasKeysBlock]
    cases hasKeysBlockRow K st x with
    | none => rfl
    | some s1 => exact ih s1

theorem hasKeysBlock_length {κ ν : Type} [DecidableEq κ] (K : List κ)
    (rows : List (Row κ ν)) (st s : HasKeysState)
    (hlen : st.result_data.length = K.length) (h : hasKeysBlock K st rows = some s) :
    s.result_data.length = K.length := by
  induction rows generalizing st with
  | nil =>
    simp only [hasKeysBlock, Option.some.injEq] at h
    subst h
    exact hlen
  | cons r rs ih =>
    simp only [hasKeysBlock] at h
    cases hrow : hasKeysBlockRow K st r with
    | none =>
      rw [hrow] at h
      exact Option.noConfusion h
    | some st1 =>
      rw [hrow] at h
      exact ih st1 (hasKeysBlockRow_length K st st1 r hlen hrow) h

/-- When the loop of `hasKeys` completes, the write of `true` for every source row
happened at a cursor below the number of requested keys. -/
theorem hasKeysBlock_some_true_write_inside {κ ν : Type} [DecidableEq κ] (K : List κ)
    (before : List (Row κ ν)) (row : Row κ ν) (after : List (Row κ ν))
    (st fin : HasKeysState) (hlen : st.result_data.length = K.length)
    (h : hasKeysBlock K st (before ++ row :: after) = some fin) :
    ∃ s s1, hasKeysBlock K st before = some s ∧
      markAbsentUntilMatch K row.key (K.length - s.requested_key_index) s = some s1 ∧
      s1.requested_key_index < K.length := by
  rw [hasKeysBlock_append] at h
  cases hb : hasKeysBlock K st before with
  | none =>
    rw [hb] at h
    exact Option.noConfusion h
  | some s =>
    rw [hb] at h
    simp only [hasKeysBlock] at h
    have hslen := hasKeysBlock_length K before st s hlen hb
    obtain ⟨s1, hs1, hs1len⟩ := markAbsentUntilMatch_completes K row.key
      (K.length - s.requested_key_index) s hslen
    refine ⟨s, s1, rfl, hs1, ?_⟩
    unfold hasKeysBlockRow at h
    rw [hs1] at h
    simp only at h
    cases hw : writeAt s1.result_data s1.requested_key_index true with
    | none =>
      rw [hw] at h
      exact Option.noConfusion h
    | some rd =>
      have := ((writeAt_eq_some_iff _ _ _ _).mp hw).1
      omega

/-! ## Lemmas on composite-key extraction -/

theorem serializeKeyColumns_spec (serializeValueIntoArena : IColumn → Nat → List Nat)
    (key_index : Nat) (key_columns : List IColumn) (st : KeyBlock) :
    serializeKeyColumns serializeValueIntoArena key_index key_columns st
      = { block := st.block ++
            (key_columns.map (fun column => serializeValueIntoArena column key_index)).flatten
          allocated_size_for_columns := st.allocated_size_for_columns +
            (key_columns.map
              (fun column => (serializeValueIntoArena column key_index).length)).sum } := by
  induction key_columns generalizing st with
  | nil => simp [serializeKeyColumns]
  | cons c rest ih =>
    simp only [serializeKeyColumns, ih, List.map_cons, List.flatten_cons, List.sum_cons,
      List.append_assoc, Nat.add_assoc]

theorem length_flatten_serialized (serializeValueIntoArena : IColumn → Nat → List Nat)
    (key_index : Nat) (key_columns : List IColumn) :
    ((key_columns.map (fun column => serializeValueIntoArena column key_index)).flatten).length
      = (key_columns.map
          (fun column => (serializeValueIntoArena column key_index).length)).sum := by
  induction key_columns with
  | nil => rfl
  | cons c rest ih => simp [ih]

/-! ## The merge writes source values at the greedy positions -/

section GreedyMerge

variable {κ ν : Type} [DecidableEq κ]

theorem getElem?_append_cons_length {α : Type} (pre : List α) (v : α) (tail : List α) :
    (pre ++ v :: tail)[pre.length]? = some v := by
  induction pre with
  | nil => simp
  | cons x xs ih => simpa using ih

/-- The value of the `j`-th source row stands at the `j`-th position. `pre` is the
part of the column built before the remaining requested keys. -/
theorem mergeRef_at_position (p : DefaultValueProvider ν) (a : Nat) (ks : List κ) (i : Nat)
    (rows : List (Row κ ν)) (pre : List ν) (hpre : pre.length = i) (j q : Nat)
    (hq : (matchPositions ks i (rows.map Row.key))[j]? = some q) :
    ∃ r, rows[j]? = some r ∧ (pre ++ mergeRef p a ks i rows)[q]? = some (r.attrs a) := by
  induction ks generalizing i rows pre j with
  | nil => simp [matchPositions] at hq
  | cons k ks ih =>
    cases rows with
    | nil => simp [matchPositions] at hq
    | cons r rs =>
      by_cases hk : r.key = k
      · simp only [List.map_cons, matchPositions, hk, if_true] at hq
        cases j with
        | zero =>
          simp only [List.getElem?_cons_zero, Option.some.injEq] at hq
          subst hq
          refine ⟨r, by simp, ?_⟩
          subst hpre
          simp only [mergeRef, hk, if_true]
          exact getElem?_append_cons_length _ _ _
        | succ j =>
          simp only [List.getElem?_cons_succ] at hq
          obtain ⟨r1, h1, h2⟩ := ih (i + 1) rs (pre ++ [r.attrs a]) (by simp [hpre]) j hq
          refine ⟨r1, by simpa using h1, ?_⟩
          simpa [mergeRef, hk] using h2
      · simp only [List.map_cons, matchPositions, hk, if_false] at hq
        obtain ⟨r1, h1, h2⟩ := ih (i + 1) (r :: rs) (pre ++ [p.getDefaultValue i])
          (by simp [hpre]) j (by simpa using hq)
        refine ⟨r1, h1, ?_⟩
        simpa [mergeRef, hk] using h2

/-- Every requested index that is no position holds its own default. -/
theorem mergeRef_default_elsewhere (p : DefaultValueProvider ν) (a : Nat) (ks : List κ)
    (i : Nat) (rows : List (Row κ ν)) (pre : List ν) (hpre : pre.length = i) (x : Nat)
    (hx1 : i ≤ x) (hx2 : x < i + ks.length)
    (hx : x ∉ matchPositions ks i (rows.map Row.key)) :
    (pre ++ mergeRef p a ks i rows)[x]? = some (p.getDefaultValue x) := by
  induction ks generalizing i rows pre with
  | nil => simp at hx2; omega
  | cons k ks ih =>
    simp only [List.length_cons] at hx2
    cases rows with
    | nil =>
      by_cases hxi : x = i
      · subst hxi
        subst hpre
        simp only [mergeRef]
        exact getElem?_append_cons_length _ _ _
      · have := ih (i + 1) [] (pre ++ [p.getDefaultValue i]) (by simp [hpre]) (by omega)
          (by omega) (by simp [matchPositions_nil_keys])
        simpa [mergeRef] using this
    | cons r rs =>
      by_cases hk : r.key = k
      · simp only [List.map_cons, matchPositions, hk, if_true, List.mem_cons, not_or] at hx
        have := ih (i + 1) rs (pre ++ [r.attrs a]) (by simp [hpre]) (by omega) (by omega) hx.2
        simpa [mergeRef, hk] using this
      · simp only [List.map_cons, matchPositions, hk, if_false] at hx
        by_cases hxi : x = i
        · subst hxi
          subst hpre
          simp only [mergeRef, hk, if_false]
          exact getElem?_append_cons_length _ _ _
        · have := ih (i + 1) (r :: rs) (pre ++ [p.getDefaultValue i]) (by simp [hpre])
            (by omega) (by omega) (by simpa using hx)
          simpa [mergeRef, hk] using this

/-- Each position is the first match of its row's key, searched from `s` for the
first row and from just after the previous position for a later row. -/
theorem greedyPositions_step (K : List κ) (keys : List κ) (s j q : Nat)
    (hq : (greedyPositions K keys s)[j]? = some q) :
    ∃ key, keys[j]? = some key ∧
      firstMatchFrom K key (searchStart s (greedyPositions K keys s) j) = some q := by
  induction keys generalizing s j with
  | nil => simp [greedyPositions] at hq
  | cons key keys ih =>
    cases hf : firstMatchFrom K key s with
    | none => simp [greedyPositions, hf] at hq
    | some i0 =>
      have hpos : greedyPositions K (key :: keys) s = i0 :: greedyPositions K keys (i0 + 1) := by
        simp only [greedyPositions, hf]
      rw [hpos] at hq ⊢
      cases j with
      | zero =>
        simp only [List.getElem?_cons_zero, Option.some.injEq] at hq
        subst hq
        exact ⟨key, by simp, by simpa [searchStart] using hf⟩
      | succ j =>
        simp only [List.getElem?_cons_succ] at hq
        obtain ⟨key1, h1, h2⟩ := ih (i0 + 1) j hq
        refine ⟨key1, by simpa using h1, ?_⟩
        cases j with
        | zero => simpa [searchStart] using h2
        | succ j => simpa [searchStart] using h2

end GreedyMerge

/-! ## Lemmas on the resolution of the hierarchical attribute -/

theorem attributes_split_at {ν : Type} (attributes : List (DictionaryAttribute ν))
    (a : DictionaryAttribute ν) (h : Nat) (hidx : attributes[h]? = some a) :
    attributes = attributes.take h ++ a :: attributes.drop (h + 1) ∧
      (attributes.take h).length = h := by
  have hlt : h < attributes.length := (List.getElem?_eq_some.mp hidx).1
  have hget : attributes[h] = a := by
    rw [List.getElem?_eq_getElem hlt] at hidx
    exact Option.some.inj hidx
  refine ⟨?_, by rw [List.length_take]; omega⟩
  rw [← hget, ← List.drop_eq_getElem_cons hlt, List.take_append_drop]

theorem names_before_of_unique {ν : Type} (attributes : List (DictionaryAttribute ν))
    (name : String) (h : Nat)
    (hunique : ∀ j, j ≠ h → (attributes[j]?).map (fun x => x.name) ≠ some name) :
    ∀ x ∈ attributes.take h, x.name ≠ name := by
  intro x hx hname
  obtain ⟨j, hj, hjx⟩ := List.mem_iff_getElem.mp hx
  have hjh : j < h := by
    have := List.length_take_le h attributes
    omega
  have hjlen : j < attributes.length := by
    rw [List.length_take] at hj
    omega
  rw [List.getElem_take] at hjx
  apply hunique j (by omega)
  rw [List.getElem?_eq_getElem hjlen, Option.map_some', hjx, hname]

theorem names_after_of_unique {ν : Type} (attributes : List (DictionaryAttribute ν))
    (name : String) (h : Nat)
    (hunique : ∀ j, j ≠ h → (attributes[j]?).map (fun x => x.name) ≠ some name) :
    ∀ x ∈ attributes.drop (h + 1), x.name ≠ name := by
  intro x hx hname
  obtain ⟨j, hj⟩ := List.mem_iff_getElem?.mp hx
  rw [List.getElem?_drop] at hj
  apply hunique (h + 1 + j) (by omega)
  rw [hj, Option.map_some', hname]

/-- The single-key lookup reads the column of the first attribute named like the
hierarchical attribute, at the first row of the answer whose id is the key. -/
theorem getValueOrNullByKey_eq_find (source_ptr : DictionarySource Nat Nat)
    (attributes : List (DictionaryAttribute Nat))
    (hierarchical_attribute : DictionaryAttribute Nat) (to_find h : Nat)
    (hidx : attributes[h]? = some hierarchical_attribute)
    (hbefore : ∀ x ∈ attributes.take h, x.name ≠ hierarchical_attribute.name) :
    getValueOrNullByKey source_ptr attributes hierarchical_attribute to_find
      = match (streamRows (source_ptr [to_find])).find? (fun r => decide (r.key = to_find)) with
        | some r => r.attrs h
        | none => hierarchical_attribute.null_value := by
  obtain ⟨hsplit, hlen⟩ := attributes_split_at attributes hierarchical_attribute h hidx
  unfold getValueOrNullByKey getValueOrNullByKeyResult
  rw [hsplit, scanBlocks_spec _ _ _ _ _ (fun x hx => Ne.symm (hbefore x hx)) rfl, hlen]
  simp only [Bool.false_eq_true, if_false]
  cases (streamRows (source_ptr [to_find])).find? (fun r => decide (r.key = to_find)) with
  | none => rfl
  | some r => rfl

theorem attributeIndexByName_of_no_name {ν : Type} (name : String)
    (attrs : List (DictionaryAttribute ν)) (i : Nat) (found : Option Nat)
    (hno : ∀ x ∈ attrs, x.name ≠ name) :
    attributeIndexByName name attrs i found = found := by
  induction attrs generalizing i found with
  | nil => rfl
  | cons a rest ih =>
    simp only [attributeIndexByName, hno a (List.mem_cons_self _ _), if_false]
    exact ih _ _ (fun x hx => hno x (List.mem_cons_of_mem _ hx))

theorem attributeIndexByName_append {ν : Type} (name : String)
    (xs ys : List (DictionaryAttribute ν)) (i : Nat) (found : Option Nat) :
    attributeIndexByName name (xs ++ ys) i found
      = attributeIndexByName name ys (i + xs.length) (attributeIndexByName name xs i found) := by
  induction xs generalizing i found with
  | nil => rfl
  | cons a rest ih =>
    simp only [List.cons_append, attributeIndexByName, List.length_cons, List.append_eq]
    rw [ih, show i + 1 + rest.length = i + (rest.length + 1) from by omega]

/-- When one attribute only carries the name, the map `attribute_index_by_name` holds
its index. -/
theorem attributeIndexByName_of_unique {ν : Type} (attributes : List (DictionaryAttribute ν))
    (a : DictionaryAttribute ν) (h : Nat) (hidx : attributes[h]? = some a)
    (hunique : ∀ j, j ≠ h → (attributes[j]?).map (fun x => x.name) ≠ some a.name) :
    attributeIndexByName a.name attributes 0 none = some h := by
  obtain ⟨hsplit, hlen⟩ := attributes_split_at attributes a h hidx
  rw [hsplit, attributeIndexByName_append,
    attributeIndexByName_of_no_name _ _ _ _ (names_before_of_unique attributes a.name h hunique)]
  simp only [attributeIndexByName, if_true, hlen, Nat.zero_add]
  exact attributeIndexByName_of_no_name _ _ _ _ (names_after_of_unique attributes a.name h hunique)

/-- When one attribute only carries the name, `getAttribute` finds it, and accepts it
when it has the expected type. -/
theorem getAttribute_of_unique {ν : Type} (attributes : List (DictionaryAttribute ν))
    (a : DictionaryAttribute ν) (h : Nat) (hidx : attributes[h]? = some a)
    (hunique : ∀ j, j ≠ h → (attributes[j]?).map (fun x => x.name) ≠ some a.name) :
    getAttribute attributes a.name a.underlying_type = Except.ok a := by
  obtain ⟨hsplit, _⟩ := attributes_split_at attributes a h hidx
  have hfind : attributes.find? (fun x => decide (x.name = a.name)) = some a := by
    rw [hsplit, List.find?_append]
    have hnone : (attributes.take h).find? (fun x => decide (x.name = a.name)) = none := by
      rw [List.find?_eq_none]
      intro x hx
      simpa using names_before_of_unique attributes a.name h hunique x hx
    rw [hnone]
    simp
  unfold getAttribute
  rw [hfind]
  simp

/-! ## Claims -/

/-- C1. For every requested key sequence (duplicates allowed) and every source
answer, split into any number of batches, whose row keys read in order form a
subsequence of the requested sequence, `getColumn` returns a column with exactly one
entry per requested key. -/
theorem getColumn_length_eq_requested {κ ν : Type} [DecidableEq κ]
    (source_ptr : DictionarySource κ ν) (attr : DictionaryAttribute ν)
    (requested_attribute_index : Nat) (requested_keys : List κ)
    (default_values_column : Option (Nat → ν)) (st : DictState κ)
    (hsub : (streamKeys (source_ptr requested_keys)).Sublist requested_keys) :
    (getColumn source_ptr attr requested_attribute_index requested_keys
      default_values_column st).1.length = requested_keys.length := by
  simp only [getColumn, getColumnResult_eq_mergeRef]
  exact mergeRef_length_of_sublist _ _ _ _ _ hsub

/-- Witness of C1: keys `[10, 20, 10, 30]` requested, the source answers in three
batches (one of them empty) with rows for `10`, `10` and `30`. -/
theorem getColumn_length_eq_requested_witness :
    (streamKeys ((fun _ => [[⟨10, fun _ => 100⟩], [], [⟨10, fun _ => 100⟩, ⟨30, fun _ => 300⟩]] :
        DictionarySource Nat Nat) [10, 20, 10, 30])).Sublist [10, 20, 10, 30] ∧
    (getColumn (fun _ => [[⟨10, fun _ => 100⟩], [], [⟨10, fun _ => 100⟩, ⟨30, fun _ => 300⟩]])
      ⟨"parent", AttributeUnderlyingType.utUInt64, 0, false⟩ 0 [10, 20, 10, 30] none
      ⟨0, []⟩).1.length = [10, 20, 10, 30].length :=
  ⟨by decide,
    getColumn_length_eq_requested _ ⟨"parent", AttributeUnderlyingType.utUInt64, 0, false⟩ 0
      [10, 20, 10, 30] none ⟨0, []⟩ (by decide)⟩

/-- C2 (counterexample). Keys `[1, 1]` are requested and the source answers with the
single row `(1, 100)`, a subsequence of the request: the key of position 1 is among
the returned keys, yet position 1 holds the default `0`, not the source value `100`. -/
theorem getColumn_duplicate_key_counterexample :
    (streamKeys ((fun _ => [[⟨1, fun _ => 100⟩]] : DictionarySource Nat Nat) [1, 1])).Sublist [1, 1] ∧
    (∀ r ∈ streamRows ((fun _ => [[⟨1, fun _ => 100⟩]] : DictionarySource Nat Nat) [1, 1]),
      r.attrs 0 = 100) ∧
    [1, 1][1]? = some 1 ∧
    1 ∈ streamKeys ((fun _ => [[⟨1, fun _ => 100⟩]] : DictionarySource Nat Nat) [1, 1]) ∧
    (getColumn (fun _ => [[⟨1, fun _ => 100⟩]])
      ⟨"value", AttributeUnderlyingType.utUInt64, 0, false⟩ 0 [1, 1] none ⟨0, []⟩).1 = [100, 0] ∧
    (getColumn (fun _ => [[⟨1, fun _ => 100⟩]])
      ⟨"value", AttributeUnderlyingType.utUInt64, 0, false⟩ 0 [1, 1] none ⟨0, []⟩).1[1]? ≠ some 100 := by
  decide

/-- C2 (amended). For every requested key sequence (possibly with duplicated keys)
and every source answer that holds, in requested order, one row for every requested
occurrence of each key it returns (its row keys are the requested sequence
restricted to the returned keys), each row carrying the source value `v` of its key:
entry `i` of the result of `getColumn` is the source value of the `i`-th requested
key if that key is among the returned keys, and the default for index `i`
otherwise. -/
theorem getColumn_value_or_default {κ ν : Type} [DecidableEq κ]
    (source_ptr : DictionarySource κ ν) (attr : DictionaryAttribute ν)
    (requested_attribute_index : Nat) (requested_keys : List κ)
    (default_values_column : Option (Nat → ν)) (st : DictState κ) (v : κ → ν)
    (hkeys : streamKeys (source_ptr requested_keys)
      = requested_keys.filter (fun k => decide (k ∈ streamKeys (source_ptr requested_keys))))
    (hval : ∀ r ∈ streamRows (source_ptr requested_keys),
      r.attrs requested_attribute_index = v r.key)
    (i : Nat) (hi : i < requested_keys.length) :
    (getColumn source_ptr attr requested_attribute_index requested_keys
      default_values_column st).1[i]?
      = some (if requested_keys[i] ∈ streamKeys (source_ptr requested_keys)
          then v requested_keys[i]
          else DefaultValueProvider.getDefaultValue
            { default_value := attr.null_value, default_values_column := default_values_column }
            i) := by
  simp only [getColumn, getColumnResult_eq_mergeRef]
  rw [mergeRef_of_filter _ _ (fun k => decide (k ∈ streamKeys (source_ptr requested_keys))) v
    _ _ _ hkeys hval]
  simp [List.getElem?_enumFrom, List.getElem?_eq_getElem hi]

/-- Witness of C2 (amended): keys `[1, 2, 1]` requested, the source holds key `1`
only and returns a row for each of its two requested occurrences. -/
theorem getColumn_value_or_default_witness :
    (streamKeys ((fun _ => [[⟨1, fun _ => 100⟩], [⟨1, fun _ => 100⟩]] :
        DictionarySource Nat Nat) [1, 2, 1])
      = [1, 2, 1].filter (fun k => decide (k ∈
          streamKeys ((fun _ => [[⟨1, fun _ => 100⟩], [⟨1, fun _ => 100⟩]] :
            DictionarySource Nat Nat) [1, 2, 1])))) ∧
    (∀ r ∈ streamRows ((fun _ => [[⟨1, fun _ => 100⟩], [⟨1, fun _ => 100⟩]] :
        DictionarySource Nat Nat) [1, 2, 1]), r.attrs 0 = (fun _ => 100) r.key) ∧
    (getColumn (fun _ => [[⟨1, fun _ => 100⟩], [⟨1, fun _ => 100⟩]])
      ⟨"value", AttributeUnderlyingType.utUInt64, 0, false⟩ 0 [1, 2, 1] none ⟨0, []⟩).1[2]?
      = some (if [1, 2, 1][2] ∈
            streamKeys ((fun _ => [[⟨1, fun _ => 100⟩], [⟨1, fun _ => 100⟩]] :
              DictionarySource Nat Nat) [1, 2, 1])
          then (fun _ => 100) ([1, 2, 1][2])
          else DefaultValueProvider.getDefaultValue
            { default_value := 0, default_values_column := none } 2) :=
  ⟨by decide, by decide,
    getColumn_value_or_default (fun _ => [[⟨1, fun _ => 100⟩], [⟨1, fun _ => 100⟩]])
      ⟨"value", AttributeUnderlyingType.utUInt64, 0, false⟩ 0 [1, 2, 1] none ⟨0, []⟩
      (fun _ => 100) (by decide) (by decide) 2 (by decide)⟩

/-- C3 (counterexample). Keys `[1, 1]` are requested and the source answers with one
row for key `1`, a subsequence of the request: `hasKeys` returns `[true, false]`, so
entry 1 is false although the key of position 1 is among the returned keys. -/
theorem hasKeys_duplicate_key_counterexample :
    (streamKeys ((fun _ => [[⟨1, fun _ => 100⟩]] : DictionarySource Nat Nat) [1, 1])).Sublist [1, 1] ∧
    [1, 1][1]? = some 1 ∧
    1 ∈ streamKeys ((fun _ => [[⟨1, fun _ => 100⟩]] : DictionarySource Nat Nat) [1, 1]) ∧
    (hasKeys ((fun _ => [[⟨1, fun _ => 100⟩]] : DictionarySource Nat Nat)) [1, 1] ⟨0, []⟩).map
      Prod.fst = some [true, false] := by
  decide

/-- C3 (amended). For every requested key sequence (possibly with duplicated keys)
and every source answer that holds, in requested order, one row for every requested
occurrence of each key it returns, `hasKeys` returns a column with one entry per
requested key in which entry `i` is true if and only if the `i`-th requested key is
among the keys the source returned. -/
theorem hasKeys_true_iff_returned {κ ν : Type} [DecidableEq κ]
    (source_ptr : DictionarySource κ ν) (requested_keys : List κ) (st : DictState κ)
    (hkeys : streamKeys (source_ptr requested_keys)
      = requested_keys.filter (fun k => decide (k ∈ streamKeys (source_ptr requested_keys)))) :
    ∃ result st1, hasKeys source_ptr requested_keys st = some (result, st1) ∧
      result.length = requested_keys.length ∧
      ∀ (i : Nat) (hi : i < requested_keys.length),
        (result[i]? = some true ↔ requested_keys[i] ∈ streamKeys (source_ptr requested_keys)) := by
  have href : hasKeysResult requested_keys (source_ptr requested_keys)
      = some (requested_keys.map
          (fun k => decide (k ∈ streamKeys (source_ptr requested_keys)))) := by
    rw [hasKeysResult_eq_hasKeysRef]
    conv_lhs => rw [hkeys]
    exact hasKeysRef_of_filter _ _
  refine ⟨requested_keys.map (fun k => decide (k ∈ streamKeys (source_ptr requested_keys))),
    { query_count := fetch_add st.query_count requested_keys.length
      source_requests := st.source_requests ++ [requested_keys] }, ?_, ?_, ?_⟩
  · simp only [hasKeys, href]
  · simp
  · intro i hi
    simp [List.getElem?_eq_getElem hi]

/-- Witness of C3 (amended): keys `[1, 2, 1]` requested, the source returns a row for
each of the two requested occurrences of key `1`. -/
theorem hasKeys_true_iff_returned_witness :
    (streamKeys ((fun _ => [[⟨1, fun _ => 100⟩], [⟨1, fun _ => 100⟩]] :
        DictionarySource Nat Nat) [1, 2, 1])
      = [1, 2, 1].filter (fun k => decide (k ∈
          streamKeys ((fun _ => [[⟨1, fun _ => 100⟩], [⟨1, fun _ => 100⟩]] :
            DictionarySource Nat Nat) [1, 2, 1])))) ∧
    ∃ result st1,
      hasKeys ((fun _ => [[⟨1, fun _ => 100⟩], [⟨1, fun _ => 100⟩]] :
        DictionarySource Nat Nat)) [1, 2, 1] ⟨0, []⟩ = some (result, st1) ∧
      result.length = [1, 2, 1].length ∧
      ∀ (i : Nat) (hi : i < [1, 2, 1].length),
        (result[i]? = some true ↔ [1, 2, 1][i] ∈
          streamKeys ((fun _ => [[⟨1, fun _ => 100⟩], [⟨1, fun _ => 100⟩]] :
            DictionarySource Nat Nat) [1, 2, 1])) :=
  ⟨by decide,
    hasKeys_true_iff_returned (fun _ => [[⟨1, fun _ => 100⟩], [⟨1, fun _ => 100⟩]])
      [1, 2, 1] ⟨0, []⟩ (by decide)⟩

/-- C4. For every child key `c`, ancestor key `a`, null sentinel `n` and parent
function `p` (the single-key lookup), `isIn(c, a)` is true if and only if `a ≠ n`
and some `k ≤ DBMS_HIERARCHICAL_DICTIONARY_MAX_DEPTH` has `p^k(c) = a` with none of
`c, p(c), ..., p^(k-1)(c)` equal to `n`. In particular an ancestor first reached
after exactly the maximum number of steps is found, and one first reached one step
later is not. -/
theorem isIn_true_iff_ancestor_within_depth (max_depth n : Nat) (p : Nat → Nat) (c a : Nat) :
    ((isInRow max_depth n p c a).1 = true ↔
      (a ≠ n ∧ ∃ k, k ≤ max_depth ∧ p^[k] c = a ∧ ∀ j, j < k → p^[j] c ≠ n)) ∧
    ((a ≠ n ∧ p^[max_depth] c = a ∧ (∀ j, j < max_depth → p^[j] c ≠ n ∧ p^[j] c ≠ a)) →
      (isInRow max_depth n p c a).1 = true) ∧
    ((p^[max_depth + 1] c = a ∧ ∀ j, j ≤ max_depth → p^[j] c ≠ a) →
      (isInRow max_depth n p c a).1 = false) := by
  have hiff := isIn_true_iff_of_loop max_depth n p c a
  refine ⟨hiff, ?_, ?_⟩
  · rintro ⟨h1, h2, h3⟩
    exact hiff.mpr ⟨h1, max_depth, le_refl _, h2, fun j hj => (h3 j hj).1⟩
  · rintro ⟨_, h2⟩
    cases hres : (isInRow max_depth n p c a).1 with
    | false => rfl
    | true =>
      obtain ⟨_, k, hk, h3, _⟩ := hiff.mp hres
      exact absurd h3 (h2 k hk)

/-- Witness of C4 at depth bound 3 on the chain `0 → 1 → 2 → 3 → 4 → ...` with null
sentinel `100`: the ancestor `3`, three steps from `0`, is found; the ancestor `4`,
four steps away, is not. -/
theorem isIn_true_iff_ancestor_within_depth_witness :
    (isInRow 3 100 (fun x => x + 1) 0 3).1 = true ∧
    (isInRow 3 100 (fun x => x + 1) 0 4).1 = false :=
  ⟨(isIn_true_iff_ancestor_within_depth 3 100 (fun x => x + 1) 0 3).2.1
      ⟨by decide, by decide, by decide⟩,
    (isIn_true_iff_ancestor_within_depth 3 100 (fun x => x + 1) 0 4).2.2
      ⟨by decide, by decide⟩⟩

/-- C5 (counterexample). With the depth bound at 1000, the keys `0, 1, ..., 1999`
form a cycle of length 2000 (`p(x) = (x + 1) mod 2000`, null sentinel `5000`), yet
`isIn(0, 2)` is true, after two parent lookups. -/
theorem isIn_long_cycle_counterexample :
    ChainEntersCycle 5000 (fun x => (x + 1) % 2000) 0 0 2000 ∧ 1000 < 2000 ∧
    isInRow 1000 5000 (fun x => (x + 1) % 2000) 0 2 = (true, [0, 1]) := by
  exact ⟨ring2000_enters_cycle, by decide, by decide⟩

/-- C5 (amended). For every hierarchy in which the parent chain starting at the
child key runs into a cycle longer than the maximum traversal depth, `isIn(child,
ancestor)` takes at most `DBMS_HIERARCHICAL_DICTIONARY_MAX_DEPTH` parent lookups for
that row, raises no error (it yields a boolean), and returns false exactly when the
ancestor is none of the first `MAX_DEPTH + 1` chain elements `child, p(child), ...,
p^MAX_DEPTH(child)`. -/
theorem isIn_long_cycle_bounded (max_depth n : Nat) (p : Nat → Nat) (c a μ L : Nat)
    (hcycle : ChainEntersCycle n p c μ L) (hlong : max_depth < L) :
    (isInRow max_depth n p c a).2.length ≤ max_depth ∧
    ((isInRow max_depth n p c a).1 = false ↔ ∀ k, k ≤ max_depth → p^[k] c ≠ a) := by
  obtain ⟨_, _, _, hnull⟩ := hcycle
  constructor
  · have := isInLoop_lookups_length_le n a p max_depth c []
    simpa [isInRow] using this
  · have hiff := (isIn_true_iff_of_loop max_depth n p c a)
    constructor
    · intro hfalse k hk hka
      have htrue : (isInRow max_depth n p c a).1 = true := by
        refine hiff.mpr ⟨?_, k, hk, hka, fun j hj => hnull j (by omega)⟩
        rw [← hka]
        exact hnull k (by omega)
      rw [hfalse] at htrue
      exact Bool.false_ne_true htrue
    · intro hfar
      cases hres : (isInRow max_depth n p c a).1 with
      | false => rfl
      | true =>
        obtain ⟨_, k, hk, h3, _⟩ := hiff.mp hres
        exact absurd h3 (hfar k hk)

/-- Witness of C5 (amended): depth bound 1000 on the cycle `0 → 1 → ... → 1999 → 0`;
the ancestor `1500` is not among the first 1001 chain elements from `0`. -/
theorem isIn_long_cycle_bounded_witness :
    ChainEntersCycle 5000 (fun x => (x + 1) % 2000) 0 0 2000 ∧ 1000 < 2000 ∧
    (isInRow 1000 5000 (fun x => (x + 1) % 2000) 0 1500).2.length ≤ 1000 ∧
    ((isInRow 1000 5000 (fun x => (x + 1) % 2000) 0 1500).1 = false ↔
      ∀ k, k ≤ 1000 → (fun x => (x + 1) % 2000)^[k] 0 ≠ 1500) :=
  ⟨ring2000_enters_cycle, by decide,
    isIn_long_cycle_bounded 1000 5000 (fun x => (x + 1) % 2000) 0 1500 0 2000
      ring2000_enters_cycle (by decide)⟩

/-- C6 (counterexample). For the key `0` with null sentinel `0`, `isIn(0, 0)` is
false (decided without any parent lookup). -/
theorem isIn_self_null_counterexample :
    isInRow 1000 0 (fun x => x + 1) 0 0 = (false, []) := by
  decide

/-- C6 (amended). For every key `x`, `isIn(x, x)` is decided by the zero-step check
before any parent lookup is issued (the single-key lookup is not called for that
row), and it is true if and only if `x` is not the null sentinel: true for every
key other than the null sentinel, false for the null sentinel itself. -/
theorem isIn_self_no_lookup (max_depth n : Nat) (p : Nat → Nat) (x : Nat) :
    (isInRow max_depth n p x x).2 = [] ∧
    ((isInRow max_depth n p x x).1 = true ↔ x ≠ n) := by
  cases max_depth with
  | zero => simp [isInRow, isInLoop]
  | succ m => simp [isInRow, isInLoop]

/-- C7. For every key and every sequence of source batches answering
`loadIds([key])`, `getValueOrNullByKey` returns the value of the hierarchical
attribute's column (index `h`, the first attribute carrying the hierarchical
attribute's name) in the first row, in batch order then row order, whose id equals
the key; rows with other ids and the other attribute columns are not looked at; if
no row has that id it returns the hierarchical attribute's null sentinel. -/
theorem getValueOrNullByKey_first_matching_row (source_ptr : DictionarySource Nat Nat)
    (attributes : List (DictionaryAttribute Nat))
    (hierarchical_attribute : DictionaryAttribute Nat) (to_find h : Nat)
    (hidx : attributes[h]? = some hierarchical_attribute)
    (hfirst : ∀ j, j < h →
      (attributes[j]?).map (fun x => x.name) ≠ some hierarchical_attribute.name) :
    getValueOrNullByKey source_ptr attributes hierarchical_attribute to_find
      = match (streamRows (source_ptr [to_find])).find? (fun r => decide (r.key = to_find)) with
        | some r => r.attrs h
        | none => hierarchical_attribute.null_value := by
  have hlt : h < attributes.length := by
    by_contra hge
    rw [List.getElem?_eq_none (by omega)] at hidx
    exact Option.noConfusion hidx
  have hget : attributes[h] = hierarchical_attribute := by
    rw [List.getElem?_eq_getElem hlt] at hidx
    exact Option.some.inj hidx
  have hsplit : attributes
      = attributes.take h ++ hierarchical_attribute :: attributes.drop (h + 1) := by
    rw [← hget, ← List.drop_eq_getElem_cons hlt, List.take_append_drop]
  have hbefore : ∀ x ∈ attributes.take h, hierarchical_attribute.name ≠ x.name := by
    intro x hx hname
    obtain ⟨j, hj, hjx⟩ := List.mem_iff_getElem.mp hx
    have hjh : j < h := by
      have := List.length_take_le h attributes
      omega
    rw [List.getElem_take] at hjx
    apply hfirst j hjh
    rw [List.getElem?_eq_getElem (by omega), Option.map_some', hjx, hname]
  have hlen : (attributes.take h).length = h := by
    rw [List.length_take]
    omega
  unfold getValueOrNullByKey getValueOrNullByKeyResult
  rw [hsplit, scanBlocks_spec _ _ _ _ _ hbefore rfl, hlen]
  simp only [Bool.false_eq_true, if_false]
  cases (streamRows (source_ptr [to_find])).find? (fun r => decide (r.key = to_find)) with
  | none => rfl
  | some r => rfl

/-- Witness of C7: attributes `name` and `parent` (hierarchical, index 1); the answer
to the lookup of key `5` holds a row for key `7` and, in two batches, two rows for
key `5`; the first of them gives the parent `3`. -/
theorem getValueOrNullByKey_first_matching_row_witness :
    ([⟨"name", AttributeUnderlyingType.utString, 0, false⟩,
        ⟨"parent", AttributeUnderlyingType.utUInt64, 0, true⟩] :
        List (DictionaryAttribute Nat))[1]?.map (fun x => x.name) = some "parent" ∧
    getValueOrNullByKey
        (fun _ => [[⟨7, fun a => 70 + a⟩, ⟨5, fun a => 2 + a⟩], [⟨5, fun a => 8 + a⟩]])
        [⟨"name", AttributeUnderlyingType.utString, 0, false⟩,
          ⟨"parent", AttributeUnderlyingType.utUInt64, 0, true⟩]
        ⟨"parent", AttributeUnderlyingType.utUInt64, 0, true⟩ 5
      = match (streamRows ((fun _ => [[⟨7, fun a => 70 + a⟩, ⟨5, fun a => 2 + a⟩],
            [⟨5, fun a => 8 + a⟩]] : DictionarySource Nat Nat) [5])).find?
            (fun r => decide (r.key = 5)) with
        | some r => r.attrs 1
        | none => (⟨"parent", AttributeUnderlyingType.utUInt64, 0, true⟩ :
            DictionaryAttribute Nat).null_value :=
  ⟨by simp,
    getValueOrNullByKey_first_matching_row _ _ _ 5 1 (by simp) (by
      intro j hj
      have hj0 : j = 0 := by omega
      subst hj0
      simp)⟩

/-- C8. In `getColumn`, every output position `i` that is not filled from a source
row, be it a gap before a matched source key or part of the unmatched tail, holds
the default for the requested-key index `i`: entry `D[i]` of the per-row defaults
column when one was supplied, the attribute's configured null value otherwise. The
default provider is always called with the index of the position it fills, never
with a source-row index. Positions filled from a source row hold that row's value. -/
theorem getColumn_default_uses_requested_index {κ ν : Type} [DecidableEq κ]
    (source_ptr : DictionarySource κ ν) (attr : DictionaryAttribute ν)
    (requested_attribute_index : Nat) (requested_keys : List κ)
    (default_values_column : Option (Nat → ν)) (st : DictState κ) (i : Nat) :
    (match (getColumnOrigins requested_attribute_index requested_keys
        (source_ptr requested_keys))[i]? with
      | some (Origin.fromDefault j) =>
        j = i ∧
        (getColumn source_ptr attr requested_attribute_index requested_keys
          default_values_column st).1[i]?
          = some (match default_values_column with
              | some D => D i
              | none => attr.null_value)
      | some (Origin.fromSource value) =>
        (getColumn source_ptr attr requested_attribute_index requested_keys
          default_values_column st).1[i]? = some value
      | none =>
        (getColumn source_ptr attr requested_attribute_index requested_keys
          default_values_column st).1[i]? = none) := by
  have hout : (getColumn source_ptr attr requested_attribute_index requested_keys
      default_values_column st).1
      = (getColumnOrigins requested_attribute_index requested_keys
          (source_ptr requested_keys)).map
          (Origin.resolve { default_value := attr.null_value,
                            default_values_column := default_values_column }) := by
    simp only [getColumn, getColumnOrigins, getColumnResult_eq_mergeRef, streamRows_tagStream]
    rw [mergeRef_map_resolve]
  have hidx : ∀ j, (getColumnOrigins requested_attribute_index requested_keys
      (source_ptr requested_keys))[i]? = some (Origin.fromDefault j) → j = i := by
    intro j hj
    simp only [getColumnOrigins, getColumnResult_eq_mergeRef, streamRows_tagStream] at hj
    have := mergeRef_default_origin_index _ _ _ _ _ _ hj
    omega
  rw [hout, List.getElem?_map]
  cases horigin : (getColumnOrigins requested_attribute_index requested_keys
      (source_ptr requested_keys))[i]? with
  | none => simp
  | some o =>
    cases o with
    | fromDefault j =>
      have hj := hidx j horigin
      subst hj
      refine ⟨rfl, ?_⟩
      cases default_values_column <;>
        simp [Origin.resolve, DefaultValueProvider.getDefaultValue]
    | fromSource value => simp [Origin.resolve]

/-- C9 (counterexample). With the counter at `2 ^ 64 - 1`, the largest value of its
machine word, a `getColumn` call for the two keys `[10, 20]` leaves the counter at
`1`: it decreased, and it was not raised by the number of keys. -/
theorem query_count_wraps_counterexample :
    (getColumn (fun _ => ([] : BlockStream Nat Nat))
      ⟨"value", AttributeUnderlyingType.utUInt64, 0, false⟩ 0 [10, 20] none
      ⟨2 ^ 64 - 1, []⟩).2.query_count = 1 ∧
    (1 : Nat) < 2 ^ 64 - 1 ∧
    (1 : Nat) ≠ (2 ^ 64 - 1) + [10, 20].length := by
  refine ⟨?_, ?_, ?_⟩
  · simp [getColumn, fetch_add]
  · norm_num
  · norm_num

/-- C9 (amended). Each completed query adds the number of keys of that call to the
query counter modulo `2 ^ 64`, whatever the source returned: `getColumn` and
`hasKeys` add the number of requested keys, and each `isIn` variant adds the number
of rows processed (`out.size()`), not the number of parent lookups. As long as the
sum stays below `2 ^ 64` (the counter does not wrap around) the counter does not
decrease and is raised by exactly that number. The queries do complete: `getColumn`
always, `hasKeys` when the returned keys are a subsequence of the requested ones,
the `isIn` variants when the argument arrays cover the rows of `out`. -/
theorem query_count_adds_number_of_keys {κ ν : Type} [DecidableEq κ]
    (source_ptr : DictionarySource κ ν) (attr : DictionaryAttribute ν)
    (requested_attribute_index : Nat) (requested_keys : List κ)
    (default_values_column : Option (Nat → ν)) (st : DictState κ)
    (max_depth : Nat) (hierarchy_source : DictionarySource Nat Nat)
    (attributes : List (DictionaryAttribute Nat))
    (hierarchical_attribute : DictionaryAttribute Nat)
    (child_ids ancestor_ids : List Nat) (child_id ancestor_id : Nat) (out : List Bool)
    (hst : DictState Nat) :
    ((getColumn source_ptr attr requested_attribute_index requested_keys
        default_values_column st).2.query_count
        = (st.query_count + requested_keys.length) % 2 ^ 64 ∧
      (st.query_count + requested_keys.length < 2 ^ 64 →
        st.query_count ≤ (getColumn source_ptr attr requested_attribute_index requested_keys
          default_values_column st).2.query_count ∧
        (getColumn source_ptr attr requested_attribute_index requested_keys
          default_values_column st).2.query_count
          = st.query_count + requested_keys.length)) ∧
    (∀ r, hasKeys source_ptr requested_keys st = some r →
      r.2.query_count = (st.query_count + requested_keys.length) % 2 ^ 64 ∧
      (st.query_count + requested_keys.length < 2 ^ 64 →
        st.query_count ≤ r.2.query_count ∧
        r.2.query_count = st.query_count + requested_keys.length)) ∧
    ((streamKeys (source_ptr requested_keys)).Sublist requested_keys →
      (hasKeys source_ptr requested_keys st).isSome = true) ∧
    (∀ r, isInVectorVector max_depth hierarchy_source attributes hierarchical_attribute
        child_ids ancestor_ids out hst = some r →
      r.2.query_count = (hst.query_count + out.length) % 2 ^ 64 ∧
      (hst.query_count + out.length < 2 ^ 64 →
        hst.query_count ≤ r.2.query_count ∧
        r.2.query_count = hst.query_count + out.length)) ∧
    (∀ r, isInVectorConstant max_depth hierarchy_source attributes hierarchical_attribute
        child_ids ancestor_id out hst = some r →
      r.2.query_count = (hst.query_count + out.length) % 2 ^ 64 ∧
      (hst.query_count + out.length < 2 ^ 64 →
        hst.query_count ≤ r.2.query_count ∧
        r.2.query_count = hst.query_count + out.length)) ∧
    (∀ r, isInConstantVector max_depth hierarchy_source attributes hierarchical_attribute
        child_id ancestor_ids out hst = some r →
      r.2.query_count = (hst.query_count + out.length) % 2 ^ 64 ∧
      (hst.query_count + out.length < 2 ^ 64 →
        hst.query_count ≤ r.2.query_count ∧
        r.2.query_count = hst.query_count + out.length)) ∧
    (out.length ≤ child_ids.length → out.length ≤ ancestor_ids.length →
      (isInVectorVector max_depth hierarchy_source attributes hierarchical_attribute
        child_ids ancestor_ids out hst).isSome = true) ∧
    (out.length ≤ child_ids.length →
      (isInVectorConstant max_depth hierarchy_source attributes hierarchical_attribute
        child_ids ancestor_id out hst).isSome = true) ∧
    (out.length ≤ ancestor_ids.length →
      (isInConstantVector max_depth hierarchy_source attributes hierarchical_attribute
        child_id ancestor_ids out hst).isSome = true) := by
  have hwrap : ∀ old n new : Nat, new = fetch_add old n →
      new = (old + n) % 2 ^ 64 ∧ (old + n < 2 ^ 64 → old ≤ new ∧ new = old + n) := by
    intro old n new hnew
    refine ⟨hnew, fun hlt => ?_⟩
    have : new = old + n := by
      rw [hnew, fetch_add, Nat.mod_eq_of_lt hlt]
    omega
  refine ⟨hwrap _ _ _ rfl, ?_, ?_, ?_, ?_, ?_, ?_, ?_, ?_⟩
  · intro r hr
    exact hwrap _ _ _ (hasKeys_query_count _ _ _ _ hr)
  · exact hasKeys_isSome_of_sublist _ _ _
  · intro r hr
    exact hwrap _ _ _ (isInImpl_query_count _ _ _ _ _ _ _ _ _ hr)
  · intro r hr
    exact hwrap _ _ _ (isInImpl_query_count _ _ _ _ _ _ _ _ _ hr)
  · intro r hr
    exact hwrap _ _ _ (isInImpl_query_count _ _ _ _ _ _ _ _ _ hr)
  · intro h1 h2
    exact isInImpl_isSome _ _ _ _ _ _ _ _ (fun row hrow =>
      ⟨getAt_vector_isSome _ _ (by omega), getAt_vector_isSome _ _ (by omega)⟩)
  · intro h1
    exact isInImpl_isSome _ _ _ _ _ _ _ _ (fun row hrow =>
      ⟨getAt_vector_isSome _ _ (by omega), rfl⟩)
  · intro h2
    exact isInImpl_isSome _ _ _ _ _ _ _ _ (fun row hrow =>
      ⟨rfl, getAt_vector_isSome _ _ (by omega)⟩)

/-- Illustration of C9 (amended) on the chain `1 → 2 → 3` (null sentinel `0`): `isIn`
of the two children `1` and `2` against the ancestor `3` takes three parent lookups
and adds two, the number of rows, to the counter, which stood at `5`. -/
theorem query_count_adds_number_of_keys_witness :
    (isInVectorConstant 1000
        (fun ids => [ids.filterMap (fun i => if i < 3 then some ⟨i, fun _ => i + 1⟩ else none)])
        [⟨"parent", AttributeUnderlyingType.utUInt64, 0, true⟩]
        ⟨"parent", AttributeUnderlyingType.utUInt64, 0, true⟩
        [1, 2] 3 [false, false] ⟨5, []⟩).map
      (fun r => (r.1, r.2.query_count, r.2.source_requests))
      = some ([true, true], 7, [[1], [2], [2]]) ∧
    ∀ r, isInVectorConstant 1000
        (fun ids => [ids.filterMap (fun i => if i < 3 then some ⟨i, fun _ => i + 1⟩ else none)])
        [⟨"parent", AttributeUnderlyingType.utUInt64, 0, true⟩]
        ⟨"parent", AttributeUnderlyingType.utUInt64, 0, true⟩
        [1, 2] 3 [false, false] ⟨5, []⟩ = some r →
      r.2.query_count = (5 + [false, false].length) % 2 ^ 64 ∧
      (5 + [false, false].length < 2 ^ 64 →
        5 ≤ r.2.query_count ∧ r.2.query_count = 5 + [false, false].length) :=
  ⟨by decide,
    (query_count_adds_number_of_keys (fun _ => ([] : BlockStream Nat Nat))
      ⟨"parent", AttributeUnderlyingType.utUInt64, 0, true⟩ 0 [] none ⟨0, []⟩ 1000
      (fun ids => [ids.filterMap (fun i => if i < 3 then some ⟨i, fun _ => i + 1⟩ else none)])
      [⟨"parent", AttributeUnderlyingType.utUInt64, 0, true⟩]
      ⟨"parent", AttributeUnderlyingType.utUInt64, 0, true⟩
      [1, 2] [] 0 3 [false, false] ⟨5, []⟩).2.2.2.2.1⟩

/-- C10. In composite-key mode `toParent` fails with the unsupported-operation error
for every input, without sending a request to the source and without modifying the
output array (the state and `out` are returned as they were); in simple-key mode it
never raises that error, and with a declared hierarchical attribute it returns. -/
theorem toParent_unsupported_iff_complex (attributes : List (DictionaryAttribute Nat))
    (hierarchical_attribute : Option (DictionaryAttribute Nat))
    (complex_source : DictionarySource (KeyType DictionaryKeyType.complex) Nat)
    (simple_source : DictionarySource (KeyType DictionaryKeyType.simple) Nat)
    (ids out : List Nat)
    (complex_st : DictState (KeyType DictionaryKeyType.complex))
    (simple_st : DictState (KeyType DictionaryKeyType.simple)) :
    toParent DictionaryKeyType.complex attributes hierarchical_attribute complex_source ids out
        complex_st
      = some (Except.error ErrorCode.UNSUPPORTED_METHOD, out, complex_st) ∧
    (∀ r, toParent DictionaryKeyType.simple attributes hierarchical_attribute simple_source
        ids out simple_st = some r →
      r.1 ≠ Except.error ErrorCode.UNSUPPORTED_METHOD) ∧
    (hierarchical_attribute.isSome = true →
      (toParent DictionaryKeyType.simple attributes hierarchical_attribute simple_source
        ids out simple_st).isSome = true) := by
  refine ⟨rfl, ?_, ?_⟩
  · intro r hr
    unfold toParent getColumnByName getAttribute at hr
    simp only at hr
    cases hierarchical_attribute with
    | none => exact Option.noConfusion hr
    | some hattr =>
      simp only at hr
      cases hfind : attributes.find? (fun a => decide (a.name = hattr.name)) with
      | none =>
        rw [hfind] at hr
        cases hr
        simp
      | some a =>
        rw [hfind] at hr
        simp only at hr
        by_cases ht : a.underlying_type = AttributeUnderlyingType.utUInt64
        · rw [if_pos ht] at hr
          simp only at hr
          cases hidx : attributeIndexByName hattr.name attributes 0 none with
          | none =>
            rw [hidx] at hr
            cases hr
            simp
          | some idx =>
            rw [hidx] at hr
            cases hr
            simp
        · rw [if_neg ht] at hr
          cases hr
          simp
  · intro hsome
    obtain ⟨hattr, rfl⟩ := Option.isSome_iff_exists.mp hsome
    unfold toParent
    simp only
    split <;> rfl

/-- C11. Simple-key extraction fails with a type-mismatch error if and only if the
first key column, after a constant column has been expanded to a full one, is not a
column of 64-bit unsigned integers, and it fails in no other way; when it succeeds
the extracted key sequence has one key per row and equals the column's values in row
order. -/
theorem simple_key_extraction_type_mismatch_iff
    (serializeValueIntoArena : IColumn → Nat → List Nat) (front : IColumn)
    (rest : List IColumn) :
    (DictionaryKeysExtractor DictionaryKeyType.simple serializeValueIntoArena (front :: rest)
        = some (Except.error ErrorCode.TYPE_MISMATCH)
      ↔ front.convertToFullColumnIfConst.isVectorUInt64 = false) ∧
    (∀ e, DictionaryKeysExtractor DictionaryKeyType.simple serializeValueIntoArena
        (front :: rest) = some (Except.error e) → e = ErrorCode.TYPE_MISMATCH) ∧
    (front.convertToFullColumnIfConst.isVectorUInt64 = true →
      ∃ keys : List Nat,
        DictionaryKeysExtractor DictionaryKeyType.simple serializeValueIntoArena
          (front :: rest) = some (Except.ok keys) ∧
        keys.length = front.size ∧
        ∀ row, row < front.size →
          (front.getUInt64 row).isSome = true ∧ keys[row]? = front.getUInt64 row) := by
  cases front with
  | vectorUInt64 data =>
    refine ⟨by simp [DictionaryKeysExtractor, getColumnVectorData,
      IColumn.convertToFullColumnIfConst, checkAndGetColumnVectorUInt64,
      IColumn.isVectorUInt64], ?_, ?_⟩
    · intro e he
      simp [DictionaryKeysExtractor, getColumnVectorData,
        IColumn.convertToFullColumnIfConst, checkAndGetColumnVectorUInt64] at he
    · intro _
      refine ⟨data, rfl, rfl, ?_⟩
      intro row hrow
      simp only [IColumn.size] at hrow
      simp [IColumn.getUInt64, List.getElem?_eq_getElem hrow]
  | other rows =>
    refine ⟨by simp [DictionaryKeysExtractor, getColumnVectorData,
      IColumn.convertToFullColumnIfConst, checkAndGetColumnVectorUInt64,
      IColumn.isVectorUInt64], ?_, ?_⟩
    · intro e he
      simp only [DictionaryKeysExtractor, getColumnVectorData,
        IColumn.convertToFullColumnIfConst, checkAndGetColumnVectorUInt64,
        Option.some.injEq, Except.error.injEq] at he
      exact he.symm
    · intro h
      simp [IColumn.convertToFullColumnIfConst, IColumn.isVectorUInt64] at h
  | constUInt64 value s =>
    refine ⟨by simp [DictionaryKeysExtractor, getColumnVectorData,
      IColumn.convertToFullColumnIfConst, checkAndGetColumnVectorUInt64,
      IColumn.isVectorUInt64], ?_, ?_⟩
    · intro e he
      simp [DictionaryKeysExtractor, getColumnVectorData,
        IColumn.convertToFullColumnIfConst, checkAndGetColumnVectorUInt64] at he
    · intro _
      refine ⟨List.replicate s value, rfl, by simp [IColumn.size], ?_⟩
      intro row hrow
      simp only [IColumn.size] at hrow
      simp [IColumn.getUInt64, hrow, List.getElem?_replicate]
  | constOther s =>
    refine ⟨by simp [DictionaryKeysExtractor, getColumnVectorData,
      IColumn.convertToFullColumnIfConst, checkAndGetColumnVectorUInt64,
      IColumn.isVectorUInt64], ?_, ?_⟩
    · intro e he
      simp only [DictionaryKeysExtractor, getColumnVectorData,
        IColumn.convertToFullColumnIfConst, checkAndGetColumnVectorUInt64,
        Option.some.injEq, Except.error.injEq] at he
      exact he.symm
    · intro h
      simp [IColumn.convertToFullColumnIfConst, IColumn.isVectorUInt64] at h

/-- C12 (counterexample). A complex-key dictionary with an attribute flagged
hierarchical, over a source that does not support selective load: the construction
fails with the unsupported-operation error, not with the bad-configuration error. -/
theorem construct_unsupported_before_setup_counterexample :
    (∃ a ∈ ([⟨"parent", AttributeUnderlyingType.utUInt64, 0, true⟩] :
        List (DictionaryAttribute Nat)), a.hierarchical = true) ∧
    constructDirectDictionary DictionaryKeyType.complex false
        ([⟨"parent", AttributeUnderlyingType.utUInt64, 0, true⟩] :
          List (DictionaryAttribute Nat))
      = Except.error ErrorCode.UNSUPPORTED_METHOD ∧
    constructDirectDictionary DictionaryKeyType.complex false
        ([⟨"parent", AttributeUnderlyingType.utUInt64, 0, true⟩] :
          List (DictionaryAttribute Nat))
      ≠ Except.error ErrorCode.BAD_ARGUMENTS := by
  refine ⟨⟨_, List.mem_singleton.mpr rfl, rfl⟩, rfl, ?_⟩
  intro h
  simp [constructDirectDictionary] at h

/-- C12 (amended). Constructing a direct dictionary fails with the
unsupported-operation error when the source does not support selective load; when
the source supports it, the construction fails with the bad-configuration error if
any attribute is flagged hierarchical in composite-key mode, and with the
type-mismatch error if a hierarchical attribute's underlying type is not 64-bit
unsigned in simple-key mode; in every other case it succeeds, and then the recorded
hierarchical attribute, if any, is an attribute flagged hierarchical whose
underlying type is 64-bit unsigned. -/
theorem construct_outcome {ν : Type} (dictionary_key_type : DictionaryKeyType)
    (supportsSelectiveLoad : Bool) (attributes : List (DictionaryAttribute ν)) :
    (supportsSelectiveLoad = false →
      constructDirectDictionary dictionary_key_type supportsSelectiveLoad attributes
        = Except.error ErrorCode.UNSUPPORTED_METHOD) ∧
    (supportsSelectiveLoad = true → dictionary_key_type = DictionaryKeyType.complex →
      (∃ a ∈ attributes, a.hierarchical = true) →
      constructDirectDictionary dictionary_key_type supportsSelectiveLoad attributes
        = Except.error ErrorCode.BAD_ARGUMENTS) ∧
    (supportsSelectiveLoad = true → dictionary_key_type = DictionaryKeyType.simple →
      (∃ a ∈ attributes, a.hierarchical = true ∧
        a.underlying_type ≠ AttributeUnderlyingType.utUInt64) →
      constructDirectDictionary dictionary_key_type supportsSelectiveLoad attributes
        = Except.error ErrorCode.TYPE_MISMATCH) ∧
    (supportsSelectiveLoad = true →
      ¬ (dictionary_key_type = DictionaryKeyType.complex ∧
        ∃ a ∈ attributes, a.hierarchical = true) →
      ¬ (dictionary_key_type = DictionaryKeyType.simple ∧
        ∃ a ∈ attributes, a.hierarchical = true ∧
          a.underlying_type ≠ AttributeUnderlyingType.utUInt64) →
      ∃ s, constructDirectDictionary dictionary_key_type supportsSelectiveLoad attributes
          = Except.ok s ∧
        ∀ h, s.hierarchical_attribute = some h →
          h ∈ attributes ∧ h.hierarchical = true ∧
            h.underlying_type = AttributeUnderlyingType.utUInt64) := by
  refine ⟨?_, ?_, ?_, ?_⟩
  · intro hsel
    simp [constructDirectDictionary, hsel]
  · intro hsel hk hex
    subst hk
    simp only [constructDirectDictionary, hsel, Bool.not_true, Bool.false_eq_true, if_false, setup]
    exact setupLoop_complex_of_hierarchical _ _ _ hex
  · intro hsel hk hex
    subst hk
    simp only [constructDirectDictionary, hsel, Bool.not_true, Bool.false_eq_true, if_false, setup]
    exact setupLoop_simple_of_bad_type _ _ _ hex
  · intro hsel hnc hns
    have hcomplex : dictionary_key_type = DictionaryKeyType.complex →
        ∀ a ∈ attributes, a.hierarchical = false := by
      intro hk a ha
      by_contra hne
      exact hnc ⟨hk, a, ha, by simpa using hne⟩
    have hsimple : ∀ a ∈ attributes, a.hierarchical = true →
        a.underlying_type = AttributeUnderlyingType.utUInt64 := by
      intro a ha hh
      by_contra hne
      cases dictionary_key_type with
      | simple => exact hns ⟨rfl, a, ha, hh, hne⟩
      | complex =>
        have := hcomplex rfl a ha
        rw [hh] at this
        exact absurd this (by decide)
    obtain ⟨s, hs, hptr⟩ := setupLoop_ok dictionary_key_type attributes 0
      { attribute_index_by_name := fun _ => none
        attribute_name_by_index := fun _ => none
        hierarchical_attribute := none } hcomplex hsimple
    refine ⟨s, ?_, ?_⟩
    · simp only [constructDirectDictionary, hsel, Bool.not_true, Bool.false_eq_true, if_false,
        setup]
      exact hs
    · intro h hh
      rcases hptr with hptr | ⟨a, ha, ha1, ha2⟩
      · rw [hh] at hptr
        exact Option.noConfusion hptr
      · rw [hh] at ha1
        have hah : h = a := Option.some.inj ha1
        subst hah
        exact ⟨ha, ha2, hsimple h ha ha2⟩

/-- Illustration of C12 (amended): with a source that supports selective load, a
simple-key dictionary with the attributes `name` and `parent` (hierarchical, 64-bit
unsigned) is constructed and records `parent`. -/
theorem construct_outcome_witness :
    ∃ s, constructDirectDictionary DictionaryKeyType.simple true
        ([⟨"name", AttributeUnderlyingType.utString, 0, false⟩,
          ⟨"parent", AttributeUnderlyingType.utUInt64, 0, true⟩] :
          List (DictionaryAttribute Nat)) = Except.ok s ∧
      ∀ h, s.hierarchical_attribute = some h →
        h ∈ ([⟨"name", AttributeUnderlyingType.utString, 0, false⟩,
          ⟨"parent", AttributeUnderlyingType.utUInt64, 0, true⟩] :
          List (DictionaryAttribute Nat)) ∧ h.hierarchical = true ∧
          h.underlying_type = AttributeUnderlyingType.utUInt64 :=
  (construct_outcome DictionaryKeyType.simple true
    ([⟨"name", AttributeUnderlyingType.utString, 0, false⟩,
      ⟨"parent", AttributeUnderlyingType.utUInt64, 0, true⟩] :
      List (DictionaryAttribute Nat))).2.2.2 rfl (by simp) (by simp)

/-- C13. For the requested simple keys `[10, 20, 30]`, a source that returns, in any
batching, rows for the keys `[10, 30]` with the attribute values `[100, 300]`, the
configured default `0` and no per-row defaults column, `getColumn` returns
`[100, 0, 300]` and `hasKeys` returns `[true, false, true]`. -/
theorem example_scenario_two (source_ptr : DictionarySource Nat Nat)
    (attr : DictionaryAttribute Nat) (requested_attribute_index : Nat) (st : DictState Nat)
    (hrows : (streamRows (source_ptr [10, 20, 30])).map
      (fun r => (r.key, r.attrs requested_attribute_index)) = [(10, 100), (30, 300)])
    (hdefault : attr.null_value = 0) :
    (getColumn source_ptr attr requested_attribute_index [10, 20, 30] none st).1
      = [100, 0, 300] ∧
    (hasKeys source_ptr [10, 20, 30] st).map Prod.fst = some [true, false, true] := by
  constructor
  · simp only [getColumn, getColumnResult_eq_mergeRef]
    rw [mergeRef_eq_of_pairs, hrows]
    simp [mergeRef, DefaultValueProvider.getDefaultValue, hdefault]
  · have hkeys : streamKeys (source_ptr [10, 20, 30]) = [10, 30] := by
      have := congrArg (List.map Prod.fst) hrows
      simpa [streamKeys, Function.comp_def] using this
    simp only [hasKeys, hasKeysResult_eq_hasKeysRef, hkeys]
    simp [hasKeysRef]

/-- Witness of C13: the source answers with the two rows in separate batches, with an
empty batch between them. -/
theorem example_scenario_two_witness :
    (streamRows ((fun _ => [[⟨10, fun _ => 100⟩], [], [⟨30, fun _ => 300⟩]] :
        DictionarySource Nat Nat) [10, 20, 30])).map (fun r => (r.key, r.attrs 0))
      = [(10, 100), (30, 300)] ∧
    (getColumn (fun _ => [[⟨10, fun _ => 100⟩], [], [⟨30, fun _ => 300⟩]])
      ⟨"value", AttributeUnderlyingType.utUInt64, 0, false⟩ 0 [10, 20, 30] none ⟨0, []⟩).1
      = [100, 0, 300] ∧
    (hasKeys ((fun _ => [[⟨10, fun _ => 100⟩], [], [⟨30, fun _ => 300⟩]] :
        DictionarySource Nat Nat)) [10, 20, 30] ⟨0, []⟩).map Prod.fst
      = some [true, false, true] :=
  ⟨by decide,
    example_scenario_two (fun _ => [[⟨10, fun _ => 100⟩], [], [⟨30, fun _ => 300⟩]])
      ⟨"value", AttributeUnderlyingType.utUInt64, 0, false⟩ 0 ⟨0, []⟩ (by decide) rfl⟩

/-- C14. For the hierarchy in which key `1` has parent `2`, key `2` has parent `3`
and key `3` has the null sentinel as parent, the null sentinel being none of `1`,
`2`, `3`, `4`: `isIn(1, 3)` is true, `isIn(1, 4)` is false and `isIn(3, 1)` is
false. The parents are what the single-key lookup `getValueOrNullByKey` returns, and
the depth bound is at least `2`. -/
theorem example_scenario_one (max_depth : Nat) (source_ptr : DictionarySource Nat Nat)
    (attributes : List (DictionaryAttribute Nat))
    (hierarchical_attribute : DictionaryAttribute Nat) (st : DictState Nat)
    (hdepth : 2 ≤ max_depth)
    (hp1 : getValueOrNullByKey source_ptr attributes hierarchical_attribute 1 = 2)
    (hp2 : getValueOrNullByKey source_ptr attributes hierarchical_attribute 2 = 3)
    (hp3 : getValueOrNullByKey source_ptr attributes hierarchical_attribute 3
      = hierarchical_attribute.null_value)
    (hn1 : hierarchical_attribute.null_value ≠ 1) (hn2 : hierarchical_attribute.null_value ≠ 2)
    (hn3 : hierarchical_attribute.null_value ≠ 3)
    (hn4 : hierarchical_attribute.null_value ≠ 4) :
    (isInVectorVector max_depth source_ptr attributes hierarchical_attribute
      [1, 1, 3] [3, 4, 1] [false, false, false] st).map Prod.fst
      = some [true, false, false] := by
  obtain ⟨m, rfl⟩ : ∃ m, max_depth = m + 2 := ⟨max_depth - 2, by omega⟩
  unfold isInVectorVector
  rw [isInImpl_eq_map_isInRow _ _ _ _ _ _ _ _ (by
    intro row hrow
    simp only [List.length_cons, List.length_nil] at hrow
    exact ⟨getAt_vector_isSome _ _ (by simpa using hrow),
      getAt_vector_isSome _ _ (by simpa using hrow)⟩)]
  have h13 : (isInRow (m + 2) hierarchical_attribute.null_value
      (getValueOrNullByKey source_ptr attributes hierarchical_attribute) 1 3).1 = true := by
    simp [isInRow, isInLoop, hp1, hp2, isInLoop_stop, Ne.symm hn1, Ne.symm hn2, Ne.symm hn3]
  have h14 : (isInRow (m + 2) hierarchical_attribute.null_value
      (getValueOrNullByKey source_ptr attributes hierarchical_attribute) 1 4).1 = false := by
    cases m with
    | zero => simp [isInRow, isInLoop, hp1, hp2, Ne.symm hn1, Ne.symm hn2]
    | succ m =>
      simp [isInRow, isInLoop, hp1, hp2, hp3, isInLoop_stop, Ne.symm hn1, Ne.symm hn2,
        Ne.symm hn3, hn4]
  have h31 : (isInRow (m + 2) hierarchical_attribute.null_value
      (getValueOrNullByKey source_ptr attributes hierarchical_attribute) 3 1).1 = false := by
    simp [isInRow, isInLoop, hp3, isInLoop_stop, Ne.symm hn3]
  simp [List.range_succ, getAt, h13, h14, h31]

/-- Witness of C14: depth bound `1000`, null sentinel `0`, and a source that holds the
rows `(1, 2)`, `(2, 3)` and `(3, 0)` and answers a request with the rows of the
requested ids. -/
theorem example_scenario_one_witness :
    (isInVectorVector 1000
      (fun ids => [ids.filterMap (fun i =>
        if i = 1 then some ⟨1, fun _ => 2⟩
        else if i = 2 then some ⟨2, fun _ => 3⟩
        else if i = 3 then some ⟨3, fun _ => 0⟩ else none)])
      [⟨"parent", AttributeUnderlyingType.utUInt64, 0, true⟩]
      ⟨"parent", AttributeUnderlyingType.utUInt64, 0, true⟩
      [1, 1, 3] [3, 4, 1] [false, false, false] ⟨0, []⟩).map Prod.fst
      = some [true, false, false] :=
  example_scenario_one 1000 _ _ _ ⟨0, []⟩ (by decide) (by decide) (by decide) (by decide)
    (by decide) (by decide) (by decide) (by decide)

/-- C19. `hasKeys` and `getColumn` agree on which requested positions were found: for
the same requested sequence and the same source answer whose keys form a
subsequence of it, entry `i` of `hasKeys` is true exactly at the indices where
`getColumn` writes a source row's value and false exactly at the indices where
`getColumn` writes a default. -/
theorem hasKeys_agrees_with_getColumn {κ ν : Type} [DecidableEq κ]
    (source_ptr : DictionarySource κ ν) (requested_attribute_index : Nat)
    (requested_keys : List κ) (st : DictState κ)
    (hsub : (streamKeys (source_ptr requested_keys)).Sublist requested_keys) :
    ∃ result st1, hasKeys source_ptr requested_keys st = some (result, st1) ∧
      result = (getColumnOrigins requested_attribute_index requested_keys
        (source_ptr requested_keys)).map Origin.isFromSource ∧
      ∀ i : Nat,
        (result[i]? = some true ↔
          ∃ value, (getColumnOrigins requested_attribute_index requested_keys
            (source_ptr requested_keys))[i]? = some (Origin.fromSource value)) ∧
        (result[i]? = some false ↔
          ∃ j : Nat, (getColumnOrigins requested_attribute_index requested_keys
            (source_ptr requested_keys))[i]? = some (Origin.fromDefault j)) := by
  have href : hasKeysResult requested_keys (source_ptr requested_keys)
      = some ((getColumnOrigins requested_attribute_index requested_keys
          (source_ptr requested_keys)).map Origin.isFromSource) := by
    rw [hasKeysResult_eq_hasKeysRef]
    simp only [getColumnOrigins, getColumnResult_eq_mergeRef, streamRows_tagStream]
    exact hasKeysRef_eq_origins _ _ _ _ hsub
  refine ⟨_, { query_count := fetch_add st.query_count requested_keys.length
               source_requests := st.source_requests ++ [requested_keys] }, ?_, rfl, ?_⟩
  · simp only [hasKeys, href]
  · intro i
    rw [List.getElem?_map]
    cases (getColumnOrigins requested_attribute_index requested_keys
        (source_ptr requested_keys))[i]? with
    | none => simp
    | some o =>
      cases o with
      | fromDefault j => simp [Origin.isFromSource]
      | fromSource value => simp [Origin.isFromSource]

/-- Witness of C19: keys `[10, 20, 30]` requested, rows for `10` and `30` returned. -/
theorem hasKeys_agrees_with_getColumn_witness :
    (streamKeys ((fun _ => [[⟨10, fun _ => 100⟩], [⟨30, fun _ => 300⟩]] :
        DictionarySource Nat Nat) [10, 20, 30])).Sublist [10, 20, 30] ∧
    ∃ result st1,
      hasKeys ((fun _ => [[⟨10, fun _ => 100⟩], [⟨30, fun _ => 300⟩]] :
        DictionarySource Nat Nat)) [10, 20, 30] ⟨0, []⟩ = some (result, st1) ∧
      result = (getColumnOrigins 0 [10, 20, 30]
        ((fun _ => [[⟨10, fun _ => 100⟩], [⟨30, fun _ => 300⟩]] :
          DictionarySource Nat Nat) [10, 20, 30])).map Origin.isFromSource ∧
      ∀ i : Nat,
        (result[i]? = some true ↔
          ∃ value, (getColumnOrigins 0 [10, 20, 30]
            ((fun _ => [[⟨10, fun _ => 100⟩], [⟨30, fun _ => 300⟩]] :
              DictionarySource Nat Nat) [10, 20, 30]))[i]? = some (Origin.fromSource value)) ∧
        (result[i]? = some false ↔
          ∃ j : Nat, (getColumnOrigins 0 [10, 20, 30]
            ((fun _ => [[⟨10, fun _ => 100⟩], [⟨30, fun _ => 300⟩]] :
              DictionarySource Nat Nat) [10, 20, 30]))[i]? = some (Origin.fromDefault j)) :=
  ⟨by decide,
    hasKeys_agrees_with_getColumn (fun _ => [[⟨10, fun _ => 100⟩], [⟨30, fun _ => 300⟩]]) 0
      [10, 20, 30] ⟨0, []⟩ (by decide)⟩

/-- C20. The result of `getColumn` depends only on the concatenation of the source's
rows, not on how the source splits them into batches: for every requested sequence
and every two answers with the same rows in the same order (zero-row batches
included), `getColumn` returns the same column, and leaves the same state. -/
theorem getColumn_independent_of_batching {κ ν : Type} [DecidableEq κ]
    (first_source second_source : DictionarySource κ ν) (attr : DictionaryAttribute ν)
    (requested_attribute_index : Nat) (requested_keys : List κ)
    (default_values_column : Option (Nat → ν)) (st : DictState κ)
    (hrows : streamRows (first_source requested_keys)
      = streamRows (second_source requested_keys)) :
    getColumn first_source attr requested_attribute_index requested_keys
        default_values_column st
      = getColumn second_source attr requested_attribute_index requested_keys
        default_values_column st := by
  simp only [getColumn, getColumnResult_eq_mergeRef, hrows]

/-- Witness of C20: the rows for the keys `10` and `30`, once in two batches with an
empty batch between them and once in a single batch followed by an empty one. -/
theorem getColumn_independent_of_batching_witness :
    streamRows ((fun _ => [[⟨10, fun _ => 100⟩], [], [⟨30, fun _ => 300⟩]] :
        DictionarySource Nat Nat) [10, 20, 30])
      = streamRows ((fun _ => [[⟨10, fun _ => 100⟩, ⟨30, fun _ => 300⟩], []] :
        DictionarySource Nat Nat) [10, 20, 30]) ∧
    getColumn (fun _ => [[⟨10, fun _ => 100⟩], [], [⟨30, fun _ => 300⟩]])
        ⟨"value", AttributeUnderlyingType.utUInt64, 0, false⟩ 0 [10, 20, 30] none ⟨0, []⟩
      = getColumn (fun _ => [[⟨10, fun _ => 100⟩, ⟨30, fun _ => 300⟩], []])
        ⟨"value", AttributeUnderlyingType.utUInt64, 0, false⟩ 0 [10, 20, 30] none ⟨0, []⟩ :=
  ⟨rfl,
    getColumn_independent_of_batching _ _
      ⟨"value", AttributeUnderlyingType.utUInt64, 0, false⟩ 0 [10, 20, 30] none ⟨0, []⟩ rfl⟩

/-- C17. If the sequence of keys returned by the source is not a subsequence of the
requested sequence (a key that was not requested, or keys out of requested order),
`getColumn` raises no error (it returns a column) and the column has strictly more
entries than keys were requested: exactly the number of requested keys plus the
number of source rows from the first unmatched row onward. The number of rows
before the first unmatched one is the length of `greedyPositions`. -/
theorem getColumn_length_of_unordered_answer {κ ν : Type} [DecidableEq κ]
    (source_ptr : DictionarySource κ ν) (attr : DictionaryAttribute ν)
    (requested_attribute_index : Nat) (requested_keys : List κ)
    (default_values_column : Option (Nat → ν)) (st : DictState κ)
    (hnot : ¬ (streamKeys (source_ptr requested_keys)).Sublist requested_keys) :
    (greedyPositions requested_keys (streamKeys (source_ptr requested_keys)) 0).length
      < (streamRows (source_ptr requested_keys)).length ∧
    (getColumn source_ptr attr requested_attribute_index requested_keys
      default_values_column st).1.length
      = requested_keys.length + ((streamRows (source_ptr requested_keys)).length -
          (greedyPositions requested_keys (streamKeys (source_ptr requested_keys)) 0).length) ∧
    requested_keys.length < (getColumn source_ptr attr requested_attribute_index requested_keys
      default_values_column st).1.length := by
  have hgreedy := greedyPositions_eq_matchPositions requested_keys requested_keys.length 0
    (streamKeys (source_ptr requested_keys)) (by simp)
  rw [List.drop_zero] at hgreedy
  have hle := matchPositions_length_le requested_keys 0 (streamKeys (source_ptr requested_keys))
  have hne : (matchPositions requested_keys 0 (streamKeys (source_ptr requested_keys))).length
      ≠ (streamKeys (source_ptr requested_keys)).length :=
    fun h => hnot ((matchPositions_length_eq_iff _ _ _).mp h)
  have hkeys : (streamKeys (source_ptr requested_keys)).length
      = (streamRows (source_ptr requested_keys)).length := by
    simp [streamKeys]
  have hlen : (getColumn source_ptr attr requested_attribute_index requested_keys
      default_values_column st).1.length
      = requested_keys.length + ((streamRows (source_ptr requested_keys)).length -
          (matchPositions requested_keys 0
            (streamKeys (source_ptr requested_keys))).length) := by
    simp only [getColumn, getColumnResult_eq_mergeRef, mergeRef_length, streamKeys]
  rw [hgreedy]
  refine ⟨by omega, hlen, by omega⟩

/-- Witness of C17: keys `[10, 20, 30]` requested, the source returns rows for `10`,
`40` and `30`; the row for `40` is the first unmatched one, and the column has
`3 + 2` entries. -/
theorem getColumn_length_of_unordered_answer_witness :
    ¬ (streamKeys ((fun _ => [[⟨10, fun _ => 100⟩, ⟨40, fun _ => 400⟩], [⟨30, fun _ => 300⟩]] :
        DictionarySource Nat Nat) [10, 20, 30])).Sublist [10, 20, 30] ∧
    (getColumn (fun _ => [[⟨10, fun _ => 100⟩, ⟨40, fun _ => 400⟩], [⟨30, fun _ => 300⟩]])
      ⟨"value", AttributeUnderlyingType.utUInt64, 0, false⟩ 0 [10, 20, 30] none ⟨0, []⟩).1
      = [100, 0, 0, 400, 300] ∧
    (greedyPositions [10, 20, 30]
      (streamKeys ((fun _ => [[⟨10, fun _ => 100⟩, ⟨40, fun _ => 400⟩],
        [⟨30, fun _ => 300⟩]] : DictionarySource Nat Nat) [10, 20, 30])) 0).length = 1 ∧
    [10, 20, 30].length < (getColumn
      (fun _ => [[⟨10, fun _ => 100⟩, ⟨40, fun _ => 400⟩], [⟨30, fun _ => 300⟩]])
      ⟨"value", AttributeUnderlyingType.utUInt64, 0, false⟩ 0 [10, 20, 30] none
      ⟨0, []⟩).1.length :=
  ⟨by decide, by decide, by decide,
    (getColumn_length_of_unordered_answer
      (fun _ => [[⟨10, fun _ => 100⟩, ⟨40, fun _ => 400⟩], [⟨30, fun _ => 300⟩]])
      ⟨"value", AttributeUnderlyingType.utUInt64, 0, false⟩ 0 [10, 20, 30] none ⟨0, []⟩
      (by decide)).2.2⟩

/-- C18. In `hasKeys`, whenever the keys returned by the source form a subsequence of
the requested sequence, every write into the result array uses an index below the
number of requested keys (a write outside the array makes the call yield `none`;
the writes of `false` are guarded by the loop condition, and the cursor of the write
of `true` for each source row is below the number of requested keys), and the
returned column has exactly one entry per requested key. When they do
not form a subsequence, the call leaves the array at the write of `true` for a
source row that matches no remaining requested key: the rows before it are
processed inside the array, the skip loop for that row ends with the cursor at or
past the number of requested keys, and the write of `true` at the cursor is outside
the array. -/
theorem hasKeys_writes_inside_iff_subsequence {κ ν : Type} [DecidableEq κ]
    (source_ptr : DictionarySource κ ν) (requested_keys : List κ) (st : DictState κ) :
    ((streamKeys (source_ptr requested_keys)).Sublist requested_keys →
      (∃ result st1, hasKeys source_ptr requested_keys st = some (result, st1) ∧
        result.length = requested_keys.length) ∧
      ∀ (before : List (Row κ ν)) (row : Row κ ν) (after : List (Row κ ν)),
        streamRows (source_ptr requested_keys) = before ++ row :: after →
        ∃ s s1, hasKeysBlock requested_keys
            { requested_key_index := 0
              result_data := List.replicate requested_keys.length false } before = some s ∧
          markAbsentUntilMatch requested_keys row.key
            (requested_keys.length - s.requested_key_index) s = some s1 ∧
          s1.requested_key_index < requested_keys.length) ∧
    (¬ (streamKeys (source_ptr requested_keys)).Sublist requested_keys →
      hasKeys source_ptr requested_keys st = none ∧
      ∃ (before : List (Row κ ν)) (row : Row κ ν) (after : List (Row κ ν))
        (s s1 : HasKeysState),
        streamRows (source_ptr requested_keys) = before ++ row :: after ∧
        hasKeysBlock requested_keys
          { requested_key_index := 0
            result_data := List.replicate requested_keys.length false } before = some s ∧
        markAbsentUntilMatch requested_keys row.key
          (requested_keys.length - s.requested_key_index) s = some s1 ∧
        s1.result_data.length = requested_keys.length ∧
        requested_keys.length ≤ s1.requested_key_index ∧
        writeAt s1.result_data s1.requested_key_index true = none) := by
  constructor
  · intro hsub
    obtain ⟨flags, h1, h2⟩ := hasKeysRef_of_sublist _ _ hsub
    refine ⟨⟨flags, { query_count := fetch_add st.query_count requested_keys.length
                      source_requests := st.source_requests ++ [requested_keys] }, ?_, h2⟩, ?_⟩
    · simp only [hasKeys, hasKeysResult_eq_hasKeysRef, h1]
    · intro before row after hsplit
      have hres : hasKeysResult requested_keys (source_ptr requested_keys) = some flags := by
        rw [hasKeysResult_eq_hasKeysRef, h1]
      unfold hasKeysResult at hres
      rw [hasKeysStream_eq_block, hsplit] at hres
      cases hb : hasKeysBlock requested_keys
          { requested_key_index := 0
            result_data := List.replicate requested_keys.length false }
          (before ++ row :: after) with
      | none =>
        rw [hb] at hres
        exact Option.noConfusion hres
      | some fin =>
        exact hasKeysBlock_some_true_write_inside requested_keys before row after _ fin
          (by simp) hb
  · intro hnot
    have hnone : hasKeysResult requested_keys (source_ptr requested_keys) = none := by
      rw [hasKeysResult_eq_hasKeysRef]
      cases href : hasKeysRef requested_keys (streamKeys (source_ptr requested_keys)) with
      | none => rfl
      | some flags => exact absurd (hasKeysRef_some_sublist _ _ _ href) hnot
    refine ⟨by simp only [hasKeys, hnone], ?_⟩
    have hblock : hasKeysBlock requested_keys
        { requested_key_index := 0
          result_data := List.replicate requested_keys.length false }
        (streamRows (source_ptr requested_keys)) = none := by
      unfold hasKeysResult at hnone
      rw [hasKeysStream_eq_block] at hnone
      cases hb : hasKeysBlock requested_keys
          { requested_key_index := 0
            result_data := List.replicate requested_keys.length false }
          (streamRows (source_ptr requested_keys)) with
      | none => rfl
      | some s =>
        rw [hb] at hnone
        exact Option.noConfusion hnone
    exact hasKeysBlock_none_split requested_keys _ _ (by simp) hblock

/-- Illustration of C18: for the requested keys `[10, 20, 30]` the answer with rows
for `10` and `30` gives a column of three entries; the answer with rows for `10`,
`40` and `30` leaves the array. -/
theorem hasKeys_writes_inside_iff_subsequence_witness :
    (∃ result st1,
      hasKeys ((fun _ => [[⟨10, fun _ => 100⟩], [⟨30, fun _ => 300⟩]] :
        DictionarySource Nat Nat)) [10, 20, 30] ⟨0, []⟩ = some (result, st1) ∧
      result.length = [10, 20, 30].length) ∧
    hasKeys ((fun _ => [[⟨10, fun _ => 100⟩, ⟨40, fun _ => 400⟩], [⟨30, fun _ => 300⟩]] :
        DictionarySource Nat Nat)) [10, 20, 30] ⟨0, []⟩ = none :=
  ⟨((hasKeys_writes_inside_iff_subsequence
      (fun _ => [[⟨10, fun _ => 100⟩], [⟨30, fun _ => 300⟩]]) [10, 20, 30] ⟨0, []⟩).1
      (by decide)).1,
    ((hasKeys_writes_inside_iff_subsequence
      (fun _ => [[⟨10, fun _ => 100⟩, ⟨40, fun _ => 400⟩], [⟨30, fun _ => 300⟩]])
      [10, 20, 30] ⟨0, []⟩).2 (by decide)).1⟩

/-- C16. Composite-key extraction returns one key per row of the first key column, in
row order, and the key of row `r` is the concatenation, in key-column order, of the
serialized bytes of each key column's value at row `r`, its length being the sum of
the per-column serialized sizes; hence two rows get equal keys exactly when these
concatenations are equal byte for byte. -/
theorem composite_key_is_concatenation
    (serializeValueIntoArena : IColumn → Nat → List Nat) (front : IColumn)
    (rest : List IColumn) :
    ∃ keys : List (List Nat),
      DictionaryKeysExtractor DictionaryKeyType.complex serializeValueIntoArena (front :: rest)
        = some (Except.ok keys) ∧
      keys.length = front.size ∧
      (∀ r, r < front.size →
        ∃ key, keys[r]? = some key ∧
          key = ((front :: rest).map
            (fun column => serializeValueIntoArena column r)).flatten ∧
          key.length = ((front :: rest).map
            (fun column => (serializeValueIntoArena column r).length)).sum) ∧
      ∀ r1 r2, r1 < front.size → r2 < front.size →
        (keys[r1]? = keys[r2]? ↔
          ((front :: rest).map (fun column => serializeValueIntoArena column r1)).flatten
            = ((front :: rest).map
                (fun column => serializeValueIntoArena column r2)).flatten) := by
  have hkey : ∀ r,
      (serializeKeyColumns serializeValueIntoArena r (front :: rest)
          { block := [], allocated_size_for_columns := 0 }).block.take
        (serializeKeyColumns serializeValueIntoArena r (front :: rest)
          { block := [], allocated_size_for_columns := 0 }).allocated_size_for_columns
        = ((front :: rest).map (fun column => serializeValueIntoArena column r)).flatten := by
    intro r
    rw [serializeKeyColumns_spec]
    simp only [List.nil_append, Nat.zero_add]
    rw [← length_flatten_serialized, List.take_length]
  refine ⟨(List.range front.size).map (fun r =>
    ((front :: rest).map (fun column => serializeValueIntoArena column r)).flatten),
    ?_, by simp, ?_, ?_⟩
  · simp only [DictionaryKeysExtractor, deserializeKeyColumnsInArena, hkey]
  · intro r hr
    refine ⟨_, ?_, rfl, length_flatten_serialized _ _ _⟩
    simp [List.getElem?_map, List.getElem?_range hr]
  · intro r1 r2 h1 h2
    simp [List.getElem?_map, List.getElem?_range h1, List.getElem?_range h2]

/-- Illustration of C16: two key columns, each value serialized as one byte; the two
rows `(7, 1)` and `(7, 2)` give the keys `[7, 1]` and `[7, 2]`. -/
theorem composite_key_is_concatenation_witness :
    DictionaryKeysExtractor DictionaryKeyType.complex
        (fun column r => [(column.getUInt64 r).getD 0])
        [IColumn.constUInt64 7 2, IColumn.vectorUInt64 [1, 2]]
      = some (Except.ok [[7, 1], [7, 2]]) ∧
    ∃ keys : List (List Nat),
      DictionaryKeysExtractor DictionaryKeyType.complex
          (fun column r => [(column.getUInt64 r).getD 0])
          [IColumn.constUInt64 7 2, IColumn.vectorUInt64 [1, 2]]
        = some (Except.ok keys) ∧
      keys.length = (IColumn.constUInt64 7 2).size :=
  ⟨rfl,
    match composite_key_is_concatenation (fun column r => [(column.getUInt64 r).getD 0])
      (IColumn.constUInt64 7 2) [IColumn.vectorUInt64 [1, 2]] with
    | ⟨keys, h1, h2, _⟩ => ⟨keys, h1, h2⟩⟩

/-- C15 (counterexample). Keys `[1, 2, 1]` are requested and the source answers with
the rows `(2, 200)` and `(1, 100)`, a subsequence of the request in which key `1`,
requested twice, is returned once: the first occurrence of key `1` (index 0) holds
the default `0` and the second occurrence (index 2) receives the source value. -/
theorem getColumn_second_occurrence_counterexample :
    (streamKeys ((fun _ => [[⟨2, fun _ => 200⟩, ⟨1, fun _ => 100⟩]] :
        DictionarySource Nat Nat) [1, 2, 1])).Sublist [1, 2, 1] ∧
    [1, 2, 1].count 1 = 2 ∧
    (streamKeys ((fun _ => [[⟨2, fun _ => 200⟩, ⟨1, fun _ => 100⟩]] :
        DictionarySource Nat Nat) [1, 2, 1])).count 1 = 1 ∧
    (getColumn (fun _ => [[⟨2, fun _ => 200⟩, ⟨1, fun _ => 100⟩]])
      ⟨"value", AttributeUnderlyingType.utUInt64, 0, false⟩ 0 [1, 2, 1] none ⟨0, []⟩).1
      = [0, 200, 100] := by
  decide

/-- C15 (amended). The merge of `getColumn` matches greedily and leftmost: for every
requested sequence and every source row sequence whose keys form a subsequence of
it, the `j`-th source row's value is written at the smallest requested index that is
greater than the index used by row `j - 1` and holds the row's key
(`greedyPositions`), and every other index holds its default. So when the requested
keys are pairwise distinct, entry `i` is the source's value for the `i`-th key if
the source returned that key and the default for `i` otherwise. When a key is
requested twice (at `i1 < i2`) but returned once, exactly one occurrence receives
the source value and the other holds its default: the first occurrence if the
search for that row starts at or before `i1` (no earlier source row was matched at
`i1` or later), the second occurrence otherwise. -/
theorem getColumn_greedy_leftmost {κ ν : Type} [DecidableEq κ]
    (source_ptr : DictionarySource κ ν) (attr : DictionaryAttribute ν)
    (requested_attribute_index : Nat) (requested_keys : List κ)
    (default_values_column : Option (Nat → ν)) (st : DictState κ)
    (hsub : (streamKeys (source_ptr requested_keys)).Sublist requested_keys) :
    (greedyPositions requested_keys (streamKeys (source_ptr requested_keys)) 0).length
      = (streamRows (source_ptr requested_keys)).length ∧
    (∀ (j q : Nat) (r : Row κ ν),
      (greedyPositions requested_keys (streamKeys (source_ptr requested_keys)) 0)[j]? = some q →
      (streamRows (source_ptr requested_keys))[j]? = some r →
      (getColumn source_ptr attr requested_attribute_index requested_keys
        default_values_column st).1[q]? = some (r.attrs requested_attribute_index)) ∧
    (∀ i : Nat, i < requested_keys.length →
      i ∉ greedyPositions requested_keys (streamKeys (source_ptr requested_keys)) 0 →
      (getColumn source_ptr attr requested_attribute_index requested_keys
        default_values_column st).1[i]?
        = some (DefaultValueProvider.getDefaultValue
            { default_value := attr.null_value
              default_values_column := default_values_column } i)) ∧
    (requested_keys.Nodup → ∀ v : κ → ν,
      (∀ r ∈ streamRows (source_ptr requested_keys),
        r.attrs requested_attribute_index = v r.key) →
      ∀ (i : Nat) (hi : i < requested_keys.length),
        (getColumn source_ptr attr requested_attribute_index requested_keys
          default_values_column st).1[i]?
          = some (if requested_keys[i] ∈ streamKeys (source_ptr requested_keys)
              then v requested_keys[i]
              else DefaultValueProvider.getDefaultValue
                { default_value := attr.null_value
                  default_values_column := default_values_column } i)) ∧
    (∀ (j i1 i2 : Nat) (r : Row κ ν),
      (streamRows (source_ptr requested_keys))[j]? = some r →
      i1 < i2 →
      requested_keys[i1]? = some r.key → requested_keys[i2]? = some r.key →
      (∀ i : Nat, requested_keys[i]? = some r.key → i = i1 ∨ i = i2) →
      (∀ j1 : Nat, (streamKeys (source_ptr requested_keys))[j1]? = some r.key → j1 = j) →
      (searchStart 0
          (greedyPositions requested_keys (streamKeys (source_ptr requested_keys)) 0) j ≤ i1 →
        (getColumn source_ptr attr requested_attribute_index requested_keys
          default_values_column st).1[i1]? = some (r.attrs requested_attribute_index) ∧
        (getColumn source_ptr attr requested_attribute_index requested_keys
          default_values_column st).1[i2]?
          = some (DefaultValueProvider.getDefaultValue
              { default_value := attr.null_value
                default_values_column := default_values_column } i2)) ∧
      (i1 < searchStart 0
          (greedyPositions requested_keys (streamKeys (source_ptr requested_keys)) 0) j →
        (getColumn source_ptr attr requested_attribute_index requested_keys
          default_values_column st).1[i1]?
          = some (DefaultValueProvider.getDefaultValue
              { default_value := attr.null_value
                default_values_column := default_values_column } i1) ∧
        (getColumn source_ptr attr requested_attribute_index requested_keys
          default_values_column st).1[i2]?
          = some (r.attrs requested_attribute_index))) := by
  have hout : (getColumn source_ptr attr requested_attribute_index requested_keys
      default_values_column st).1
      = [] ++ mergeRef { default_value := attr.null_value
                         default_values_column := default_values_column }
          requested_attribute_index requested_keys 0
          (streamRows (source_ptr requested_keys)) := by
    simp only [getColumn, getColumnResult_eq_mergeRef, List.nil_append]
  have hpos := greedyPositions_eq_matchPositions requested_keys requested_keys.length 0
    (streamKeys (source_ptr requested_keys)) (by simp)
  rw [List.drop_zero] at hpos
  have hkeys : streamKeys (source_ptr requested_keys)
      = (streamRows (source_ptr requested_keys)).map Row.key := rfl
  have hlen : (greedyPositions requested_keys (streamKeys (source_ptr requested_keys)) 0).length
      = (streamRows (source_ptr requested_keys)).length := by
    rw [hpos, (matchPositions_length_eq_iff _ _ _).mpr hsub, hkeys, List.length_map]
  have hvalue : ∀ (j q : Nat) (r : Row κ ν),
      (greedyPositions requested_keys (streamKeys (source_ptr requested_keys)) 0)[j]? = some q →
      (streamRows (source_ptr requested_keys))[j]? = some r →
      (getColumn source_ptr attr requested_attribute_index requested_keys
        default_values_column st).1[q]? = some (r.attrs requested_attribute_index) := by
    intro j q r hq hr
    rw [hpos, hkeys] at hq
    obtain ⟨r1, h1, h2⟩ := mergeRef_at_position
      { default_value := attr.null_value, default_values_column := default_values_column }
      requested_attribute_index requested_keys 0 (streamRows (source_ptr requested_keys))
      [] rfl j q hq
    rw [hr] at h1
    rw [hout, h2, ← Option.some.inj h1]
  have hdefault : ∀ i : Nat, i < requested_keys.length →
      i ∉ greedyPositions requested_keys (streamKeys (source_ptr requested_keys)) 0 →
      (getColumn source_ptr attr requested_attribute_index requested_keys
        default_values_column st).1[i]?
        = some (DefaultValueProvider.getDefaultValue
            { default_value := attr.null_value
              default_values_column := default_values_column } i) := by
    intro i hi hnot
    rw [hpos, hkeys] at hnot
    rw [hout]
    exact mergeRef_default_elsewhere _ _ _ 0 _ [] rfl i (Nat.zero_le _) (by omega) hnot
  have hfirst : ∀ (j q : Nat) (r : Row κ ν),
      (greedyPositions requested_keys (streamKeys (source_ptr requested_keys)) 0)[j]? = some q →
      (streamRows (source_ptr requested_keys))[j]? = some r →
      searchStart 0
          (greedyPositions requested_keys (streamKeys (source_ptr requested_keys)) 0) j ≤ q ∧
        q < requested_keys.length ∧ requested_keys[q]? = some r.key ∧
        ∀ x, searchStart 0
            (greedyPositions requested_keys (streamKeys (source_ptr requested_keys)) 0) j ≤ x →
          x < q → requested_keys[x]? ≠ some r.key := by
    intro j q r hq hr
    obtain ⟨key, h1, h2⟩ := greedyPositions_step requested_keys _ 0 j q hq
    have hkey : key = r.key := by
      rw [hkeys, List.getElem?_map, hr] at h1
      exact (Option.some.inj h1).symm
    rw [hkey] at h2
    exact firstMatchFrom_spec requested_keys r.key _ _ q rfl h2
  refine ⟨hlen, hvalue, hdefault, ?_, ?_⟩
  · intro hnodup v hval i hi
    have hfilter := sublist_eq_filter_mem_of_nodup requested_keys
      (streamKeys (source_ptr requested_keys)) hnodup hsub
    rw [hout, List.nil_append,
      mergeRef_of_filter _ _
        (fun k => decide (k ∈ streamKeys (source_ptr requested_keys))) v _ _ _ hfilter hval]
    simp [List.getElem?_enumFrom, List.getElem?_eq_getElem hi]
  · intro j i1 i2 r hr h12 hK1 hK2 honly hone
    have hjlt : j < (streamRows (source_ptr requested_keys)).length :=
      (List.getElem?_eq_some.mp hr).1
    have hq : (greedyPositions requested_keys (streamKeys (source_ptr requested_keys)) 0)[j]?
        = some ((greedyPositions requested_keys
            (streamKeys (source_ptr requested_keys)) 0)[j]) :=
      List.getElem?_eq_getElem (by omega)
    obtain ⟨hstart, hqlt, hKq, hmin⟩ := hfirst j _ r hq hr
    have hi2 : i2 < requested_keys.length := (List.getElem?_eq_some.mp hK2).1
    have hi1 : i1 < requested_keys.length := by omega
    have hunique : ∀ x,
        x ∈ greedyPositions requested_keys (streamKeys (source_ptr requested_keys)) 0 →
        requested_keys[x]? = some r.key →
        x = (greedyPositions requested_keys (streamKeys (source_ptr requested_keys)) 0)[j] := by
      intro x hx hKx
      obtain ⟨j1, hj1⟩ := List.mem_iff_getElem?.mp hx
      have hj1lt : j1 < (streamRows (source_ptr requested_keys)).length := by
        have := (List.getElem?_eq_some.mp hj1).1
        omega
      have hr1 : (streamRows (source_ptr requested_keys))[j1]?
          = some ((streamRows (source_ptr requested_keys))[j1]) :=
        List.getElem?_eq_getElem hj1lt
      obtain ⟨_, _, hKx1, _⟩ := hfirst j1 x _ hj1 hr1
      have hsame : (streamKeys (source_ptr requested_keys))[j1]? = some r.key := by
        rw [hkeys, List.getElem?_map, hr1, Option.map_some']
        rw [hKx] at hKx1
        rw [← Option.some.inj hKx1]
      have hjj := hone j1 hsame
      subst hjj
      rw [hq] at hj1
      exact (Option.some.inj hj1).symm
    rcases honly _ hKq with hq1 | hq2
    · -- the row is matched at the first occurrence
      have hnot2 : i2 ∉ greedyPositions requested_keys
          (streamKeys (source_ptr requested_keys)) 0 := by
        intro hmem
        have := hunique i2 hmem hK2
        omega
      constructor
      · intro _
        refine ⟨?_, hdefault i2 hi2 hnot2⟩
        rw [← hq1]
        exact hvalue j _ r hq hr
      · intro hlt
        omega
    · -- the row is matched at the second occurrence
      have hnot1 : i1 ∉ greedyPositions requested_keys
          (streamKeys (source_ptr requested_keys)) 0 := by
        intro hmem
        have := hunique i1 hmem hK1
        omega
      constructor
      · intro hle
        exact absurd hK1 (hmin i1 hle (by omega))
      · intro _
        refine ⟨hdefault i1 hi1 hnot1, ?_⟩
        rw [← hq2]
        exact hvalue j _ r hq hr

/-- Witness of C15 (amended): keys `[1, 2, 1]` requested, rows for `2` and `1`
returned; the rows are matched at the indices `1` and `2`, and index `0` holds its
default. -/
theorem getColumn_greedy_leftmost_witness :
    (streamKeys ((fun _ => [[⟨2, fun _ => 200⟩, ⟨1, fun _ => 100⟩]] :
        DictionarySource Nat Nat) [1, 2, 1])).Sublist [1, 2, 1] ∧
    greedyPositions [1, 2, 1]
      (streamKeys ((fun _ => [[⟨2, fun _ => 200⟩, ⟨1, fun _ => 100⟩]] :
        DictionarySource Nat Nat) [1, 2, 1])) 0 = [1, 2] ∧
    (greedyPositions [1, 2, 1]
      (streamKeys ((fun _ => [[⟨2, fun _ => 200⟩, ⟨1, fun _ => 100⟩]] :
        DictionarySource Nat Nat) [1, 2, 1])) 0).length
      = (streamRows ((fun _ => [[⟨2, fun _ => 200⟩, ⟨1, fun _ => 100⟩]] :
        DictionarySource Nat Nat) [1, 2, 1])).length ∧
    (getColumn (fun _ => [[⟨2, fun _ => 200⟩, ⟨1, fun _ => 100⟩]])
      ⟨"value", AttributeUnderlyingType.utUInt64, 0, false⟩ 0 [1, 2, 1] none ⟨0, []⟩).1[0]?
      = some (DefaultValueProvider.getDefaultValue
          { default_value := 0, default_values_column := none } 0) :=
  ⟨by decide, by decide,
    (getColumn_greedy_leftmost (fun _ => [[⟨2, fun _ => 200⟩, ⟨1, fun _ => 100⟩]])
      ⟨"value", AttributeUnderlyingType.utUInt64, 0, false⟩ 0 [1, 2, 1] none ⟨0, []⟩
      (by decide)).1,
    (getColumn_greedy_leftmost (fun _ => [[⟨2, fun _ => 200⟩, ⟨1, fun _ => 100⟩]])
      ⟨"value", AttributeUnderlyingType.utUInt64, 0, false⟩ 0 [1, 2, 1] none ⟨0, []⟩
      (by decide)).2.2.1 0 (by decide) (by decide)⟩

/-- C21. In simple-key mode, for a source that answers `loadIds` by returning, in
requested order, one row for each requested id it holds (the ids selected by `held`,
with the row `rowOf id`) and nothing for the others, `toParent(ids)` returns, has
the same length as `ids`, and its entry `i` equals the single-key lookup
`getValueOrNullByKey(ids[i])`: the stored parent when the id is present, the
hierarchical attribute's null sentinel when it is absent. The hierarchical attribute
is the attribute declared at index `h`, the only one of its name, and its
underlying type is 64-bit unsigned (as `setup` enforces). -/
theorem toParent_eq_single_key_lookup (attributes : List (DictionaryAttribute Nat))
    (hierarchical_attribute : DictionaryAttribute Nat) (h : Nat)
    (source_ptr : DictionarySource Nat Nat) (held : Nat → Bool) (rowOf : Nat → Row Nat Nat)
    (ids out : List Nat) (st : DictState Nat)
    (hidx : attributes[h]? = some hierarchical_attribute)
    (hunique : ∀ j, j ≠ h →
      (attributes[j]?).map (fun x => x.name) ≠ some hierarchical_attribute.name)
    (htype : hierarchical_attribute.underlying_type = AttributeUnderlyingType.utUInt64)
    (hkey : ∀ id, (rowOf id).key = id)
    (hsource : ∀ request, streamRows (source_ptr request) = (request.filter held).map rowOf) :
    ∃ (column : List Nat) (st1 : DictState Nat),
      toParent DictionaryKeyType.simple attributes (some hierarchical_attribute) source_ptr
        ids out st = some (Except.ok (), column, st1) ∧
      column.length = ids.length ∧
      ∀ (i : Nat) (hi : i < ids.length),
        column[i]? = some (getValueOrNullByKey source_ptr attributes hierarchical_attribute
          ids[i]) ∧
        getValueOrNullByKey source_ptr attributes hierarchical_attribute ids[i]
          = if held ids[i] = true then (rowOf ids[i]).attrs h
            else hierarchical_attribute.null_value := by
  have hattr := getAttribute_of_unique attributes hierarchical_attribute h hidx hunique
  rw [htype] at hattr
  have hindex := attributeIndexByName_of_unique attributes hierarchical_attribute h hidx hunique
  have hcol : (getColumn source_ptr hierarchical_attribute h ids none st).1
      = (ids.enumFrom 0).map (fun jk =>
          if held jk.2 = true then (rowOf jk.2).attrs h
          else DefaultValueProvider.getDefaultValue
            { default_value := hierarchical_attribute.null_value
              default_values_column := none } jk.1) := by
    simp only [getColumn, getColumnResult_eq_mergeRef]
    refine mergeRef_of_filter _ _ held (fun k => (rowOf k).attrs h) _ _ _ ?_ ?_
    · rw [hsource, List.map_map]
      conv_rhs => rw [← List.map_id (List.filter held ids)]
      apply List.map_congr_left
      intro k _
      simp [hkey]
    · intro r hr
      rw [hsource] at hr
      obtain ⟨k, _, rfl⟩ := List.mem_map.mp hr
      rw [hkey]
  have hlookup : ∀ id, getValueOrNullByKey source_ptr attributes hierarchical_attribute id
      = if held id = true then (rowOf id).attrs h else hierarchical_attribute.null_value := by
    intro id
    rw [getValueOrNullByKey_eq_find source_ptr attributes hierarchical_attribute id h hidx
      (names_before_of_unique attributes hierarchical_attribute.name h hunique), hsource]
    by_cases hh : held id = true
    · simp [hh, hkey]
    · simp [hh]
  refine ⟨(getColumn source_ptr hierarchical_attribute h ids none st).1,
    (getColumn source_ptr hierarchical_attribute h ids none st).2, ?_, ?_, ?_⟩
  · simp only [toParent, getColumnByName, hattr, hindex]
  · rw [hcol]
    simp
  · intro i hi
    refine ⟨?_, hlookup _⟩
    rw [hcol, hlookup]
    simp [List.getElem?_enumFrom, List.getElem?_eq_getElem hi,
      DefaultValueProvider.getDefaultValue]

/-- Witness of C21: attributes `name` and `parent` (hierarchical, index 1, null
sentinel `0`); the source holds the ids below `3`, the parent of `id` being
`id + 1`, and answers a request with the rows of the requested ids it holds, in
requested order. For the ids `[1, 7, 2, 1]` the parents are `[2, 0, 3, 2]`. -/
theorem toParent_eq_single_key_lookup_witness :
    (toParent DictionaryKeyType.simple
        [⟨"name", AttributeUnderlyingType.utString, 0, false⟩,
          ⟨"parent", AttributeUnderlyingType.utUInt64, 0, true⟩]
        (some ⟨"parent", AttributeUnderlyingType.utUInt64, 0, true⟩)
        (fun request => [(request.filter (fun id => decide (id < 3))).map
          (fun id => ⟨id, fun _ => id + 1⟩)])
        [1, 7, 2, 1] [] ⟨0, []⟩).map (fun r => r.2.1) = some [2, 0, 3, 2] ∧
    ∃ (column : List Nat) (st1 : DictState Nat),
      toParent DictionaryKeyType.simple
        [⟨"name", AttributeUnderlyingType.utString, 0, false⟩,
          ⟨"parent", AttributeUnderlyingType.utUInt64, 0, true⟩]
        (some ⟨"parent", AttributeUnderlyingType.utUInt64, 0, true⟩)
        (fun request => [(request.filter (fun id => decide (id < 3))).map
          (fun id => ⟨id, fun _ => id + 1⟩)])
        [1, 7, 2, 1] [] ⟨0, []⟩ = some (Except.ok (), column, st1) ∧
      column.length = [1, 7, 2, 1].length :=
  ⟨by decide,
    match toParent_eq_single_key_lookup
      [⟨"name", AttributeUnderlyingType.utString, 0, false⟩,
        ⟨"parent", AttributeUnderlyingType.utUInt64, 0, true⟩]
      ⟨"parent", AttributeUnderlyingType.utUInt64, 0, true⟩ 1
      (fun request => [(request.filter (fun id => decide (id < 3))).map
        (fun id => ⟨id, fun _ => id + 1⟩)])
      (fun id => decide (id < 3)) (fun id => ⟨id, fun _ => id + 1⟩)
      [1, 7, 2, 1] [] ⟨0, []⟩ (by simp)
      (by
        intro j hj
        cases j with
        | zero => simp
        | succ j =>
          cases j with
          | zero => exact absurd rfl hj
          | succ j => simp)
      rfl (fun _ => rfl) (fun request => by simp [streamRows]) with
    | ⟨column, st1, h1, h2, _⟩ => ⟨column, st1, h1, h2⟩⟩

end DirectDictionary
